import Mathlib

/-!
Package `mega` of megaman: share links, key unpacking and node decoding.

A shallow embedding of the protocol layer of `raystlin/megaman` (package `mega`):
`parseURL`, `unpackKey`, `fileReadCloser.Read` (dl.go), `IsFileURL`, `apiReq` (mega.go),
`parseFolderURL`, `decodeNode`, `List` (folder.go), `blockDecrypt`, `decryptAttr`,
`bytes_to_a32`, `a32_to_bytes`, `base64urldecode` (util.go).

Conventions.
* A Go `string` / `[]byte` value is the list of its bytes (`List Nat`, every byte `< 256`).
  `len` is `List.length`.
* A Go function returning `(v, err)` returns the pair of `v` and `Option GoError`
  (`none` is the `nil` error).  A function that may panic returns `Except Panic _`.
* Where Go slices share a backing array (`unpackKey`), the array is explicit (`mem`) and a
  slice is a window `Slice` on it.  The tree nodes of `List` live in a heap and a `*TreeNode`
  is a position in it.
* A Go `int` is an integer of 64 bits: `wrapInt` wraps the result of its arithmetic.  A call
  that may block on a channel returns an `Option`, `none` when it blocks.
* The standard library routines the package calls are modelled after their Go definitions:
  `strings.SplitN`, `strings.Split`, `base64.Encoding.DecodeString`, `regexp` on the two
  fixed patterns, `cipher.NewCBCDecrypter`, `binary.Read` / `binary.Write`.
  The AES block function and `json.Unmarshal` are parameters (`Env`).
-/

namespace Mega

/-! ## Errors and panics -/

/-- The error values that the package returns. -/
inductive GoError where
  /-- The package variable `errInvalidURL` (mega.go). -/
  | errInvalidURL
  /-- The package variable `errAPI` (mega.go). -/
  | errAPI
  /-- A `base64.CorruptInputError` carrying the offset of the offending byte. -/
  | corruptInputError (offset : Nat)
  /-- An `aes.KeySizeError` carrying the rejected key length. -/
  | keySizeError (n : Nat)
  /-- The error `Block decryption failed` of `blockDecrypt`. -/
  | blockDecryptionFailed
  /-- The value `io.EOF`. -/
  | eof
  /-- The value `io.ErrUnexpectedEOF`. -/
  | unexpectedEOF
  /-- The error `Invalid type %d` of `decodeNode`. -/
  | invalidType (t : Int)
  /-- The error `not enough : in item.Key: %q` of `decodeNode`. -/
  | notEnoughColons (key : List Nat)
  /-- The error `Bad Attr` created on entry of `decryptAttr`. -/
  | badAttr
  /-- An error returned by `json.Unmarshal`. -/
  | jsonError (code : Nat)
  /-- The error `Error decoding node with key %s: %w` of `List`, wrapping `err`. -/
  | errDecodingNode (key : List Nat) (err : GoError)
  deriving DecidableEq, Repr

/-- The run-time panics that the modelled code can raise. -/
inductive Panic where
  /-- Index `i` used on a slice of length `len`. -/
  | indexOutOfRange (i len : Nat)
  /-- Slice expression with upper bound `hi` on a slice of capacity `cap`. -/
  | sliceBoundsOutOfRange (hi cap : Nat)
  /-- The panic `crypto/cipher: input not full blocks`. -/
  | inputNotFullBlocks
  /-- The panic `crypto/cipher: output smaller than input`. -/
  | outputSmallerThanInput
  /-- A nil pointer dereference. -/
  | nilDereference
  /-- Slice expression `s[lo:hi]` with `hi` negative or below `lo`. -/
  | sliceBoundsLowHigh (lo : Nat) (hi : Int)
  deriving DecidableEq, Repr

/-! ## Byte strings -/

/-- The bytes of an ASCII string literal. -/
def ascii (s : String) : List Nat := s.data.map Char.toNat

/-! ## `strings.SplitN` and `strings.Split` for a one-byte separator -/

/-- Go `strings.SplitN(s, sep, n)` for `n ≥ 0` and a one-byte separator: at most `n` parts, the
last one being the unsplit remainder. -/
def splitN : Nat → List Nat → Nat → List (List Nat)
  | 0, _, _ => []
  | 1, s, _ => [s]
  | n + 2, s, sep =>
    match s.span (fun c => c != sep) with
    | (a, []) => [a]
    | (a, _ :: rest) => a :: splitN (n + 1) rest sep

/-- Go `strings.Split(s, sep)` for a one-byte separator: `SplitN` with `Count(s, sep) + 1`
parts. -/
def split (s : List Nat) (sep : Nat) : List (List Nat) :=
  splitN (s.count sep + 1) s sep

/-! ## `base64.URLEncoding.WithPadding(base64.NoPadding).DecodeString` -/

/-- The decode map of the URL alphabet `A-Z a-z 0-9 - _`; `none` stands for the entry `0xff`. -/
def decodeMap (c : Nat) : Option Nat :=
  if 65 ≤ c ∧ c ≤ 90 then some (c - 65)
  else if 97 ≤ c ∧ c ≤ 122 then some (c - 97 + 26)
  else if 48 ≤ c ∧ c ≤ 57 then some (c - 48 + 52)
  else if c = 45 then some 62
  else if c = 95 then some 63
  else none

/-- The three bytes of `val = d0<<18 | d1<<12 | d2<<6 | d3` for four sextets. -/
def quantumBytes (d0 d1 d2 d3 : Nat) : List Nat :=
  let val := d0 * 2 ^ 18 + d1 * 2 ^ 12 + d2 * 2 ^ 6 + d3
  [val / 2 ^ 16 % 256, val / 2 ^ 8 % 256, val % 256]

/-- The loop of `Encoding.Decode` over `decodeQuantum` (non-strict, no padding character).
`si` is the offset of the next input byte, `q` the sextets of the quantum under construction,
`out` the bytes written so far.  Returns the bytes written (`dst[:n]`) and the error. -/
def decodeLoop : List Nat → Nat → List Nat → List Nat → List Nat × Option GoError
  | [], si, q, out =>
    match q with
    | [] => (out, none)
    | [_] => (out, some (.corruptInputError (si - 1)))
    | [d0, d1] => (out ++ (quantumBytes d0 d1 0 0).take 1, none)
    | [d0, d1, d2] => (out ++ (quantumBytes d0 d1 d2 0).take 2, none)
    | _ => (out, none)
  | c :: cs, si, q, out =>
    match decodeMap c with
    | some v =>
      match q with
      | [d0, d1, d2] => decodeLoop cs (si + 1) [] (out ++ quantumBytes d0 d1 d2 v)
      | _ => decodeLoop cs (si + 1) (q ++ [v]) out
    | none =>
      if c = 10 ∨ c = 13 then decodeLoop cs (si + 1) q out
      else (out, some (.corruptInputError si))

/-- Go `Encoding.DecodedLen(n)` without padding. -/
def decodedLen (n : Nat) : Nat := n * 6 / 8

/-- A window on a backing array: Go slice header without the array pointer. -/
structure Slice where
  /-- Offset of the first element in the backing array. -/
  off : Nat
  /-- Length. -/
  len : Nat
  /-- Capacity. -/
  cap : Nat
  deriving DecidableEq, Repr

/-- The elements seen through the slice `s` of the array `mem`. -/
def Slice.bytes (mem : List Nat) (s : Slice) : List Nat :=
  (mem.drop s.off).take s.len

/-- Index expression `s[i]`. -/
def Slice.index (mem : List Nat) (s : Slice) (i : Nat) : Except Panic Nat :=
  if i < s.len then .ok (mem.getD (s.off + i) 0) else .error (.indexOutOfRange i s.len)

/-- Slice expression `s[lo:hi]`: the bounds are checked against the capacity. -/
def Slice.slice (s : Slice) (lo hi : Nat) : Except Panic Slice :=
  if lo ≤ hi ∧ hi ≤ s.cap then .ok ⟨s.off + lo, hi - lo, s.cap - lo⟩
  else .error (.sliceBoundsOutOfRange hi s.cap)

/-- Overwrite `mem` from position `pos` with `xs`. -/
def writeAt (mem : List Nat) (pos : Nat) (xs : List Nat) : List Nat :=
  mem.take pos ++ xs ++ mem.drop (pos + xs.length)

/-- Result of `append(s, xs...)`. -/
inductive Appended where
  /-- The capacity suffices: the backing array is updated in place and shared. -/
  | inPlace (mem : List Nat) (s : Slice)
  /-- A new backing array is allocated; its contents are given. -/
  | fresh (bytes : List Nat)
  deriving DecidableEq, Repr

/-- Go `append(s, xs...)` on a slice `s` of the array `mem`. -/
def goAppend (mem : List Nat) (s : Slice) (xs : List Nat) : Appended :=
  if s.len + xs.length ≤ s.cap then
    .inPlace (writeAt mem (s.off + s.len) xs) ⟨s.off, s.len + xs.length, s.cap⟩
  else .fresh (s.bytes mem ++ xs)

/-- Go `DecodeString`: `dbuf := make([]byte, DecodedLen(len(s)))`, `n, err := Decode(dbuf, s)`,
result `dbuf[:n], err`.  Returns the backing array `dbuf`, the slice header and the error. -/
def decodeString (s : List Nat) : List Nat × Slice × Option GoError :=
  let r := decodeLoop s 0 [] []
  let cap := decodedLen s.length
  (r.1 ++ List.replicate (cap - r.1.length) 0, ⟨0, r.1.length, cap⟩, r.2)

/-- util.go `base64urldecode`, seen as a byte string and an error. -/
def base64urldecode (data : List Nat) : List Nat × Option GoError :=
  let r := decodeString data
  (r.2.1.bytes r.1, r.2.2)

/-! ## File links: `parseURL`, `IsFileURL`, `unpackKey` -/

/-- The literal `https://mega.nz/#` of `parseURL`. -/
def fileURLPrefix : List Nat := ascii "https://mega.nz/#"

/-- dl.go `parseURL`: returns `(handle, key, err)`. -/
def parseURL (url : List Nat) : List Nat × List Nat × Option GoError :=
  match splitN 3 url 33 with
  | [p0, p1, p2] =>
    if p0 ≠ fileURLPrefix then ([], [], some .errInvalidURL)
    else if p1.length ≠ 8 ∨ p2.length ≠ 43 then (p1, p2, some .errInvalidURL)
    else (p1, p2, none)
  | _ => ([], [], some .errInvalidURL)

/-- mega.go `IsFileURL`. -/
def IsFileURL (url : List Nat) : Bool := (parseURL url).2.2.isNone

/-- The loop `for i := 0; i < 16; i++ { aesKey = append(aesKey, decodedKey[i]^decodedKey[i+16]) }`
of `unpackKey`, from index `i` for `n` more rounds. -/
def xorLoop (mem : List Nat) (d : Slice) : Nat → Nat → List Nat → Except Panic (List Nat)
  | 0, _, aesKey => .ok aesKey
  | n + 1, i, aesKey => do
    let a ← d.index mem i
    let b ← d.index mem (i + 16)
    xorLoop mem d n (i + 1) (aesKey ++ [a ^^^ b])

/-- dl.go `unpackKey`: returns `(aesKey, aesIV, mac, err)` as the caller reads them on return. -/
def unpackKey (key : List Nat) : Except Panic (List Nat × List Nat × List Nat × Option GoError) :=
  match decodeString key with
  | (_, _, some err) => .ok ([], [], [], some err)
  | (mem, decodedKey, none) => do
    let aesKey ← xorLoop mem decodedKey 16 0 []
    let ivSrc ← decodedKey.slice 16 24
    match goAppend mem ivSrc (List.replicate 8 0) with
    | .inPlace mem1 aesIV =>
      let mac ← decodedKey.slice 24 32
      .ok (aesKey, aesIV.bytes mem1, mac.bytes mem1, none)
    | .fresh ivBytes =>
      let mac ← decodedKey.slice 24 32
      .ok (aesKey, ivBytes, mac.bytes mem, none)


/-! ## Folder links: the pattern `folderURLRE` and `parseFolderURL` -/

/-- The character class `[A-Za-z0-9-_]` of `folderURLRE`: the base64url alphabet. -/
def isURLClass (c : Nat) : Bool :=
  (65 ≤ c && c ≤ 90) || (97 ≤ c && c ≤ 122) || (48 ≤ c && c ≤ 57) || c == 45 || c == 95

/-- UTF-8 continuation byte. -/
def isCont (b : Nat) : Bool := 128 ≤ b && b ≤ 191

/-- Width in bytes of the first rune of `s` as `utf8.DecodeRuneInString` reports it: an invalid
or truncated encoding is a rune of width 1; the empty string has width 0. -/
def runeWidth : List Nat → Nat
  | [] => 0
  | p0 :: rest =>
    if p0 < 128 then 1
    else if 194 ≤ p0 ∧ p0 ≤ 223 then
      match rest with
      | b1 :: _ => if isCont b1 then 2 else 1
      | _ => 1
    else if 224 ≤ p0 ∧ p0 ≤ 239 then
      let lo := if p0 = 224 then 160 else 128
      let hi := if p0 = 237 then 159 else 191
      match rest with
      | b1 :: b2 :: _ => if lo ≤ b1 ∧ b1 ≤ hi ∧ isCont b2 = true then 3 else 1
      | _ => 1
    else if 240 ≤ p0 ∧ p0 ≤ 244 then
      let lo := if p0 = 240 then 144 else 128
      let hi := if p0 = 244 then 143 else 191
      match rest with
      | b1 :: b2 :: b3 :: _ =>
        if lo ≤ b1 ∧ b1 ≤ hi ∧ isCont b2 = true ∧ isCont b3 = true then 4 else 1
      | _ => 1
    else 1

/-- Remove the literal `lit` from the front of `s`. -/
def stripLit : List Nat → List Nat → Option (List Nat)
  | [], s => some s
  | _ :: _, [] => none
  | l :: ls, c :: cs => if l = c then stripLit ls cs else none

/-- Match `https://mega.nz/folder/([A-Za-z0-9-_]*)#([A-Za-z0-9-_]*)` at the start of `s`: the
literal `https://mega`, one rune other than a newline (the unescaped dot), the literal
`nz/folder/`, the longest run of class bytes, `#`, and again the longest run of class bytes
(the class has no `#`, so the greedy runs are the only candidates).  Returns the two groups
and the unmatched rest. -/
def folderMatchAt (s : List Nat) : Option (List Nat × List Nat × List Nat) :=
  match stripLit (ascii "https://mega") s with
  | none => none
  | some r1 =>
    match r1 with
    | [] => none
    | c :: _ =>
      if c = 10 then none
      else
        match stripLit (ascii "nz/folder/") (r1.drop (runeWidth r1)) with
        | none => none
        | some r3 =>
          match r3.dropWhile isURLClass with
          | 35 :: r5 =>
            some (r3.takeWhile isURLClass, r5.takeWhile isURLClass, r5.dropWhile isURLClass)
          | _ => none

/-- Go `folderURLRE.FindStringSubmatch(url)`: the leftmost match with its two groups, or the
empty list when the pattern does not occur. -/
def folderFindStringSubmatch : List Nat → List (List Nat)
  | [] => []
  | c :: cs =>
    match folderMatchAt (c :: cs) with
    | some (g1, g2, rest) => [(c :: cs).take ((c :: cs).length - rest.length), g1, g2]
    | none => folderFindStringSubmatch cs

/-- mega.go `IsFolderURL`. -/
def IsFolderURL (url : List Nat) : Bool := !(folderFindStringSubmatch url).isEmpty

/-- folder.go `parseFolderURL`: returns `(handle, key, err)`. -/
def parseFolderURL (url : List Nat) : List Nat × List Nat × Option GoError :=
  let split := folderFindStringSubmatch url
  if split.length = 0 then ([], [], some .errInvalidURL)
  else
    let handle := split.getD 1 []
    let key := split.getD 2 []
    if handle.length ≠ 8 ∨ key.length ≠ 22 then (handle, key, some .errInvalidURL)
    else (handle, key, none)

/-! ## Word conversions (util.go) -/

/-- The loop of `bytes_to_a32`: `binary.Read(buf, binary.BigEndian, &a[i])` for `n` words. -/
def readWords : Nat → List Nat → List Nat → List Nat × Option GoError
  | 0, _, a => (a, none)
  | _ + 1, [], _ => ([], some .eof)
  | n + 1, b0 :: b1 :: b2 :: b3 :: rest, a =>
    readWords n rest (a ++ [b0 * 2 ^ 24 + b1 * 2 ^ 16 + b2 * 2 ^ 8 + b3])
  | _ + 1, _, _ => ([], some .unexpectedEOF)

/-- util.go `bytes_to_a32`. -/
def bytes_to_a32 (b : List Nat) : List Nat × Option GoError :=
  let length := b.length + 2
  readWords (length / 4) b []

/-- The four bytes `binary.Write(buf, binary.BigEndian, v)` appends for a `uint32`. -/
def wordBytes (v : Nat) : List Nat :=
  [v / 2 ^ 24 % 256, v / 2 ^ 16 % 256, v / 2 ^ 8 % 256, v % 256]

/-- util.go `a32_to_bytes`; writing to a `bytes.Buffer` never fails. -/
def a32_to_bytes (a : List Nat) : List Nat × Option GoError :=
  (a.flatMap wordBytes, none)

/-! ## Ciphers -/

/-- The library functions taken as parameters. -/
structure Env where
  /-- The AES inverse cipher of `crypto/aes`: key and 16-byte block to 16-byte block. -/
  aesDecrypt : List Nat → List Nat → List Nat
  /-- Go `json.Unmarshal(data, &attr)` on a zero `FileAttr`: the resulting `Name` and the
  error. -/
  jsonUnmarshal : List Nat → List Nat × Option GoError
  /-- The block function writes 16 bytes. -/
  aesDecrypt_length : ∀ key blk, (aesDecrypt key blk).length = 16
  /-- The block function writes bytes. -/
  aesDecrypt_byte : ∀ key blk, ∀ x ∈ aesDecrypt key blk, x < 256

/-- Go `aes.NewCipher(key)`: the error, `none` for a key of 16, 24 or 32 bytes. -/
def newCipher (key : List Nat) : Option GoError :=
  if key.length = 16 ∨ key.length = 24 ∨ key.length = 32 then none
  else some (.keySizeError key.length)

/-- The loop `for i := 0; i <= l; i += blk.BlockSize() { blk.Decrypt(dst[i:], src[i:]) }` of
`blockDecrypt`, for `n` blocks. -/
def ecbLoop (dec : List Nat → List Nat) : Nat → List Nat → List Nat
  | 0, _ => []
  | n + 1, src => dec (src.take 16) ++ ecbLoop dec n (src.drop 16)

/-- util.go `blockDecrypt(blk, dst, src)` with `blk` the AES cipher for `key`: returns the new
contents of `dst` and the error. -/
def blockDecrypt (env : Env) (key dst src : List Nat) : List Nat × Option GoError :=
  if src.length > dst.length ∨ src.length % 16 ≠ 0 then (dst, some .blockDecryptionFailed)
  else (writeAt dst 0 (ecbLoop (env.aesDecrypt key) (src.length / 16) src), none)

/-- Bytewise exclusive or. -/
def xorBytes (a b : List Nat) : List Nat := List.zipWith (fun x y => x ^^^ y) a b

/-- The block chain of a CBC decrypter for `n` blocks: each block is deciphered and combined
with the previous ciphertext block (`prev`, at first the IV). -/
def cbcLoop (dec : List Nat → List Nat) : Nat → List Nat → List Nat → List Nat
  | 0, _, _ => []
  | n + 1, prev, src =>
    xorBytes (dec (src.take 16)) prev ++ cbcLoop dec n (src.take 16) (src.drop 16)

/-- Go `cipher.NewCBCDecrypter(block, iv).CryptBlocks(dst, src)`: the new contents of `dst`. -/
def cryptBlocks (env : Env) (key iv dst src : List Nat) : Except Panic (List Nat) :=
  if src.length % 16 ≠ 0 then .error .inputNotFullBlocks
  else if dst.length < src.length then .error .outputSmallerThanInput
  else .ok (writeAt dst 0 (cbcLoop (env.aesDecrypt key) (src.length / 16) iv src))

/-! ## Attributes (util.go `decryptAttr`) -/

/-- dl.go `FileAttr`. -/
structure FileAttr where
  /-- The field `Name`. -/
  Name : List Nat := []
  deriving DecidableEq, Repr

/-- The longest prefix of `s` that ends in `"}` and holds no newline. -/
def lastQuoteBrace : List Nat → Option (List Nat)
  | [] => none
  | c :: cs =>
    if c = 10 then none
    else
      match lastQuoteBrace cs with
      | some p => some (c :: p)
      | none => if c = 34 ∧ cs.head? = some 125 then some [34, 125] else none

/-- Go `attrMatch.FindString(s)` for the pattern `{".*"}`: the leftmost, longest-by-greed match,
or the empty string. -/
def attrMatchFindString : List Nat → List Nat
  | [] => []
  | c :: cs =>
    match c, cs with
    | 123, 34 :: rest =>
      match lastQuoteBrace rest with
      | some p => 123 :: 34 :: p
      | none => attrMatchFindString cs
    | _, _ => attrMatchFindString cs

/-- Go `strings.TrimRight(s, "\x00")`. -/
def trimRightZero (s : List Nat) : List Nat := s.rdropWhile (fun c => c == 0)

set_option linter.unusedVariables false in
/-- util.go `decryptAttr`: returns `(attr, err)`.  The variable `err` of the source is rebound at
each assignment, in the order of the source. -/
def decryptAttr (env : Env) (key data : List Nat) : Except Panic (FileAttr × Option GoError) :=
  let attr : FileAttr := {}
  let err : Option GoError := some .badAttr
  let err := newCipher key
  if err ≠ none then .ok (attr, err)
  else
    let (iv, err) := a32_to_bytes [0, 0, 0, 0]
    if err ≠ none then .ok (attr, err)
    else
      let buf := List.replicate data.length 0
      let (ddata, err) := base64urldecode data
      if err ≠ none then .ok (attr, err)
      else do
        let buf ← cryptBlocks env key iv buf ddata
        if buf.length < 4 then .error (.sliceBoundsOutOfRange 4 buf.length)
        else if buf.take 4 = ascii "MEGA" then
          let str := trimRightZero (buf.drop 4)
          let trimmed := attrMatchFindString str
          let str := if trimmed ≠ [] then trimmed else str
          let (name, err) := env.jsonUnmarshal str
          .ok ({ Name := name }, err)
        else .ok (attr, err)

/-! ## Nodes (folder.go) -/

/-- folder.go `NodeMeta`. -/
structure NodeMeta where
  /-- Content key. -/
  key : List Nat := []
  /-- Raw compound key. -/
  compkey : List Nat := []
  /-- Counter seed. -/
  iv : List Nat := []
  /-- MAC tag. -/
  mac : List Nat := []
  /-- Share handle. -/
  context : List Nat := []
  deriving DecidableEq, Repr

/-- folder.go `FSNode`. -/
structure FSNode where
  /-- JSON field `h`. -/
  Hash : List Nat := []
  /-- JSON field `p`. -/
  Parent : List Nat := []
  /-- JSON field `u`. -/
  User : List Nat := []
  /-- JSON field `t`. -/
  T : Int := 0
  /-- JSON field `a`. -/
  Attr : List Nat := []
  /-- JSON field `k`. -/
  Key : List Nat := []
  /-- JSON field `ts`. -/
  Ts : Int := 0
  /-- JSON field `s`. -/
  Sz : Int := 0
  /-- JSON field `fa`. -/
  Fa : List Nat := []
  /-- Crypto metadata. -/
  meta : NodeMeta := {}
  deriving DecidableEq, Repr

/-- folder.go `FileType`. -/
def FileType : Int := 0
/-- folder.go `FolderType`. -/
def FolderType : Int := 1
/-- folder.go `RootType`. -/
def RootType : Int := 2
/-- folder.go `InboxType`. -/
def InboxType : Int := 3
/-- folder.go `TrashType`. -/
def TrashType : Int := 4

/-- folder.go `FSNode.IsDecoded`. -/
def FSNode.IsDecoded (n : FSNode) : Bool := decide (n.meta.key.length > 0)
/-- folder.go `FSNode.Name`. -/
def FSNode.Name (n : FSNode) : List Nat := if !n.IsDecoded then [] else n.Attr
/-- folder.go `FSNode.IsFile`. -/
def FSNode.IsFile (n : FSNode) : Bool := decide (n.T = FileType)
/-- folder.go `FSNode.IsDir`. -/
def FSNode.IsDir (n : FSNode) : Bool := decide (n.T = FolderType)
/-- folder.go `FSNode.IsRoot`. -/
def FSNode.IsRoot (n : FSNode) : Bool := decide (n.T = RootType)
/-- folder.go `FSNode.IsInbox`. -/
def FSNode.IsInbox (n : FSNode) : Bool := decide (n.T = InboxType)
/-- folder.go `FSNode.IsTrash`. -/
def FSNode.IsTrash (n : FSNode) : Bool := decide (n.T = TrashType)

/-- The sentinel name of `decodeNode`. -/
def badAttribute : List Nat := ascii "BAD ATTRIBUTE"

/-- Lines 248-259 of `decodeNode`: the name attribute for the content key words `key`. -/
def decodeNodeAttr (env : Env) (key : List Nat) (data : List Nat) : Except Panic FileAttr :=
  let attr : FileAttr := {}
  let (bkey, err) := a32_to_bytes key
  if err ≠ none then .ok { attr with Name := badAttribute }
  else do
    let (attr, err) ← decryptAttr env bkey data
    if err ≠ none then .ok { attr with Name := badAttribute }
    else .ok attr

/-- Lines 261-298 of `decodeNode`: the key material and the name are stored in the node. -/
def decodeNodeStore (node : FSNode) (key compkey : List Nat) (attr : FileAttr) :
    Option FSNode × Option GoError :=
  if node.IsFile then
    let (k1, e1) := a32_to_bytes key
    if e1 ≠ none then (none, e1)
    else
      let (iv, e2) := a32_to_bytes [compkey.getD 4 0, compkey.getD 5 0, 0, 0]
      if e2 ≠ none then (none, e2)
      else
        let (mac, e3) := a32_to_bytes [compkey.getD 6 0, compkey.getD 7 0]
        if e3 ≠ none then (none, e3)
        else
          let (ck, e4) := a32_to_bytes compkey
          if e4 ≠ none then (none, e4)
          else
            (some { node with
              meta := { node.meta with key := k1, iv := iv, mac := mac, compkey := ck },
              Attr := attr.Name }, none)
  else if node.IsDir then
    let (k1, e1) := a32_to_bytes key
    if e1 ≠ none then (none, e1)
    else
      let (ck, e2) := a32_to_bytes compkey
      if e2 ≠ none then (none, e2)
      else
        (some { node with
          meta := { node.meta with key := k1, compkey := ck },
          Attr := attr.Name }, none)
  else if node.IsRoot then (some { node with Attr := ascii "Cloud Drive" }, none)
  else if node.IsInbox then (some { node with Attr := ascii "InBox" }, none)
  else if node.IsTrash then (some { node with Attr := ascii "Trash" }, none)
  else (some { node with Attr := ascii "Unknown node type " ++ ascii (toString node.T) }, none)

/-- Lines 238-246 of `decodeNode`: the content key words, for a file of at least 8 words the
fold of the first four words with the next four, for a folder the compound key itself. -/
def contentKey (node : FSNode) (compkey : List Nat) : List Nat :=
  if node.IsFile then
    [compkey.getD 0 0 ^^^ compkey.getD 4 0, compkey.getD 1 0 ^^^ compkey.getD 5 0,
      compkey.getD 2 0 ^^^ compkey.getD 6 0, compkey.getD 3 0 ^^^ compkey.getD 7 0]
  else compkey

/-- folder.go `decodeNode(k, node)`: returns `(node, err)`; the node is `none` for `nil`. -/
def decodeNode (env : Env) (k : List Nat) (node : FSNode) :
    Except Panic (Option FSNode × Option GoError) :=
  if !node.IsDir && !node.IsFile then .ok (none, some (.invalidType node.T))
  else
    let args := split node.Key 58
    if args.length < 2 then .ok (none, some (.notEnoughColons node.Key))
    else
      let itemKey := args.getD 1 []
      match base64urldecode k with
      | (_, some e) => .ok (none, some e)
      | (b, none) =>
        match newCipher b with
        | some e => .ok (none, some e)
        | none =>
          match base64urldecode itemKey with
          | (_, some e) => .ok (none, some e)
          | (buf0, none) =>
            match blockDecrypt env b buf0 buf0 with
            | (_, some e) => .ok (none, some e)
            | (buf, none) =>
              match bytes_to_a32 buf with
              | (_, some e) => .ok (none, some e)
              | (compkey, none) =>
                if node.IsFile ∧ compkey.length < 8 then .ok (none, none)
                else
                  let key := contentKey node compkey
                  do
                    let attr ← decodeNodeAttr env key node.Attr
                    .ok (decodeNodeStore node key compkey attr)

/-! ## Folder listing (folder.go `List`) -/

/-- folder.go `TreeNode`.  A `*TreeNode` is a position in the heap of tree nodes; `Node` holds
the contents of the `FSNode` it points to (an element of `resp.F`, which nothing changes after
its own turn of the loop). -/
structure TreeNode where
  /-- The field `Node`, `none` for `nil`. -/
  Node : Option FSNode := none
  /-- The field `Children`: pointers to tree nodes. -/
  Children : List Nat := []
  deriving DecidableEq, Repr

/-- folder.go `FileSystem`. -/
structure FileSystem where
  /-- The field `Roots`: pointers to tree nodes. -/
  Roots : List Nat := []
  deriving DecidableEq, Repr

/-- The map `searchTree` together with the tree nodes it points to: the entries in the order of
their insertion, each with its key and its tree node.  Every `&TreeNode{…}` of `List` is stored
at once under a key that has no entry, and an entry keeps its pointer, so that a `*TreeNode`
is the position of its entry. -/
abbrev SearchTree := List (List Nat × TreeNode)

/-- The position of the first key equal to `h` in a list of keys. -/
def keyIndex (h : List Nat) : List (List Nat) → Nat
  | [] => 0
  | k :: ks => if k = h then 0 else keyIndex h ks + 1

/-- The lookup `searchTree[h]`: the pointer of the entry with key `h`, if any. -/
def SearchTree.lookup (m : SearchTree) (h : List Nat) : Option Nat :=
  if h ∈ m.map Prod.fst then some (keyIndex h (m.map Prod.fst)) else none

/-- Assignment to a field through the pointer `p`: the tree node at `p` becomes `f` of it. -/
def modifyAt (f : TreeNode → TreeNode) : Nat → SearchTree → SearchTree
  | _, [] => []
  | 0, (k, t) :: m => (k, f t) :: m
  | p + 1, e :: m => e :: modifyAt f p m

/-- The assignment `item.meta.context = handle`. -/
def FSNode.withContext (item : FSNode) (handle : List Nat) : FSNode :=
  { item with meta := { item.meta with context := handle } }

/-- The assignment `node.Node = &resp.F[i]`, for the contents `n` of `resp.F[i]`. -/
def TreeNode.setNode (n : FSNode) (t : TreeNode) : TreeNode :=
  { t with Node := some n }

/-- The assignment `parent.Children = append(parent.Children, node)`. -/
def TreeNode.addChild (node : Nat) (t : TreeNode) : TreeNode :=
  { t with Children := t.Children ++ [node] }

/-- Lines 164-179 of `List`: the tree node of `resp.F[i]`.  Without an entry for its hash the
node is decoded, given the share handle as context and put in a new tree node; with an entry,
the node is stored in the tree node of the entry as it is.  Returns the new state and the
pointer `node`, or the error of `List`.  (`decodeNode` changes neither `Hash` nor `Parent`.) -/
def attachNode (env : Env) (handle key : List Nat) (m : SearchTree) (n : FSNode) :
    Except Panic (Except GoError (SearchTree × Nat)) :=
  match m.lookup n.Hash with
  | none =>
    match decodeNode env key n with
    | .error p => .error p
    | .ok (_, some err) => .ok (.error (.errDecodingNode key err))
    | .ok (none, none) => .error .nilDereference
    | .ok (some item, none) =>
      .ok (.ok (m ++ [(n.Hash, { Node := some (item.withContext handle), Children := [] })],
        m.length))
  | some p => .ok (.ok (modifyAt (TreeNode.setNode n) p m, p))

/-- Lines 181-189 of `List`: the tree node `node` becomes a child of the entry of the parent
hash, which is created when missing. -/
def attachToParent (m : SearchTree) (parentHash : List Nat) (node : Nat) : SearchTree :=
  match m.lookup parentHash with
  | none => m ++ [(parentHash, { Node := none, Children := [node] })]
  | some q => modifyAt (TreeNode.addChild node) q m

/-- One turn of the loop `for i := range resp.F` of `List`. -/
def listStep (env : Env) (handle key : List Nat) (m : SearchTree) (n : FSNode) :
    Except Panic (Except GoError SearchTree) :=
  match attachNode env handle key m n with
  | .error p => .error p
  | .ok (.error e) => .ok (.error e)
  | .ok (.ok (m1, node)) => .ok (.ok (attachToParent m1 n.Parent node))

/-- The loop `for i := range resp.F` of `List`. -/
def listLoop (env : Env) (handle key : List Nat) :
    List FSNode → SearchTree → Except Panic (Except GoError SearchTree)
  | [], m => .ok (.ok m)
  | n :: ns, m =>
    match listStep env handle key m n with
    | .error p => .error p
    | .ok (.error e) => .ok (.error e)
    | .ok (.ok m1) => listLoop env handle key ns m1

/-- Lines 192-197 of `List`: the children of the entries without a node, here in the order of
insertion of the entries (Go leaves the order of a map range unspecified). -/
def collectRoots (m : SearchTree) : List Nat :=
  m.flatMap (fun e => if e.2.Node.isNone then e.2.Children else [])

/-- folder.go `List`, given the outcome `api` of the call `apiReq` (the nodes `resp.F` and the
error).  Returns the file system with the heap of tree nodes its pointers refer to, and the
error. -/
def ListFolder (env : Env) (folderURL : List Nat)
    (api : Except Panic (List FSNode × Option GoError)) :
    Except Panic (Option (FileSystem × List TreeNode) × Option GoError) :=
  match parseFolderURL folderURL with
  | (_, _, some err) => .ok (none, some err)
  | (handle, key, none) =>
    match api with
    | .error p => .error p
    | .ok (_, some err) => .ok (none, some err)
    | .ok (F, none) =>
      match listLoop env handle key F [] with
      | .error p => .error p
      | .ok (.error e) => .ok (none, some e)
      | .ok (.ok m) => .ok (some ({ Roots := collectRoots m }, m.map Prod.snd), none)

/-- The hash of the node held by the tree node at `p`. -/
def hashAt (heap : List TreeNode) (p : Nat) : Option (List Nat) :=
  heap[p]?.bind (fun t => t.Node.map (fun n => n.Hash))

/-- The hashes of the nodes held by the roots. -/
def rootHashes (fs : FileSystem) (heap : List TreeNode) : List (List Nat) :=
  fs.Roots.filterMap (hashAt heap)

/-- The hashes of the nodes held by the children of the tree nodes that hold a node of hash
`h`. -/
def childHashes (heap : List TreeNode) (h : List Nat) : List (List Nat) :=
  (heap.filter (fun t => t.Node.map (fun n => n.Hash) == some h)).flatMap
    (fun t => t.Children.filterMap (hashAt heap))

/-- A tree node of the forest: a root, or a child of a tree node of the forest. -/
inductive Reachable (fs : FileSystem) (heap : List TreeNode) : Nat → Prop where
  /-- The roots. -/
  | root (p : Nat) : p ∈ fs.Roots → Reachable fs heap p
  /-- The children. -/
  | child (q p : Nat) (t : TreeNode) : Reachable fs heap q → heap[q]? = some t →
      p ∈ t.Children → Reachable fs heap p

/-- The state of the loop of `List` after the nodes `P`: the keys are without repetition and
are the hashes and parent hashes of `P`; the children of the entry of `h` are the tree nodes of
the nodes of `P` with parent hash `h`, in their order; the entry of `h` holds a node, of hash
`h`, exactly when `h` is the hash of a node of `P`. -/
structure ListInv (P : List FSNode) (m : SearchTree) : Prop where
  /-- No key occurs twice. -/
  nodup : (m.map Prod.fst).Nodup
  /-- The keys are the hashes and the parent hashes. -/
  keys : ∀ h, h ∈ m.map Prod.fst ↔ (∃ n ∈ P, n.Hash = h) ∨ (∃ n ∈ P, n.Parent = h)
  /-- The children of an entry. -/
  children : ∀ e ∈ m, e.2.Children
    = (P.filter (fun n => n.Parent = e.1)).map (fun n => keyIndex n.Hash (m.map Prod.fst))
  /-- The node of an entry. -/
  node : ∀ e ∈ m, e.2.Node.map (fun n => n.Hash)
    = if (∃ n ∈ P, n.Hash = e.1) then some e.1 else none

/-! ## The command API (mega.go `apiReq`) -/

/-- Whether `strconv.ParseInt(s, 10, 64)` returns a `nil` error: an optional sign, at least one
decimal digit, and a value in the range of `int64`. -/
def parseIntOk (s : List Nat) : Bool :=
  match s with
  | [] => false
  | c :: cs =>
    let neg := c == 45
    let ds := if c == 43 || c == 45 then cs else c :: cs
    if ds.isEmpty || !(ds.all (fun d => 48 ≤ d && d ≤ 57)) then false
    else
      let un := ds.foldl (fun a d => a * 10 + (d - 48)) 0
      if !neg && un ≥ 2 ^ 63 then false
      else if neg && un > 2 ^ 63 then false
      else true

/-- Lines 64-83 of `apiReq`, from the body read off the response: the body loses its first and
last byte, is given to `json.Unmarshal` (`unmarshal` is its error on the response object), and
a failure on a text that `strconv.ParseInt` accepts becomes `errAPI`. -/
def apiReq (unmarshal : List Nat → Option GoError) (bodyBytes : List Nat) :
    Except Panic (Option GoError) :=
  if bodyBytes.length < 1 then .error (.sliceBoundsLowHigh 1 (-1))
  else if bodyBytes.length - 1 < 1 then .error (.sliceBoundsLowHigh 1 0)
  else
    let body := (bodyBytes.drop 1).take (bodyBytes.length - 1 - 1)
    match unmarshal body with
    | some err => if parseIntOk body then .ok (some .errAPI) else .ok (some err)
    | none => .ok none

/-! ## Download progress (dl.go `fileReadCloser`) -/

/-- The Go `int` of a 64-bit platform: the value of an integer expression, wrapped into the range
from `-2^63` to `2^63 - 1`. -/
def wrapInt (x : Int) : Int := (x + 2 ^ 63) % 2 ^ 64 - 2 ^ 63

/-- dl.go `fileReadCloser`, as far as `Read` uses it: the running total and the contents of the
buffered channel `FileInfo.Progress`, oldest value first. -/
structure fileReadCloser where
  /-- The field `Total`, a Go `int`. -/
  Total : Int := 0
  /-- The values waiting in the channel `FileInfo.Progress`. -/
  Progress : List Int := []
  deriving DecidableEq, Repr

/-- The capacity of the channel made by `make(chan int, 10)`. -/
def progressCap : Nat := 10

/-- A Go `select` whose only communication is the send of `v` on the channel `Progress` holding
`buf`: with room in the channel the value is queued; on a full channel the `default` case
runs, when the `select` has one, and leaves the channel as it is; without a `default` case the
goroutine blocks, which is the result `none`. -/
def selectSend (hasDefault : Bool) (buf : List Int) (v : Int) : Option (List Int) :=
  if buf.length < progressCap then some (buf ++ [v])
  else if hasDefault then some buf
  else none

/-- dl.go `fileReadCloser.Read`, for a call of the underlying reader that returns the count
`n`: `f.Total += n` in the arithmetic of the Go `int`, then the `select` that sends `Total` on
the channel and has a `default` case.  The result is `none` when the call blocks on the
channel. -/
def fileReadCloser.Read (f : fileReadCloser) (n : Int) : Option fileReadCloser :=
  let total := wrapInt (f.Total + n)
  match selectSend true f.Progress total with
  | some buf => some { Total := total, Progress := buf }
  | none => none

/-- What happens to a `fileReadCloser`: a call of `Read` whose underlying reader returns `n`,
or a receive of the consumer on the channel. -/
inductive Event where
  /-- A call of `Read`. -/
  | read (n : Int)
  /-- A receive on `Progress`. -/
  | recv
  deriving DecidableEq, Repr

/-- The run of a schedule of events from the state `f`, with `got` the values that the consumer
has received so far: returns the final state and all the values received, or `none` when a
call of `Read` blocks.  A receive on the empty channel takes nothing (the consumer waits). -/
def runEvents : List Event → fileReadCloser → List Int → Option (fileReadCloser × List Int)
  | [], f, got => some (f, got)
  | .read n :: es, f, got =>
    match f.Read n with
    | some f1 => runEvents es f1 got
    | none => none
  | .recv :: es, f, got =>
    match f.Progress with
    | [] => runEvents es f got
    | v :: rest => runEvents es { f with Progress := rest } (got ++ [v])

/-- The running totals of the calls of `Read` of a schedule, from the total `t`: the values of
`f.Total` after each call. -/
def runningTotals : List Event → Int → List Int
  | [], _ => []
  | .read n :: es, t => wrapInt (t + n) :: runningTotals es (wrapInt (t + n))
  | .recv :: es, t => runningTotals es t

/-- The sum of the counts of the calls of `Read` of a schedule. -/
def readCounts : List Event → Int
  | [] => 0
  | .read n :: es => n + readCounts es
  | .recv :: es => readCounts es

/-- An environment for evaluating the definitions on concrete inputs: the block function
complements the 16 bytes of the block, and the JSON decoder takes the whole text as the name. -/
def toyEnv : Env where
  aesDecrypt := fun _ blk => (List.range 16).map (fun i => 255 - blk.getD i 0 % 256)
  jsonUnmarshal := fun s => (s, none)
  aesDecrypt_length := by simp
  aesDecrypt_byte := by
    intro _ blk x hx
    simp only [List.mem_map] at hx
    obtain ⟨i, _, rfl⟩ := hx
    omega

/-! ## Sample inputs -/

/-- A folder link with the handle `abcdefgh` and the key of 16 zero bytes. -/
def sampleURL : List Nat := ascii "https://mega.nz/folder/abcdefgh#AAAAAAAAAAAAAAAAAAAAAA"

/-- The key token of `sampleURL`. -/
def sampleKey : List Nat := ascii "AAAAAAAAAAAAAAAAAAAAAA"

/-- A folder of hash `A` under the unlisted hash `root`, as the JSON decoder leaves it. -/
def sampleFolderA : FSNode :=
  { Hash := ascii "A", Parent := ascii "root", T := 1, Key := ascii "u:AAAAAAAAAAAAAAAAAAAAAA",
    Attr := ascii "AAAAAAAAAAAAAAAAAAAAAA" }

/-- A file of hash `B` in the folder `A`, with a key segment of two blocks. -/
def sampleFileB : FSNode :=
  { Hash := ascii "B", Parent := ascii "A", T := 0, Key := ascii "u:" ++ List.replicate 43 65,
    Attr := ascii "AAAAAAAAAAAAAAAAAAAAAA" }

/-- A file of hash `F` in the folder `A`, with a key segment of a single block. -/
def sampleShortFile : FSNode :=
  { Hash := ascii "F", Parent := ascii "A", T := 0, Key := ascii "u:AAAAAAAAAAAAAAAAAAAAAA",
    Attr := ascii "AAAAAAAAAAAAAAAAAAAAAA" }

/-- A folder of hash `S` that names itself as its parent. -/
def sampleSelfParent : FSNode :=
  { Hash := ascii "S", Parent := ascii "S", T := 1, Key := ascii "u:AAAAAAAAAAAAAAAAAAAAAA",
    Attr := ascii "AAAAAAAAAAAAAAAAAAAAAA" }

/-! ## Base64 decoding of alphabet strings -/

theorem decodeMap_of_class (c : Nat) (h : isURLClass c = true) : ∃ v, decodeMap c = some v := by
  simp only [isURLClass, Bool.or_eq_true, Bool.and_eq_true, decide_eq_true_eq, beq_iff_eq] at h
  unfold decodeMap
  split_ifs <;> first | exact ⟨_, rfl⟩ | omega

theorem decodeLoop_class (cs : List Nat) :
    ∀ (si : Nat) (q out : List Nat), (∀ c ∈ cs, isURLClass c = true) → q.length ≤ 3 →
      (decodeLoop cs si q out).1.length
          = out.length + (q.length + cs.length) / 4 * 3 + (q.length + cs.length) % 4 * 6 / 8 ∧
        ((q.length + cs.length) % 4 ≠ 1 → (decodeLoop cs si q out).2 = none) := by
  induction cs with
  | nil =>
    intro si q out _ hq
    rcases q with _ | ⟨a, _ | ⟨b, _ | ⟨c, _ | ⟨d, r⟩⟩⟩⟩ <;>
      simp [decodeLoop, quantumBytes] at hq ⊢
  | cons c cs ih =>
    intro si q out hc hq
    obtain ⟨v, hv⟩ := decodeMap_of_class c (hc c (List.mem_cons_self _ _))
    have hcs : ∀ x ∈ cs, isURLClass x = true := fun x hx => hc x (List.mem_cons_of_mem _ hx)
    rcases q with _ | ⟨a, _ | ⟨b, _ | ⟨d, _ | ⟨e, r⟩⟩⟩⟩
    · have := ih (si + 1) [v] out hcs (by simp)
      simp only [decodeLoop, hv, List.nil_append, List.length_nil, List.length_cons,
        List.length_singleton] at this ⊢
      constructor
      · rw [this.1]; omega
      · intro h; exact this.2 (by omega)
    · have := ih (si + 1) [a, v] out hcs (by simp)
      simp only [decodeLoop, hv, List.singleton_append, List.length_cons, List.length_nil,
        List.length_singleton] at this ⊢
      constructor
      · rw [this.1]; omega
      · intro h; exact this.2 (by omega)
    · have := ih (si + 1) [a, b, v] out hcs (by simp)
      simp only [decodeLoop, hv, List.cons_append, List.nil_append, List.length_cons,
        List.length_nil] at this ⊢
      constructor
      · rw [this.1]; omega
      · intro h; exact this.2 (by omega)
    · have := ih (si + 1) [] (out ++ quantumBytes a b d v) hcs (by simp)
      simp only [decodeLoop, hv, List.length_append, List.length_cons, List.length_nil,
        quantumBytes] at this ⊢
      constructor
      · rw [this.1]; omega
      · intro h; exact this.2 (by omega)
    · simp at hq

/-- A token of 43 alphabet bytes decodes without error into an array of exactly 32 bytes with
capacity 32. -/
theorem decodeString_43 (t : List Nat) (hlen : t.length = 43)
    (hcls : ∀ c ∈ t, isURLClass c = true) :
    ∃ d, d.length = 32 ∧ decodeString t = (d, ⟨0, 32, 32⟩, none) := by
  have h := decodeLoop_class t 0 [] [] hcls (by simp)
  simp only [List.length_nil, hlen] at h
  refine ⟨(decodeLoop t 0 [] []).1, by omega, ?_⟩
  have h1 : (decodeLoop t 0 [] []).1.length = 32 := by omega
  have h2 : (decodeLoop t 0 [] []).2 = none := h.2 (by omega)
  simp [decodeString, h1, h2, hlen, decodedLen]


/-- A list of 32 elements, spelled out. -/
theorem list_of_length_32 (d : List Nat) (h : d.length = 32) :
    ∃ a0 a1 a2 a3 a4 a5 a6 a7 a8 a9 a10 a11 a12 a13 a14 a15 a16 a17 a18 a19 a20 a21 a22 a23 a24 a25 a26 a27 a28 a29 a30 a31, d = [a0, a1, a2, a3, a4, a5, a6, a7, a8, a9, a10, a11, a12, a13, a14, a15, a16, a17, a18, a19, a20, a21, a22, a23, a24, a25, a26, a27, a28, a29, a30, a31] := by
  rcases d with _ | ⟨a0, _ | ⟨a1, _ | ⟨a2, _ | ⟨a3, _ | ⟨a4, _ | ⟨a5, _ | ⟨a6, _ | ⟨a7, _ | ⟨a8, _ | ⟨a9, _ | ⟨a10, _ | ⟨a11, _ | ⟨a12, _ | ⟨a13, _ | ⟨a14, _ | ⟨a15, _ | ⟨a16, _ | ⟨a17, _ | ⟨a18, _ | ⟨a19, _ | ⟨a20, _ | ⟨a21, _ | ⟨a22, _ | ⟨a23, _ | ⟨a24, _ | ⟨a25, _ | ⟨a26, _ | ⟨a27, _ | ⟨a28, _ | ⟨a29, _ | ⟨a30, _ | ⟨a31, _ | ⟨x, r⟩⟩⟩⟩⟩⟩⟩⟩⟩⟩⟩⟩⟩⟩⟩⟩⟩⟩⟩⟩⟩⟩⟩⟩⟩⟩⟩⟩⟩⟩⟩⟩⟩ <;>
    simp at h
  exact ⟨a0, a1, a2, a3, a4, a5, a6, a7, a8, a9, a10, a11, a12, a13, a14, a15, a16, a17, a18, a19, a20, a21, a22, a23, a24, a25, a26, a27, a28, a29, a30, a31, rfl⟩

/-- What `unpackKey` returns on a token of 43 alphabet bytes, in terms of the decoded bytes. -/
theorem unpackKey_eval (t : List Nat) (hlen : t.length = 43)
    (hcls : ∀ c ∈ t, isURLClass c = true) :
    ∃ d, d.length = 32 ∧ base64urldecode t = (d, none) ∧
      unpackKey t = .ok (xorBytes (d.take 16) (d.drop 16),
        (d.drop 16).take 8 ++ List.replicate 8 0, List.replicate 8 0, none) := by
  obtain ⟨d, hd, hdec⟩ := decodeString_43 t hlen hcls
  obtain ⟨a0, a1, a2, a3, a4, a5, a6, a7, a8, a9, a10, a11, a12, a13, a14, a15, a16, a17, a18, a19, a20, a21, a22, a23, a24, a25, a26, a27, a28, a29, a30, a31, rfl⟩ := list_of_length_32 d hd
  refine ⟨_, hd, ?_, ?_⟩
  · simp only [base64urldecode, hdec]; rfl
  · simp only [unpackKey, hdec]; rfl


/-! ## Splitting on a separator -/

theorem takeWhile_ne_of_not_mem (sep : Nat) (a : List Nat) (h : sep ∉ a) :
    a.takeWhile (fun c => c != sep) = a ∧ a.dropWhile (fun c => c != sep) = [] := by
  induction a with
  | nil => simp
  | cons x xs ih =>
    have hx : x ≠ sep := fun e => h (e ▸ List.mem_cons_self _ _)
    have hxs : sep ∉ xs := fun m => h (List.mem_cons_of_mem _ m)
    simp [List.takeWhile_cons, List.dropWhile_cons, hx, ih hxs]

theorem takeWhile_ne_append (sep : Nat) (a r : List Nat) (h : sep ∉ a) :
    (a ++ sep :: r).takeWhile (fun c => c != sep) = a ∧
      (a ++ sep :: r).dropWhile (fun c => c != sep) = sep :: r := by
  induction a with
  | nil => simp [List.takeWhile_cons, List.dropWhile_cons]
  | cons x xs ih =>
    have hx : x ≠ sep := fun e => h (e ▸ List.mem_cons_self _ _)
    have hxs : sep ∉ xs := fun m => h (List.mem_cons_of_mem _ m)
    simp [List.takeWhile_cons, List.dropWhile_cons, hx, ih hxs]

/-- Three parts come out of a string with two separators delimiting separator-free parts. -/
theorem splitN_three (sep : Nat) (a b c : List Nat) (ha : sep ∉ a) (hb : sep ∉ b) :
    splitN 3 (a ++ sep :: (b ++ sep :: c)) sep = [a, b, c] := by
  simp [splitN, List.span_eq_take_drop, takeWhile_ne_append sep a _ ha,
    takeWhile_ne_append sep b _ hb]

/-- Two parts at most come out of a string with a single separator. -/
theorem splitN_two (sep : Nat) (a b : List Nat) (ha : sep ∉ a) (hb : sep ∉ b) :
    splitN 3 (a ++ sep :: b) sep = [a, b] := by
  simp [splitN, List.span_eq_take_drop, takeWhile_ne_append sep a _ ha,
    takeWhile_ne_of_not_mem sep b hb]

/-! ## Claims on file links -/

/-- C1: for every key token `t` of 43 base64url characters, `unpackKey t` returns without a
panic and without error; with `d` the 32 decoded bytes, the key has 16 bytes, byte `i` being
`d[i] XOR d[i+16]`, and the IV has 16 bytes: `d[16..24]` followed by 8 zero bytes. -/
theorem unpackKey_key_iv (t : List Nat) (hlen : t.length = 43)
    (hcls : ∀ c ∈ t, isURLClass c = true) :
    ∃ d aesKey aesIV mac, base64urldecode t = (d, none) ∧ d.length = 32 ∧
      unpackKey t = .ok (aesKey, aesIV, mac, none) ∧
      aesKey.length = 16 ∧
      (∀ i, i < 16 → ∃ x y, d[i]? = some x ∧ d[i + 16]? = some y ∧ aesKey[i]? = some (x ^^^ y)) ∧
      aesIV.length = 16 ∧
      aesIV = (d.drop 16).take 8 ++ List.replicate 8 0 := by
  obtain ⟨d, hd, hdec, hun⟩ := unpackKey_eval t hlen hcls
  refine ⟨d, _, _, _, hdec, hd, hun, ?_, ?_, ?_, rfl⟩
  · simp [xorBytes, hd]
  · obtain ⟨a0, a1, a2, a3, a4, a5, a6, a7, a8, a9, a10, a11, a12, a13, a14, a15, a16, a17, a18, a19, a20, a21, a22, a23, a24, a25, a26, a27, a28, a29, a30, a31, rfl⟩ := list_of_length_32 d hd
    intro i hi
    interval_cases i <;> simp [xorBytes]
  · simp [hd]

/-- C1, on the token `AQIDBAUGBwgJCgsMDQ4PEBESExQVFhcYGRobHB0eHyA` (the bytes 1 to 32). -/
theorem unpackKey_key_iv_witness :
    ∃ d aesKey aesIV mac,
      base64urldecode (ascii "AQIDBAUGBwgJCgsMDQ4PEBESExQVFhcYGRobHB0eHyA") = (d, none) ∧
      d.length = 32 ∧
      unpackKey (ascii "AQIDBAUGBwgJCgsMDQ4PEBESExQVFhcYGRobHB0eHyA")
        = .ok (aesKey, aesIV, mac, none) ∧
      aesKey.length = 16 ∧
      (∀ i, i < 16 → ∃ x y, d[i]? = some x ∧ d[i + 16]? = some y ∧ aesKey[i]? = some (x ^^^ y)) ∧
      aesIV.length = 16 ∧
      aesIV = (d.drop 16).take 8 ++ List.replicate 8 0 :=
  unpackKey_key_iv (ascii "AQIDBAUGBwgJCgsMDQ4PEBESExQVFhcYGRobHB0eHyA") (by decide) (by decide)

/-- C2: on the token of 43 characters `_` the packed key material is 32 bytes `0xff`, so that
bytes 24 to 32 are all `0xff`, yet the `mac` that `unpackKey` returns is 8 zero bytes: the
`append` that builds the IV writes its zeros into the backing array of the decoded bytes,
over the MAC. -/
theorem unpackKey_mac_overwritten :
    base64urldecode (List.replicate 43 95) = (List.replicate 32 255, none) ∧
    ((base64urldecode (List.replicate 43 95)).1.drop 24).take 8 = List.replicate 8 255 ∧
    unpackKey (List.replicate 43 95)
      = .ok (List.replicate 16 0, List.replicate 8 255 ++ List.replicate 8 0,
          List.replicate 8 0, none) := by
  refine ⟨?_, ?_, ?_⟩ <;> rfl

/-- The `mac` of `unpackKey` is 8 zero bytes for every token of 43 alphabet bytes. -/
theorem unpackKey_mac_zero (t : List Nat) (hlen : t.length = 43)
    (hcls : ∀ c ∈ t, isURLClass c = true) :
    ∃ aesKey aesIV, unpackKey t = .ok (aesKey, aesIV, List.replicate 8 0, none) := by
  obtain ⟨d, _, _, hun⟩ := unpackKey_eval t hlen hcls
  exact ⟨_, _, hun⟩

/-- C3: `parseURL url` succeeds exactly when `SplitN(url, "!", 3)` gives three parts, the first
being `https://mega.nz/#`, the second of length 8 and the third of length 43; it then returns
the second and third parts; in every other case the error is `errInvalidURL` and `IsFileURL`
is false. -/
theorem parseURL_iff (url : List Nat) :
    ((parseURL url).2.2 = none ↔
      ∃ h k, splitN 3 url 33 = [fileURLPrefix, h, k] ∧ h.length = 8 ∧ k.length = 43) ∧
    (∀ h k, splitN 3 url 33 = [fileURLPrefix, h, k] → h.length = 8 → k.length = 43 →
      parseURL url = (h, k, none) ∧ IsFileURL url = true) ∧
    ((¬ ∃ h k, splitN 3 url 33 = [fileURLPrefix, h, k] ∧ h.length = 8 ∧ k.length = 43) →
      (parseURL url).2.2 = some .errInvalidURL ∧ IsFileURL url = false) := by
  rcases hs : splitN 3 url 33 with _ | ⟨a, _ | ⟨b, _ | ⟨c, _ | ⟨d, r⟩⟩⟩⟩ <;>
    simp only [parseURL, IsFileURL, hs]
  · simp
  · simp
  · simp
  · by_cases ha : a = fileURLPrefix <;> by_cases hb : b.length = 8 <;>
      by_cases hc : c.length = 43 <;> simp_all
    exact ⟨b, c, ⟨rfl, rfl⟩, hb, hc⟩
  · simp

/-- C3, on the link `https://mega.nz/#!abcdefgh!AQIDBAUGBwgJCgsMDQ4PEBESExQVFhcYGRobHB0eHyA`
(accepted) and on the link `https://mega.nz/#!abc!def` (rejected). -/
theorem parseURL_iff_witness :
    (parseURL (ascii "https://mega.nz/#!abcdefgh!AQIDBAUGBwgJCgsMDQ4PEBESExQVFhcYGRobHB0eHyA")
        = (ascii "abcdefgh", ascii "AQIDBAUGBwgJCgsMDQ4PEBESExQVFhcYGRobHB0eHyA", none) ∧
      IsFileURL (ascii "https://mega.nz/#!abcdefgh!AQIDBAUGBwgJCgsMDQ4PEBESExQVFhcYGRobHB0eHyA")
        = true) ∧
    ((parseURL (ascii "https://mega.nz/#!abc!def")).2.2 = some .errInvalidURL ∧
      IsFileURL (ascii "https://mega.nz/#!abc!def") = false) :=
  ⟨(parseURL_iff _).2.1 (ascii "abcdefgh") (ascii "AQIDBAUGBwgJCgsMDQ4PEBESExQVFhcYGRobHB0eHyA")
      (by decide) (by decide) (by decide),
    (parseURL_iff (ascii "https://mega.nz/#!abc!def")).2.2 (by
      rintro ⟨h, k, h1, h2, _⟩
      have e : splitN 3 (ascii "https://mega.nz/#!abc!def") 33
          = [fileURLPrefix, ascii "abc", ascii "def"] := by decide
      rw [e] at h1
      simp only [List.cons.injEq, true_and, and_true] at h1
      rw [← h1.1] at h2
      exact absurd h2 (by decide))⟩

/-- C4, as stated, fails: the link `https://mega.nz/#abcdefgh!AQID...HyA` has the documented
shape (prefix, 8-character handle, `!`, 43-character base64url token) and `parseURL` rejects it
with `errInvalidURL`; `IsFileURL` is false. -/
theorem parseURL_documented_format_rejected :
    (ascii "abcdefgh").length = 8 ∧
    (ascii "AQIDBAUGBwgJCgsMDQ4PEBESExQVFhcYGRobHB0eHyA").length = 43 ∧
    (∀ c ∈ ascii "AQIDBAUGBwgJCgsMDQ4PEBESExQVFhcYGRobHB0eHyA", isURLClass c = true) ∧
    parseURL (ascii "https://mega.nz/#" ++ ascii "abcdefgh" ++ ascii "!"
        ++ ascii "AQIDBAUGBwgJCgsMDQ4PEBESExQVFhcYGRobHB0eHyA")
      = ([], [], some .errInvalidURL) ∧
    IsFileURL (ascii "https://mega.nz/#" ++ ascii "abcdefgh" ++ ascii "!"
        ++ ascii "AQIDBAUGBwgJCgsMDQ4PEBESExQVFhcYGRobHB0eHyA") = false := by
  decide

/-- C4, amended: for every handle `h` of 8 bytes without `!` and every key token `k` of 43
bytes, the link `https://mega.nz/#!` followed by `h`, `!` and `k` is a file link: `parseURL`
returns `(h, k)` without error and `IsFileURL` is true. -/
theorem parseURL_accepts_file_link (h k : List Nat) (hh : h.length = 8) (hbang : 33 ∉ h)
    (hk : k.length = 43) :
    parseURL (ascii "https://mega.nz/#" ++ ascii "!" ++ h ++ ascii "!" ++ k) = (h, k, none) ∧
    IsFileURL (ascii "https://mega.nz/#" ++ ascii "!" ++ h ++ ascii "!" ++ k) = true := by
  have hp : (33 : Nat) ∉ fileURLPrefix := by decide
  have e : ascii "https://mega.nz/#" ++ ascii "!" ++ h ++ ascii "!" ++ k
      = fileURLPrefix ++ 33 :: (h ++ 33 :: k) := by
    simp [fileURLPrefix, ascii]
  have hs := splitN_three 33 fileURLPrefix h k hp hbang
  rw [e]
  simp [parseURL, IsFileURL, hs, hh, hk]

/-- C4 amended, on the handle `abcdefgh` and the token of the bytes 1 to 32. -/
theorem parseURL_accepts_file_link_witness :
    parseURL (ascii "https://mega.nz/#" ++ ascii "!" ++ ascii "abcdefgh" ++ ascii "!"
        ++ ascii "AQIDBAUGBwgJCgsMDQ4PEBESExQVFhcYGRobHB0eHyA")
      = (ascii "abcdefgh", ascii "AQIDBAUGBwgJCgsMDQ4PEBESExQVFhcYGRobHB0eHyA", none) ∧
    IsFileURL (ascii "https://mega.nz/#" ++ ascii "!" ++ ascii "abcdefgh" ++ ascii "!"
        ++ ascii "AQIDBAUGBwgJCgsMDQ4PEBESExQVFhcYGRobHB0eHyA") = true :=
  parseURL_accepts_file_link (ascii "abcdefgh")
    (ascii "AQIDBAUGBwgJCgsMDQ4PEBESExQVFhcYGRobHB0eHyA") (by decide) (by decide) (by decide)


/-! ## Claims on folder links -/

theorem isURLClass_hash : isURLClass 35 = false := by decide

/-- On a well-formed folder link the leftmost match is the whole link, with the handle and the
key token as groups. -/
theorem folderFind_link (h k : List Nat) (hh : ∀ c ∈ h, isURLClass c = true)
    (hk : ∀ c ∈ k, isURLClass c = true) :
    folderFindStringSubmatch (ascii "https://mega.nz/folder/" ++ h ++ ascii "#" ++ k)
      = [ascii "https://mega.nz/folder/" ++ h ++ ascii "#" ++ k, h, k] := by
  have e : ascii "https://mega.nz/folder/" ++ h ++ ascii "#" ++ k
      = 104 :: 116 :: 116 :: 112 :: 115 :: 58 :: 47 :: 47 :: 109 :: 101 :: 103 :: 97 :: 46 ::
        110 :: 122 :: 47 :: 102 :: 111 :: 108 :: 100 :: 101 :: 114 :: 47 :: (h ++ 35 :: k) := by
    simp [ascii]
  have l1 : ascii "https://mega" = [104, 116, 116, 112, 115, 58, 47, 47, 109, 101, 103, 97] := by
    decide
  have l2 : ascii "nz/folder/" = [110, 122, 47, 102, 111, 108, 100, 101, 114, 47] := by decide
  have t1 : (h ++ 35 :: k).takeWhile isURLClass = h := by
    rw [List.takeWhile_append_of_pos hh]
    simp [List.takeWhile_cons, isURLClass_hash]
  have d1 : (h ++ 35 :: k).dropWhile isURLClass = 35 :: k := by
    rw [List.dropWhile_append_of_pos hh]
    simp [List.dropWhile_cons, isURLClass_hash]
  have t2 : k.takeWhile isURLClass = k := List.takeWhile_eq_self_iff.mpr hk
  have d2 : k.dropWhile isURLClass = [] := List.dropWhile_eq_nil_iff.mpr hk
  rw [e]
  simp [folderFindStringSubmatch, folderMatchAt, l1, l2, stripLit, runeWidth, t1, d1, t2, d2]

theorem folderFind_nil_of_no_match (url : List Nat)
    (h : ∀ i, folderMatchAt (url.drop i) = none) : folderFindStringSubmatch url = [] := by
  induction url with
  | nil => rfl
  | cons c cs ih =>
    have h0 := h 0
    simp only [List.drop_zero] at h0
    simp only [folderFindStringSubmatch, h0]
    exact ih (fun i => by simpa using h (i + 1))

/-- C5: for a handle `h` and a key token `k` of class bytes `[A-Za-z0-9-_]`,
`parseFolderURL` on `https://mega.nz/folder/` followed by `h`, `#` and `k` returns `(h, k)`
without error when `h` has 8 bytes and `k` has 22, and fails with `errInvalidURL` when either
length differs; a string in which the pattern matches at no position fails with
`errInvalidURL` too. -/
theorem parseFolderURL_spec (h k : List Nat) (hh : ∀ c ∈ h, isURLClass c = true)
    (hk : ∀ c ∈ k, isURLClass c = true) :
    (h.length = 8 → k.length = 22 →
      parseFolderURL (ascii "https://mega.nz/folder/" ++ h ++ ascii "#" ++ k) = (h, k, none)) ∧
    (h.length ≠ 8 ∨ k.length ≠ 22 →
      (parseFolderURL (ascii "https://mega.nz/folder/" ++ h ++ ascii "#" ++ k)).2.2
        = some .errInvalidURL) ∧
    (∀ url, (∀ i, folderMatchAt (url.drop i) = none) →
      parseFolderURL url = ([], [], some .errInvalidURL)) := by
  refine ⟨?_, ?_, ?_⟩
  · intro h8 k22
    simp only [parseFolderURL, folderFind_link h k hh hk]
    simp [h8, k22]
  · intro hne
    simp only [parseFolderURL, folderFind_link h k hh hk]
    simp [hne]
  · intro url hno
    simp [parseFolderURL, folderFind_nil_of_no_match url hno]

/-- C5, on the link `https://mega.nz/folder/abcdefgh#AQIDBAUGBwgJCgsMDQ4PEA`, on the same link
with the handle `abc`, and on the string `https://mega.nz/`. -/
theorem parseFolderURL_spec_witness :
    parseFolderURL (ascii "https://mega.nz/folder/" ++ ascii "abcdefgh" ++ ascii "#"
        ++ ascii "AQIDBAUGBwgJCgsMDQ4PEA")
      = (ascii "abcdefgh", ascii "AQIDBAUGBwgJCgsMDQ4PEA", none) ∧
    (parseFolderURL (ascii "https://mega.nz/folder/" ++ ascii "abc" ++ ascii "#"
        ++ ascii "AQIDBAUGBwgJCgsMDQ4PEA")).2.2 = some .errInvalidURL ∧
    parseFolderURL (ascii "https://mega.nz/") = ([], [], some .errInvalidURL) :=
  ⟨(parseFolderURL_spec (ascii "abcdefgh") (ascii "AQIDBAUGBwgJCgsMDQ4PEA") (by decide)
      (by decide)).1 (by decide) (by decide),
    (parseFolderURL_spec (ascii "abc") (ascii "AQIDBAUGBwgJCgsMDQ4PEA") (by decide)
      (by decide)).2.1 (by decide),
    (parseFolderURL_spec [] [] (by decide) (by decide)).2.2 (ascii "https://mega.nz/") (by
      intro i
      have hl : (ascii "https://mega.nz/").length = 16 := by decide
      rcases Nat.lt_or_ge i 17 with hi | hi
      · interval_cases i <;> decide
      · rw [List.drop_of_length_le (by omega)]
        decide)⟩

/-! ## Claims on key material of the wrong length -/

/-- C6: `unpackKey` on tokens whose decoding is not 32 bytes long.  The token of 42 characters
`A` followed by a newline has 43 characters, so that `parseURL` accepts the link that carries
it; it decodes to 31 bytes and the call panics on the index 31.  The token `AAAA` decodes to 3
bytes and the call panics on the index 16.  The token of 44 characters `_` decodes to 33 bytes
and the call returns, without error, the key material of the first 32 bytes. -/
theorem unpackKey_wrong_length :
    (parseURL (ascii "https://mega.nz/#!abcdefgh!" ++ (List.replicate 42 65 ++ [10]))
        = (ascii "abcdefgh", List.replicate 42 65 ++ [10], none) ∧
      base64urldecode (List.replicate 42 65 ++ [10]) = (List.replicate 31 0, none) ∧
      unpackKey (List.replicate 42 65 ++ [10]) = .error (.indexOutOfRange 31 31)) ∧
    (base64urldecode (ascii "AAAA") = ([0, 0, 0], none) ∧
      unpackKey (ascii "AAAA") = .error (.indexOutOfRange 16 3)) ∧
    (base64urldecode (List.replicate 44 95) = (List.replicate 33 255, none) ∧
      unpackKey (List.replicate 44 95)
        = .ok (List.replicate 16 0, List.replicate 8 255 ++ List.replicate 8 0,
            List.replicate 8 0, none)) := by
  refine ⟨⟨?_, ?_, ?_⟩, ⟨?_, ?_⟩, ⟨?_, ?_⟩⟩ <;> rfl

/-! ## Decoding, block loops and word conversion: lengths -/

theorem base64urldecode_eq (data : List Nat) :
    base64urldecode data = decodeLoop data 0 [] [] := by
  simp [base64urldecode, decodeString, Slice.bytes]

theorem decodeLoop_length_le (cs : List Nat) :
    ∀ (si : Nat) (q out : List Nat), q.length ≤ 3 →
      (decodeLoop cs si q out).1.length ≤ out.length + (q.length + cs.length) * 6 / 8 := by
  induction cs with
  | nil =>
    intro si q out hq
    rcases q with _ | ⟨a, _ | ⟨b, _ | ⟨c, _ | ⟨d, r⟩⟩⟩⟩ <;>
      simp [decodeLoop, quantumBytes] at hq ⊢
  | cons c cs ih =>
    intro si q out hq
    rcases hv : decodeMap c with _ | v
    · by_cases hnl : c = 10 ∨ c = 13
      · have := ih (si + 1) q out hq
        simp only [decodeLoop, hv, hnl, if_true, List.length_cons]
        omega
      · simp only [decodeLoop, hv, hnl, if_false]
        omega
    · rcases q with _ | ⟨a, _ | ⟨b, _ | ⟨d, _ | ⟨e, r⟩⟩⟩⟩
      · have := ih (si + 1) [v] out (by simp)
        simp only [decodeLoop, hv, List.nil_append, List.length_nil, List.length_cons,
          List.length_singleton] at this ⊢
        omega
      · have := ih (si + 1) [a, v] out (by simp)
        simp only [decodeLoop, hv, List.singleton_append, List.length_cons, List.length_nil,
          List.length_singleton] at this ⊢
        omega
      · have := ih (si + 1) [a, b, v] out (by simp)
        simp only [decodeLoop, hv, List.cons_append, List.nil_append, List.length_cons,
          List.length_nil] at this ⊢
        omega
      · have := ih (si + 1) [] (out ++ quantumBytes a b d v) (by simp)
        simp only [decodeLoop, hv, List.length_append, List.length_cons, List.length_nil,
          quantumBytes] at this ⊢
        omega
      · simp at hq

/-- The decoded bytes fit the buffer `make([]byte, DecodedLen(len(s)))`, which is no longer than
the input. -/
theorem base64urldecode_length_le (data : List Nat) :
    (base64urldecode data).1.length ≤ decodedLen data.length ∧
      (base64urldecode data).1.length ≤ data.length := by
  have h := decodeLoop_length_le data 0 [] [] (by simp)
  rw [base64urldecode_eq]
  simp only [List.length_nil, decodedLen] at h ⊢
  omega

theorem ecbLoop_length (dec : List Nat → List Nat) (hdec : ∀ blk, (dec blk).length = 16)
    (n : Nat) : ∀ src, (ecbLoop dec n src).length = 16 * n := by
  induction n with
  | zero => intro src; simp [ecbLoop]
  | succ n ih => intro src; simp [ecbLoop, hdec, ih]; omega

theorem cbcLoop_length (dec : List Nat → List Nat) (hdec : ∀ blk, (dec blk).length = 16)
    (n : Nat) : ∀ prev src, prev.length = 16 → 16 * n ≤ src.length →
      (cbcLoop dec n prev src).length = 16 * n := by
  induction n with
  | zero => intro prev src _ _; simp [cbcLoop]
  | succ n ih =>
    intro prev src hp hs
    have h1 : (src.take 16).length = 16 := by simp; omega
    have h2 : 16 * n ≤ (src.drop 16).length := by simp; omega
    simp [cbcLoop, xorBytes, hdec, hp, ih _ _ h1 h2]
    omega

theorem readWords_ok (n : Nat) :
    ∀ (b a : List Nat), 4 * n ≤ b.length →
      ∃ w, readWords n b a = (a ++ w, none) ∧ w.length = n := by
  induction n with
  | zero => intro b a _; exact ⟨[], by simp [readWords]⟩
  | succ n ih =>
    intro b a hb
    rcases b with _ | ⟨b0, _ | ⟨b1, _ | ⟨b2, _ | ⟨b3, rest⟩⟩⟩⟩ <;>
      simp only [List.length_cons, List.length_nil] at hb <;> try omega
    obtain ⟨w, hw, hl⟩ := ih rest (a ++ [b0 * 2 ^ 24 + b1 * 2 ^ 16 + b2 * 2 ^ 8 + b3]) (by omega)
    refine ⟨(b0 * 2 ^ 24 + b1 * 2 ^ 16 + b2 * 2 ^ 8 + b3) :: w, ?_, by simp [hl]⟩
    rw [readWords, hw]
    simp

/-- On whole blocks `bytes_to_a32` returns, without error, a quarter as many words. -/
theorem bytes_to_a32_blocks (b : List Nat) (hb : b.length % 16 = 0) :
    ∃ w, bytes_to_a32 b = (w, none) ∧ w.length = b.length / 4 := by
  obtain ⟨w, hw, hl⟩ := readWords_ok ((b.length + 2) / 4) b [] (by omega)
  exact ⟨w, by simpa [bytes_to_a32] using hw, by omega⟩

/-! ## Claims on the attribute codec -/

/-- What `decryptAttr` returns when the decrypted bytes lack the marker: the zero `FileAttr`
and the `nil` error. -/
theorem decryptAttr_no_marker (env : Env) (key data ddata : List Nat)
    (hkey : newCipher key = none) (hlen : 4 ≤ data.length)
    (hdec : base64urldecode data = (ddata, none)) (hblk : ddata.length % 16 = 0)
    (hmark : (cbcLoop (env.aesDecrypt key) (ddata.length / 16) (List.replicate 16 0) ddata).take 4
      ≠ ascii "MEGA") :
    decryptAttr env key data = .ok ({}, none) := by
  have hle : ddata.length ≤ data.length := by
    have := (base64urldecode_length_le data).2
    rw [hdec] at this
    exact this
  have hpt := cbcLoop_length (env.aesDecrypt key) (env.aesDecrypt_length key)
    (ddata.length / 16) (List.replicate 16 0) ddata (by simp) (by omega)
  have hiv : (a32_to_bytes [0, 0, 0, 0]).1 = List.replicate 16 0 := by decide
  have hiv2 : (a32_to_bytes [0, 0, 0, 0]).2 = none := rfl
  generalize hP : cbcLoop (env.aesDecrypt key) (ddata.length / 16) (List.replicate 16 0) ddata
    = pt at hmark hpt
  have hbuf : (writeAt (List.replicate data.length 0) 0 pt).length = data.length := by
    simp [writeAt]; omega
  have htake : (writeAt (List.replicate data.length 0) 0 pt).take 4 ≠ ascii "MEGA" := by
    rcases Nat.eq_zero_or_pos (ddata.length / 16) with h0 | h0
    · have : pt = [] := List.length_eq_zero.mp (by omega)
      subst this
      have e : (writeAt (List.replicate data.length 0) 0 []).take 4 = List.replicate 4 0 := by
        simp [writeAt, List.take_replicate, Nat.min_eq_left hlen]
      rw [e]; decide
    · have e : (writeAt (List.replicate data.length 0) 0 pt).take 4 = pt.take 4 := by
        simp only [writeAt, List.take_zero, List.nil_append]
        exact List.take_append_of_le_length (by omega)
      rw [e]; exact hmark
  have hnot : ¬ data.length < ddata.length := by omega
  have hcb : cryptBlocks env key (List.replicate 16 0) (List.replicate data.length 0) ddata
      = .ok (writeAt (List.replicate data.length 0) 0 pt) := by
    unfold cryptBlocks
    rw [if_neg (by simp [hblk]), if_neg (by simpa using hle), hP]
  generalize writeAt (List.replicate data.length 0) 0 pt = buf at hbuf htake hcb
  have hb4 : ¬ buf.length < 4 := by omega
  unfold decryptAttr
  simp only [hkey, ne_eq, not_true_eq_false, if_false, hdec, hiv2]
  rw [hiv, hcb]
  simp [hb4, htake, bind, Except.bind]

/-- C7: for a valid AES key and attribute data of at least 4 characters that decode to whole
16-byte blocks whose CBC decryption under the zero IV does not begin with `MEGA`,
`decryptAttr` returns the zero `FileAttr` together with the `nil` error: the error
`Bad Attr` set on entry is overwritten by the `nil` results of the later calls. -/
theorem decryptAttr_no_marker_returns_nil_error (env : Env) (key data ddata : List Nat)
    (hkey : newCipher key = none) (hlen : 4 ≤ data.length)
    (hdec : base64urldecode data = (ddata, none)) (hblk : ddata.length % 16 = 0)
    (hmark : (cbcLoop (env.aesDecrypt key) (ddata.length / 16) (List.replicate 16 0) ddata).take 4
      ≠ ascii "MEGA") :
    ∃ attr, decryptAttr env key data = .ok (attr, none) ∧ attr.Name = [] :=
  ⟨{}, decryptAttr_no_marker env key data ddata hkey hlen hdec hblk hmark, rfl⟩

/-- C7, on the key of 16 zero bytes and the data `AAAAAAAAAAAAAAAAAAAAAA` (16 zero bytes). -/
theorem decryptAttr_no_marker_returns_nil_error_witness :
    ∃ attr, decryptAttr toyEnv (List.replicate 16 0) (ascii "AAAAAAAAAAAAAAAAAAAAAA")
      = .ok (attr, none) ∧ attr.Name = [] :=
  decryptAttr_no_marker_returns_nil_error toyEnv (List.replicate 16 0)
    (ascii "AAAAAAAAAAAAAAAAAAAAAA") (List.replicate 16 0) (by decide) (by decide) (by rfl)
    (by decide) (by decide)


/-! ## Claims on node decoding -/

/-- After a successful key derivation `decodeNode` is the attribute step followed by the
store step. -/
theorem decodeNode_of_derivation (env : Env) (k : List Nat) (node : FSNode) (b buf w : List Nat)
    (hT : node.IsFile = true ∨ node.IsDir = true)
    (hargs : 2 ≤ (split node.Key 58).length)
    (hk : base64urldecode k = (b, none)) (hb : newCipher b = none)
    (hitem : base64urldecode ((split node.Key 58).getD 1 []) = (buf, none))
    (hblk : buf.length % 16 = 0)
    (hw : bytes_to_a32 (ecbLoop (env.aesDecrypt b) (buf.length / 16) buf) = (w, none))
    (hfile : node.IsFile = true → 8 ≤ w.length) :
    decodeNode env k node
      = (decodeNodeAttr env (contentKey node w) node.Attr).bind
          (fun attr => .ok (decodeNodeStore node (contentKey node w) w attr)) := by
  have hty : (!node.IsDir && !node.IsFile) = false := by
    rcases hT with h | h <;> simp [h]
  have hnargs : ¬ (split node.Key 58).length < 2 := by omega
  have hecb := ecbLoop_length (env.aesDecrypt b) (env.aesDecrypt_length b) (buf.length / 16) buf
  have hbd : blockDecrypt env b buf buf
      = (ecbLoop (env.aesDecrypt b) (buf.length / 16) buf, none) := by
    unfold blockDecrypt
    rw [if_neg (by simp [hblk])]
    have : List.drop (0 + (ecbLoop (env.aesDecrypt b) (buf.length / 16) buf).length) buf = [] :=
      List.drop_of_length_le (by omega)
    simp only [writeAt, List.take_zero, List.nil_append, this, List.append_nil]
  have hnf : ¬ (node.IsFile = true ∧ w.length < 8) := by
    rintro ⟨h1, h2⟩
    have := hfile h1
    omega
  unfold decodeNode
  simp only [hty, Bool.false_eq_true, if_false, hnargs, hk, hb, hitem, hbd, hw, hnf]
  rfl

/-- The attribute step returns the zero attribute when `decryptAttr` reports no error with the
zero attribute. -/
theorem decodeNodeAttr_of_nil (env : Env) (key data : List Nat)
    (h : decryptAttr env (a32_to_bytes key).1 data = .ok ({}, none)) :
    decodeNodeAttr env key data = .ok {} := by
  unfold decodeNodeAttr
  have he : (a32_to_bytes key).2 = none := rfl
  simp [he, h, bind, Except.bind]

/-- The store step on a file or folder node returns the node, named after the attribute. -/
theorem decodeNodeStore_attr (node : FSNode) (key w : List Nat) (attr : FileAttr)
    (hT : node.IsFile = true ∨ node.IsDir = true) :
    ∃ n, decodeNodeStore node key w attr = (some n, none) ∧ n.Attr = attr.Name := by
  unfold decodeNodeStore
  by_cases hf : node.IsFile = true
  · simp [hf, a32_to_bytes]
  · have hd : node.IsDir = true := by tauto
    simp [hf, hd, a32_to_bytes]

/-- C8: for a File or Folder node whose key derivation succeeds, with a valid content key, and
whose attribute blob (at least 4 characters, whole blocks) decrypts to bytes that do not begin
with `MEGA`, `decodeNode` returns the node without error and its name is the empty string, not
the sentinel `BAD ATTRIBUTE`. -/
theorem decodeNode_no_marker_empty_name (env : Env) (k : List Nat) (node : FSNode)
    (b buf w ddata : List Nat)
    (hT : node.IsFile = true ∨ node.IsDir = true)
    (hargs : 2 ≤ (split node.Key 58).length)
    (hk : base64urldecode k = (b, none)) (hb : newCipher b = none)
    (hitem : base64urldecode ((split node.Key 58).getD 1 []) = (buf, none))
    (hblk : buf.length % 16 = 0)
    (hw : bytes_to_a32 (ecbLoop (env.aesDecrypt b) (buf.length / 16) buf) = (w, none))
    (hfile : node.IsFile = true → 8 ≤ w.length)
    (hkey : newCipher (a32_to_bytes (contentKey node w)).1 = none)
    (hlen : 4 ≤ node.Attr.length)
    (hdec : base64urldecode node.Attr = (ddata, none)) (hblk2 : ddata.length % 16 = 0)
    (hmark : (cbcLoop (env.aesDecrypt (a32_to_bytes (contentKey node w)).1) (ddata.length / 16)
      (List.replicate 16 0) ddata).take 4 ≠ ascii "MEGA") :
    ∃ n, decodeNode env k node = .ok (some n, none) ∧ n.Attr = [] ∧ n.Attr ≠ badAttribute := by
  have h1 := decodeNode_of_derivation env k node b buf w hT hargs hk hb hitem hblk hw hfile
  have h2 := decodeNodeAttr_of_nil env (contentKey node w) node.Attr
    (decryptAttr_no_marker env _ node.Attr ddata hkey hlen hdec hblk2 hmark)
  obtain ⟨n, hn, hname⟩ := decodeNodeStore_attr node (contentKey node w) w {} hT
  refine ⟨n, ?_, hname, ?_⟩
  · rw [h1, h2]
    simp [Except.bind, hn]
  · rw [hname]
    decide

/-- C8, on the file node with key `u:` followed by 43 characters `A` and attribute
`AAAAAAAAAAAAAAAAAAAAAA`, under the folder key `AAAAAAAAAAAAAAAAAAAAAA`. -/
theorem decodeNode_no_marker_empty_name_witness :
    ∃ n, decodeNode toyEnv (ascii "AAAAAAAAAAAAAAAAAAAAAA")
        { T := 0, Key := ascii "u:" ++ List.replicate 43 65,
          Attr := ascii "AAAAAAAAAAAAAAAAAAAAAA" } = .ok (some n, none) ∧
      n.Attr = [] ∧ n.Attr ≠ badAttribute :=
  decodeNode_no_marker_empty_name toyEnv (ascii "AAAAAAAAAAAAAAAAAAAAAA")
    { T := 0, Key := ascii "u:" ++ List.replicate 43 65, Attr := ascii "AAAAAAAAAAAAAAAAAAAAAA" }
    (List.replicate 16 0) (List.replicate 32 0) (List.replicate 8 4294967295)
    (List.replicate 16 0)
    (by decide) (by decide) (by rfl) (by decide) (by rfl) (by decide) (by rfl) (by decide)
    (by decide) (by decide) (by rfl) (by decide) (by decide)


/-- The buffer that `CryptBlocks` fills in `decryptAttr` keeps the length of the data. -/
theorem cryptBlocks_ok (env : Env) (key data ddata : List Nat)
    (hle : ddata.length ≤ data.length) (hblk : ddata.length % 16 = 0) :
    ∃ buf, cryptBlocks env key (List.replicate 16 0) (List.replicate data.length 0) ddata
        = .ok buf ∧ buf.length = data.length := by
  have hpt := cbcLoop_length (env.aesDecrypt key) (env.aesDecrypt_length key)
    (ddata.length / 16) (List.replicate 16 0) ddata (by simp) (by omega)
  refine ⟨writeAt (List.replicate data.length 0) 0
    (cbcLoop (env.aesDecrypt key) (ddata.length / 16) (List.replicate 16 0) ddata), ?_, ?_⟩
  · unfold cryptBlocks
    rw [if_neg (by simp [hblk]), if_neg (by simpa using hle)]
  · simp only [writeAt, List.take_zero, List.nil_append, List.length_append, List.length_drop,
      List.length_replicate, Nat.zero_add, hpt]
    omega

/-- With a valid key, `decryptAttr` panics on data that decode to a broken block or that are
shorter than 4 characters. -/
theorem decryptAttr_panics (env : Env) (key data ddata : List Nat)
    (hkey : newCipher key = none) (hdec : base64urldecode data = (ddata, none))
    (hbad : ddata.length % 16 ≠ 0 ∨ data.length < 4) :
    decryptAttr env key data
      = .error (if ddata.length % 16 ≠ 0 then .inputNotFullBlocks
          else .sliceBoundsOutOfRange 4 data.length) := by
  have hle : ddata.length ≤ data.length := by
    have := (base64urldecode_length_le data).2
    rw [hdec] at this
    exact this
  have hiv : (a32_to_bytes [0, 0, 0, 0]).1 = List.replicate 16 0 := by decide
  have hiv2 : (a32_to_bytes [0, 0, 0, 0]).2 = none := rfl
  unfold decryptAttr
  simp only [hkey, ne_eq, not_true_eq_false, if_false, hdec, hiv2]
  rw [hiv]
  by_cases hblk : ddata.length % 16 = 0
  · have h4 : data.length < 4 := by tauto
    obtain ⟨buf, hcb, hlen⟩ := cryptBlocks_ok env key data ddata hle hblk
    rw [hcb]
    simp [hblk, hlen, h4, bind, Except.bind]
  · simp [cryptBlocks, hblk, bind, Except.bind]

/-- `decryptAttr` returns on data of at least 4 characters that decode, if they decode, to whole
blocks. -/
theorem decryptAttr_returns (env : Env) (key data : List Nat) (hlen : 4 ≤ data.length)
    (hblk : ∀ ddata, base64urldecode data = (ddata, none) → ddata.length % 16 = 0) :
    ∃ r, decryptAttr env key data = .ok r := by
  have hiv : (a32_to_bytes [0, 0, 0, 0]).1 = List.replicate 16 0 := by decide
  have hiv2 : (a32_to_bytes [0, 0, 0, 0]).2 = none := rfl
  unfold decryptAttr
  rcases hk : newCipher key with _ | e
  · simp only [ne_eq, not_true_eq_false, if_false, hiv2]
    rw [hiv]
    rcases hd : base64urldecode data with ⟨ddata, _ | e⟩
    · have hle : ddata.length ≤ data.length := by
        have := (base64urldecode_length_le data).2
        rw [hd] at this
        exact this
      obtain ⟨buf, hcb, hbl⟩ := cryptBlocks_ok env key data ddata hle (hblk ddata hd)
      have hb4 : ¬ buf.length < 4 := by omega
      simp only [not_true_eq_false, if_false, hcb]
      by_cases hm : buf.take 4 = ascii "MEGA" <;> simp [hb4, hm, bind, Except.bind]
    · simp
  · simp

/-- With a derived key and a valid content key, `decodeNode` panics in the attribute step on an
attribute blob that decodes to a broken block or is shorter than 4 characters. -/
theorem decodeNode_attr_panics (env : Env) (k : List Nat) (node : FSNode)
    (b buf w ddata : List Nat)
    (hT : node.IsFile = true ∨ node.IsDir = true)
    (hargs : 2 ≤ (split node.Key 58).length)
    (hk : base64urldecode k = (b, none)) (hb : newCipher b = none)
    (hitem : base64urldecode ((split node.Key 58).getD 1 []) = (buf, none))
    (hblk : buf.length % 16 = 0)
    (hw : bytes_to_a32 (ecbLoop (env.aesDecrypt b) (buf.length / 16) buf) = (w, none))
    (hfile : node.IsFile = true → 8 ≤ w.length)
    (hkey : newCipher (a32_to_bytes (contentKey node w)).1 = none)
    (hdec : base64urldecode node.Attr = (ddata, none))
    (hbad : ddata.length % 16 ≠ 0 ∨ node.Attr.length < 4) :
    decodeNode env k node
      = .error (if ddata.length % 16 ≠ 0 then .inputNotFullBlocks
          else .sliceBoundsOutOfRange 4 node.Attr.length) := by
  have h1 := decodeNode_of_derivation env k node b buf w hT hargs hk hb hitem hblk hw hfile
  have h2 := decryptAttr_panics env _ node.Attr ddata hkey hdec hbad
  have he : (a32_to_bytes (contentKey node w)).2 = none := rfl
  rw [h1]
  unfold decodeNodeAttr
  simp only [he, ne_eq, not_true_eq_false, if_false, h2]
  rfl

/-- C9: for a File or Folder node whose key derivation succeeds, with a valid content key,
and whose attribute blob is valid base64url but shorter than 4 characters (the empty string
among them) or decodes to a length that is not a multiple of 16, `decodeNode` does not return:
it panics in `decryptAttr`, on the block check of `CryptBlocks` or on the slice `buf[:4]`. -/
theorem decodeNode_panics_on_short_attr (env : Env) (k : List Nat) (node : FSNode)
    (b buf w ddata : List Nat)
    (hT : node.IsFile = true ∨ node.IsDir = true)
    (hargs : 2 ≤ (split node.Key 58).length)
    (hk : base64urldecode k = (b, none)) (hb : newCipher b = none)
    (hitem : base64urldecode ((split node.Key 58).getD 1 []) = (buf, none))
    (hblk : buf.length % 16 = 0)
    (hw : bytes_to_a32 (ecbLoop (env.aesDecrypt b) (buf.length / 16) buf) = (w, none))
    (hfile : node.IsFile = true → 8 ≤ w.length)
    (hkey : newCipher (a32_to_bytes (contentKey node w)).1 = none)
    (hdec : base64urldecode node.Attr = (ddata, none))
    (hbad : ddata.length % 16 ≠ 0 ∨ node.Attr.length < 4) :
    (∃ p, decodeNode env k node = .error p) ∧ ∀ r, decodeNode env k node ≠ .ok r := by
  have h := decodeNode_attr_panics env k node b buf w ddata hT hargs hk hb hitem hblk hw hfile
    hkey hdec hbad
  refine ⟨⟨_, h⟩, ?_⟩
  intro r hr
  rw [h] at hr
  cases hr

/-- C9, on the file node with key `u:` followed by 43 characters `A` and the empty attribute,
under the folder key `AAAAAAAAAAAAAAAAAAAAAA`. -/
theorem decodeNode_panics_on_short_attr_witness :
    (∃ p, decodeNode toyEnv (ascii "AAAAAAAAAAAAAAAAAAAAAA")
        { T := 0, Key := ascii "u:" ++ List.replicate 43 65, Attr := [] } = .error p) ∧
      ∀ r, decodeNode toyEnv (ascii "AAAAAAAAAAAAAAAAAAAAAA")
        { T := 0, Key := ascii "u:" ++ List.replicate 43 65, Attr := [] } ≠ .ok r :=
  decodeNode_panics_on_short_attr toyEnv (ascii "AAAAAAAAAAAAAAAAAAAAAA")
    { T := 0, Key := ascii "u:" ++ List.replicate 43 65, Attr := [] }
    (List.replicate 16 0) (List.replicate 32 0) (List.replicate 8 4294967295) []
    (by decide) (by decide) (by rfl) (by decide) (by rfl) (by decide) (by rfl) (by decide)
    (by decide) (by rfl) (by decide)


/-- The attribute step returns whenever `decryptAttr` does. -/
theorem decodeNodeAttr_returns (env : Env) (key data : List Nat) (hlen : 4 ≤ data.length)
    (hblk : ∀ ddata, base64urldecode data = (ddata, none) → ddata.length % 16 = 0) :
    ∃ attr, decodeNodeAttr env key data = .ok attr := by
  obtain ⟨⟨a, e⟩, hr⟩ := decryptAttr_returns env (a32_to_bytes key).1 data hlen hblk
  have he : (a32_to_bytes key).2 = none := rfl
  unfold decodeNodeAttr
  simp only [he, ne_eq, not_true_eq_false, if_false, hr]
  cases e <;> simp [bind, Except.bind]

/-- `decryptAttr` returns on data that do not decode, and on data that decode to whole blocks and
have at least 4 characters. -/
theorem decryptAttr_returns_of (env : Env) (key data : List Nat)
    (hok : ∀ ddata, base64urldecode data = (ddata, none) →
      ddata.length % 16 = 0 ∧ 4 ≤ data.length) :
    ∃ r, decryptAttr env key data = .ok r := by
  rcases hd : base64urldecode data with ⟨ddata, _ | e⟩
  · exact decryptAttr_returns env key data (hok ddata hd).2 (fun d h => (hok d h).1)
  · have hiv2 : (a32_to_bytes [0, 0, 0, 0]).2 = none := rfl
    unfold decryptAttr
    rcases hk : newCipher key with _ | e2
    · simp [hiv2, hd]
    · simp

/-- The attribute step returns on an attribute that does not decode, and on one that decodes to
whole blocks and has at least 4 characters. -/
theorem decodeNodeAttr_returns_of (env : Env) (key data : List Nat)
    (hok : ∀ ddata, base64urldecode data = (ddata, none) →
      ddata.length % 16 = 0 ∧ 4 ≤ data.length) :
    ∃ attr, decodeNodeAttr env key data = .ok attr := by
  obtain ⟨⟨a, e⟩, hr⟩ := decryptAttr_returns_of env (a32_to_bytes key).1 data hok
  have he : (a32_to_bytes key).2 = none := rfl
  unfold decodeNodeAttr
  simp only [he, ne_eq, not_true_eq_false, if_false, hr]
  cases e <;> simp [bind, Except.bind]

/-- C10: for a File node whose second compound-key segment decodes and ECB-decrypts under the
folder root key to words `w0 … w7` (and possibly more), `decodeNode` stores as content key the
big-endian bytes of `[w0^w4, w1^w5, w2^w6, w3^w7]`, as IV those of `[w4, w5, 0, 0]`, as MAC those
of `[w6, w7]` and as raw compound key those of all the words exactly when the attribute string
is not valid base64url or decodes to whole 16-byte blocks and has at least 4 characters.  On
every other attribute string (the empty one among them) `decodeNode` panics in `decryptAttr`
and stores nothing. -/
theorem decodeNode_file_key_material_unless_attr_panics (env : Env) (k : List Nat)
    (node : FSNode) (b buf : List Nat) (w0 w1 w2 w3 w4 w5 w6 w7 : Nat) (rest : List Nat)
    (hT : node.IsFile = true)
    (hargs : 2 ≤ (split node.Key 58).length)
    (hk : base64urldecode k = (b, none)) (hb : newCipher b = none)
    (hitem : base64urldecode ((split node.Key 58).getD 1 []) = (buf, none))
    (hblk : buf.length % 16 = 0)
    (hw : bytes_to_a32 (ecbLoop (env.aesDecrypt b) (buf.length / 16) buf)
      = (w0 :: w1 :: w2 :: w3 :: w4 :: w5 :: w6 :: w7 :: rest, none)) :
    ((∀ ddata, base64urldecode node.Attr = (ddata, none) →
        ddata.length % 16 = 0 ∧ 4 ≤ node.Attr.length) →
      ∃ n, decodeNode env k node = .ok (some n, none) ∧
        n.meta.key = [w0 ^^^ w4, w1 ^^^ w5, w2 ^^^ w6, w3 ^^^ w7].flatMap wordBytes ∧
        n.meta.key.length = 16 ∧
        n.meta.iv = [w4, w5, 0, 0].flatMap wordBytes ∧
        n.meta.iv.length = 16 ∧
        n.meta.mac = [w6, w7].flatMap wordBytes ∧
        n.meta.mac.length = 8 ∧
        n.meta.compkey
          = (w0 :: w1 :: w2 :: w3 :: w4 :: w5 :: w6 :: w7 :: rest).flatMap wordBytes) ∧
    (∀ ddata, base64urldecode node.Attr = (ddata, none) →
      (ddata.length % 16 ≠ 0 ∨ node.Attr.length < 4) →
      decodeNode env k node
        = .error (if ddata.length % 16 ≠ 0 then .inputNotFullBlocks
            else .sliceBoundsOutOfRange 4 node.Attr.length)) := by
  have h1 := decodeNode_of_derivation env k node b buf _ (Or.inl hT) hargs hk hb hitem hblk hw
    (fun _ => by simp)
  refine ⟨?_, ?_⟩
  · intro hok
    obtain ⟨attr, ha⟩ := decodeNodeAttr_returns_of env
      (contentKey node (w0 :: w1 :: w2 :: w3 :: w4 :: w5 :: w6 :: w7 :: rest)) node.Attr hok
    rw [h1, ha]
    simp [Except.bind, decodeNodeStore, hT, a32_to_bytes, contentKey, wordBytes]
  · intro ddata hdec hbad
    exact decodeNode_attr_panics env k node b buf _ ddata (Or.inl hT) hargs hk hb hitem hblk hw
      (fun _ => by simp)
      (by simp [contentKey, hT, a32_to_bytes, wordBytes, newCipher]) hdec hbad

/-- C10, under the folder key `AAAAAAAAAAAAAAAAAAAAAA` on the file node with key `u:` followed by
the token of the bytes 1 to 32: with the attribute `AAAAAAAAAAAAAAAAAAAAAA` (16 bytes) the key
material is stored, with the attribute `*` (not base64url) as well, and with the empty
attribute `decodeNode` panics on `buf[:4]`. -/
theorem decodeNode_file_key_material_unless_attr_panics_witness :
    (∃ n, decodeNode toyEnv (ascii "AAAAAAAAAAAAAAAAAAAAAA")
        { T := 0, Key := ascii "u:AQIDBAUGBwgJCgsMDQ4PEBESExQVFhcYGRobHB0eHyA",
          Attr := ascii "AAAAAAAAAAAAAAAAAAAAAA" } = .ok (some n, none) ∧
      n.meta.key
        = [4278058235 ^^^ 4008570091, 4210686199 ^^^ 3941198055, 4143314163 ^^^ 3873826019,
            4075942127 ^^^ 3806453983].flatMap wordBytes ∧
      n.meta.key.length = 16 ∧
      n.meta.iv = [4008570091, 3941198055, 0, 0].flatMap wordBytes ∧
      n.meta.iv.length = 16 ∧
      n.meta.mac = [3873826019, 3806453983].flatMap wordBytes ∧
      n.meta.mac.length = 8 ∧
      n.meta.compkey
        = (4278058235 :: 4210686199 :: 4143314163 :: 4075942127 :: 4008570091 :: 3941198055 ::
            3873826019 :: 3806453983 :: []).flatMap wordBytes) ∧
    (∃ n, decodeNode toyEnv (ascii "AAAAAAAAAAAAAAAAAAAAAA")
        { T := 0, Key := ascii "u:AQIDBAUGBwgJCgsMDQ4PEBESExQVFhcYGRobHB0eHyA",
          Attr := ascii "*" } = .ok (some n, none) ∧
      n.meta.key
        = [4278058235 ^^^ 4008570091, 4210686199 ^^^ 3941198055, 4143314163 ^^^ 3873826019,
            4075942127 ^^^ 3806453983].flatMap wordBytes ∧
      n.meta.key.length = 16 ∧
      n.meta.iv = [4008570091, 3941198055, 0, 0].flatMap wordBytes ∧
      n.meta.iv.length = 16 ∧
      n.meta.mac = [3873826019, 3806453983].flatMap wordBytes ∧
      n.meta.mac.length = 8 ∧
      n.meta.compkey
        = (4278058235 :: 4210686199 :: 4143314163 :: 4075942127 :: 4008570091 :: 3941198055 ::
            3873826019 :: 3806453983 :: []).flatMap wordBytes) ∧
    decodeNode toyEnv (ascii "AAAAAAAAAAAAAAAAAAAAAA")
        { T := 0, Key := ascii "u:AQIDBAUGBwgJCgsMDQ4PEBESExQVFhcYGRobHB0eHyA", Attr := [] }
      = .error (.sliceBoundsOutOfRange 4 0) :=
  ⟨(decodeNode_file_key_material_unless_attr_panics toyEnv (ascii "AAAAAAAAAAAAAAAAAAAAAA")
      { T := 0, Key := ascii "u:AQIDBAUGBwgJCgsMDQ4PEBESExQVFhcYGRobHB0eHyA",
        Attr := ascii "AAAAAAAAAAAAAAAAAAAAAA" }
      (List.replicate 16 0)
      [1, 2, 3, 4, 5, 6, 7, 8, 9, 10, 11, 12, 13, 14, 15, 16, 17, 18, 19, 20, 21, 22, 23, 24, 25,
        26, 27, 28, 29, 30, 31, 32]
      4278058235 4210686199 4143314163 4075942127 4008570091 3941198055 3873826019 3806453983 []
      (by decide) (by decide) (by rfl) (by decide) (by rfl) (by decide) (by rfl)).1
      (by
        intro ddata h
        have e : base64urldecode (ascii "AAAAAAAAAAAAAAAAAAAAAA")
            = (List.replicate 16 0, none) := by rfl
        have h2 := e.symm.trans h
        have h3 : ddata = List.replicate 16 0 := (Prod.mk.inj h2).1.symm
        subst h3
        decide),
    (decodeNode_file_key_material_unless_attr_panics toyEnv (ascii "AAAAAAAAAAAAAAAAAAAAAA")
      { T := 0, Key := ascii "u:AQIDBAUGBwgJCgsMDQ4PEBESExQVFhcYGRobHB0eHyA",
        Attr := ascii "*" }
      (List.replicate 16 0)
      [1, 2, 3, 4, 5, 6, 7, 8, 9, 10, 11, 12, 13, 14, 15, 16, 17, 18, 19, 20, 21, 22, 23, 24, 25,
        26, 27, 28, 29, 30, 31, 32]
      4278058235 4210686199 4143314163 4075942127 4008570091 3941198055 3873826019 3806453983 []
      (by decide) (by decide) (by rfl) (by decide) (by rfl) (by decide) (by rfl)).1
      (by
        intro ddata h
        have e : (base64urldecode (ascii "*")).2 ≠ none := by decide
        rw [h] at e
        exact absurd rfl e),
    (decodeNode_file_key_material_unless_attr_panics toyEnv (ascii "AAAAAAAAAAAAAAAAAAAAAA")
      { T := 0, Key := ascii "u:AQIDBAUGBwgJCgsMDQ4PEBESExQVFhcYGRobHB0eHyA", Attr := [] }
      (List.replicate 16 0)
      [1, 2, 3, 4, 5, 6, 7, 8, 9, 10, 11, 12, 13, 14, 15, 16, 17, 18, 19, 20, 21, 22, 23, 24, 25,
        26, 27, 28, 29, 30, 31, 32]
      4278058235 4210686199 4143314163 4075942127 4008570091 3941198055 3873826019 3806453983 []
      (by decide) (by decide) (by rfl) (by decide) (by rfl) (by decide) (by rfl)).2
      [] (by rfl) (by decide)⟩


/-! ## Word conversions: inverse laws -/

theorem wordBytes_length (v : Nat) : (wordBytes v).length = 4 := rfl

theorem flatMap_wordBytes_length (a : List Nat) : (a.flatMap wordBytes).length = 4 * a.length := by
  induction a with
  | nil => rfl
  | cons v vs ih => simp [List.flatMap_cons, wordBytes_length, ih]; omega

/-- Reading back the big-endian bytes of 32-bit words gives the words. -/
theorem readWords_wordBytes (a : List Nat) (ha : ∀ v ∈ a, v < 2 ^ 32) :
    ∀ acc, readWords a.length (a.flatMap wordBytes) acc = (acc ++ a, none) := by
  induction a with
  | nil => intro acc; simp [readWords]
  | cons v vs ih =>
    intro acc
    have hv : v < 2 ^ 32 := ha v (List.mem_cons_self _ _)
    have e : v / 2 ^ 24 % 256 * 2 ^ 24 + v / 2 ^ 16 % 256 * 2 ^ 16 + v / 2 ^ 8 % 256 * 2 ^ 8
        + v % 256 = v := by omega
    have hfm : (v :: vs).flatMap wordBytes
        = v / 2 ^ 24 % 256 :: v / 2 ^ 16 % 256 :: v / 2 ^ 8 % 256 :: v % 256
          :: vs.flatMap wordBytes := by
      simp [List.flatMap_cons, wordBytes]
    rw [hfm, List.length_cons, readWords, e, ih (fun x hx => ha x (List.mem_cons_of_mem _ hx))]
    simp

/-- Writing the words read from whole groups of four bytes gives the bytes back. -/
theorem readWords_inverse (n : Nat) :
    ∀ (b acc : List Nat), b.length = 4 * n → (∀ x ∈ b, x < 256) →
      ∃ w, readWords n b acc = (acc ++ w, none) ∧ w.length = n ∧ w.flatMap wordBytes = b := by
  induction n with
  | zero =>
    intro b acc hb _
    have : b = [] := List.length_eq_zero.mp (by omega)
    subst this
    exact ⟨[], by simp [readWords]⟩
  | succ n ih =>
    intro b acc hb hx
    rcases b with _ | ⟨b0, _ | ⟨b1, _ | ⟨b2, _ | ⟨b3, rest⟩⟩⟩⟩ <;>
      simp only [List.length_cons, List.length_nil] at hb <;> try omega
    have h0 : b0 < 256 := hx b0 (by simp)
    have h1 : b1 < 256 := hx b1 (by simp)
    have h2 : b2 < 256 := hx b2 (by simp)
    have h3 : b3 < 256 := hx b3 (by simp)
    obtain ⟨w, hw, hl, hf⟩ := ih rest (acc ++ [b0 * 2 ^ 24 + b1 * 2 ^ 16 + b2 * 2 ^ 8 + b3])
      (by omega) (fun x hxr => hx x (by simp [hxr]))
    refine ⟨(b0 * 2 ^ 24 + b1 * 2 ^ 16 + b2 * 2 ^ 8 + b3) :: w, ?_, by simp [hl], ?_⟩
    · rw [readWords, hw]
      simp
    · have e0 : (b0 * 2 ^ 24 + b1 * 2 ^ 16 + b2 * 2 ^ 8 + b3) / 2 ^ 24 % 256 = b0 := by omega
      have e1 : (b0 * 2 ^ 24 + b1 * 2 ^ 16 + b2 * 2 ^ 8 + b3) / 2 ^ 16 % 256 = b1 := by omega
      have e2 : (b0 * 2 ^ 24 + b1 * 2 ^ 16 + b2 * 2 ^ 8 + b3) / 2 ^ 8 % 256 = b2 := by omega
      have e3 : (b0 * 2 ^ 24 + b1 * 2 ^ 16 + b2 * 2 ^ 8 + b3) % 256 = b3 := by omega
      simp only [List.flatMap_cons, wordBytes, e0, e1, e2, e3, hf, List.cons_append,
        List.nil_append]

/-- C19: `a32_to_bytes` and `bytes_to_a32` are inverse big-endian conversions.  For words below
`2^32`, `a32_to_bytes` returns four bytes a word, without error, and `bytes_to_a32` reads the
words back; for bytes whose number is a multiple of 4, `bytes_to_a32` returns a quarter as many
words, without error, and `a32_to_bytes` writes the bytes back. -/
theorem a32_bytes_inverse :
    (∀ a : List Nat, (∀ v ∈ a, v < 2 ^ 32) →
      ∃ b, a32_to_bytes a = (b, none) ∧ b.length = 4 * a.length ∧ bytes_to_a32 b = (a, none)) ∧
    (∀ b : List Nat, (∀ x ∈ b, x < 256) → b.length % 4 = 0 →
      ∃ w, bytes_to_a32 b = (w, none) ∧ w.length = b.length / 4 ∧
        a32_to_bytes w = (b, none)) := by
  constructor
  · intro a ha
    refine ⟨a.flatMap wordBytes, rfl, flatMap_wordBytes_length a, ?_⟩
    have hl := flatMap_wordBytes_length a
    have hn : ((a.flatMap wordBytes).length + 2) / 4 = a.length := by omega
    simp only [bytes_to_a32, hn]
    simpa using readWords_wordBytes a ha []
  · intro b hb hlen
    obtain ⟨w, hw, hl, hf⟩ := readWords_inverse (b.length / 4) b [] (by omega) hb
    have hn : (b.length + 2) / 4 = b.length / 4 := by omega
    refine ⟨w, ?_, hl, ?_⟩
    · simpa [bytes_to_a32, hn] using hw
    · simp [a32_to_bytes, hf]

/-- C19, on the words `[1, 4294967295]` and on the bytes `1, 2, …, 8`. -/
theorem a32_bytes_inverse_witness :
    (∃ b, a32_to_bytes [1, 4294967295] = (b, none) ∧ b.length = 4 * 2 ∧
      bytes_to_a32 b = ([1, 4294967295], none)) ∧
    (∃ w, bytes_to_a32 [1, 2, 3, 4, 5, 6, 7, 8] = (w, none) ∧ w.length = 8 / 4 ∧
      a32_to_bytes w = ([1, 2, 3, 4, 5, 6, 7, 8], none)) :=
  ⟨a32_bytes_inverse.1 [1, 4294967295] (by decide),
    a32_bytes_inverse.2 [1, 2, 3, 4, 5, 6, 7, 8] (by decide) (by decide)⟩

/-! ## Word-level and byte-level key derivation -/

theorem xor_div_two_pow (x y k : Nat) : (x ^^^ y) / 2 ^ k = x / 2 ^ k ^^^ y / 2 ^ k := by
  apply Nat.eq_of_testBit_eq
  intro i
  simp [← Nat.shiftRight_eq_div_pow, Nat.testBit_shiftRight]

theorem xor_mod_two_pow (x y k : Nat) : (x ^^^ y) % 2 ^ k = x % 2 ^ k ^^^ y % 2 ^ k := by
  apply Nat.eq_of_testBit_eq
  intro i
  by_cases h : i < k <;> simp [Nat.testBit_mod_two_pow, h]

/-- The bytes of the exclusive or of two words are the exclusive ors of their bytes. -/
theorem wordBytes_xor (x y : Nat) :
    wordBytes (x ^^^ y) = xorBytes (wordBytes x) (wordBytes y) := by
  have h8 : (256 : Nat) = 2 ^ 8 := by norm_num
  simp only [wordBytes, xorBytes, List.zipWith_cons_cons, List.zipWith_nil_right, h8,
    xor_div_two_pow, xor_mod_two_pow]

/-- The bytes of the word made of four bytes are these bytes. -/
theorem wordBytes_of_bytes (b0 b1 b2 b3 : Nat) (h0 : b0 < 256) (h1 : b1 < 256) (h2 : b2 < 256)
    (h3 : b3 < 256) :
    wordBytes (b0 * 2 ^ 24 + b1 * 2 ^ 16 + b2 * 2 ^ 8 + b3) = [b0, b1, b2, b3] := by
  have e0 : (b0 * 2 ^ 24 + b1 * 2 ^ 16 + b2 * 2 ^ 8 + b3) / 2 ^ 24 % 256 = b0 := by omega
  have e1 : (b0 * 2 ^ 24 + b1 * 2 ^ 16 + b2 * 2 ^ 8 + b3) / 2 ^ 16 % 256 = b1 := by omega
  have e2 : (b0 * 2 ^ 24 + b1 * 2 ^ 16 + b2 * 2 ^ 8 + b3) / 2 ^ 8 % 256 = b2 := by omega
  have e3 : (b0 * 2 ^ 24 + b1 * 2 ^ 16 + b2 * 2 ^ 8 + b3) % 256 = b3 := by omega
  simp only [wordBytes, e0, e1, e2, e3]


/-- C20: the word-level derivation of `decodeNode` for a file agrees with the byte-level
derivation of `unpackKey`.  For a block `p` of 32 bytes read as 8 big-endian words `w`, the bytes
of `[w0^w4, w1^w5, w2^w6, w3^w7]` are the first 16 bytes of `p` combined by exclusive or with
the last 16, the bytes of `[w4, w5, 0, 0]` are `p[16..24]` followed by 8 zero bytes, and these
are the key and the IV that `unpackKey` returns on every token of 43 base64url characters
decoding to `p`. -/
theorem file_key_words_agree_with_unpackKey (p : List Nat) (node : FSNode)
    (hp : p.length = 32) (hb : ∀ x ∈ p, x < 256) (hfile : node.IsFile = true) :
    ∃ w, bytes_to_a32 p = (w, none) ∧ w.length = 8 ∧
      (a32_to_bytes (contentKey node w)).1 = xorBytes (p.take 16) (p.drop 16) ∧
      (a32_to_bytes [w.getD 4 0, w.getD 5 0, 0, 0]).1
        = (p.drop 16).take 8 ++ List.replicate 8 0 ∧
      ∀ t, t.length = 43 → (∀ c ∈ t, isURLClass c = true) → base64urldecode t = (p, none) →
        ∃ mac, unpackKey t
          = .ok ((a32_to_bytes (contentKey node w)).1,
              (a32_to_bytes [w.getD 4 0, w.getD 5 0, 0, 0]).1, mac, none) := by
  obtain ⟨a0, a1, a2, a3, a4, a5, a6, a7, a8, a9, a10, a11, a12, a13, a14, a15, a16, a17, a18, a19, a20, a21, a22, a23, a24, a25, a26, a27, a28, a29, a30, a31, rfl⟩ := list_of_length_32 p hp
  have h0 : a0 < 256 := hb a0 (by simp)
  have h1 : a1 < 256 := hb a1 (by simp)
  have h2 : a2 < 256 := hb a2 (by simp)
  have h3 : a3 < 256 := hb a3 (by simp)
  have h4 : a4 < 256 := hb a4 (by simp)
  have h5 : a5 < 256 := hb a5 (by simp)
  have h6 : a6 < 256 := hb a6 (by simp)
  have h7 : a7 < 256 := hb a7 (by simp)
  have h8 : a8 < 256 := hb a8 (by simp)
  have h9 : a9 < 256 := hb a9 (by simp)
  have h10 : a10 < 256 := hb a10 (by simp)
  have h11 : a11 < 256 := hb a11 (by simp)
  have h12 : a12 < 256 := hb a12 (by simp)
  have h13 : a13 < 256 := hb a13 (by simp)
  have h14 : a14 < 256 := hb a14 (by simp)
  have h15 : a15 < 256 := hb a15 (by simp)
  have h16 : a16 < 256 := hb a16 (by simp)
  have h17 : a17 < 256 := hb a17 (by simp)
  have h18 : a18 < 256 := hb a18 (by simp)
  have h19 : a19 < 256 := hb a19 (by simp)
  have h20 : a20 < 256 := hb a20 (by simp)
  have h21 : a21 < 256 := hb a21 (by simp)
  have h22 : a22 < 256 := hb a22 (by simp)
  have h23 : a23 < 256 := hb a23 (by simp)
  have h24 : a24 < 256 := hb a24 (by simp)
  have h25 : a25 < 256 := hb a25 (by simp)
  have h26 : a26 < 256 := hb a26 (by simp)
  have h27 : a27 < 256 := hb a27 (by simp)
  have h28 : a28 < 256 := hb a28 (by simp)
  have h29 : a29 < 256 := hb a29 (by simp)
  have h30 : a30 < 256 := hb a30 (by simp)
  have h31 : a31 < 256 := hb a31 (by simp)
  have hkey : (a32_to_bytes (contentKey node
      [a0 * 2 ^ 24 + a1 * 2 ^ 16 + a2 * 2 ^ 8 + a3, a4 * 2 ^ 24 + a5 * 2 ^ 16 + a6 * 2 ^ 8 + a7,
        a8 * 2 ^ 24 + a9 * 2 ^ 16 + a10 * 2 ^ 8 + a11,
        a12 * 2 ^ 24 + a13 * 2 ^ 16 + a14 * 2 ^ 8 + a15,
        a16 * 2 ^ 24 + a17 * 2 ^ 16 + a18 * 2 ^ 8 + a19,
        a20 * 2 ^ 24 + a21 * 2 ^ 16 + a22 * 2 ^ 8 + a23,
        a24 * 2 ^ 24 + a25 * 2 ^ 16 + a26 * 2 ^ 8 + a27,
        a28 * 2 ^ 24 + a29 * 2 ^ 16 + a30 * 2 ^ 8 + a31])).1
      = xorBytes ([a0, a1, a2, a3, a4, a5, a6, a7, a8, a9, a10, a11, a12, a13, a14, a15, a16, a17, a18, a19, a20, a21, a22, a23, a24, a25, a26, a27, a28, a29, a30, a31].take 16)
          ([a0, a1, a2, a3, a4, a5, a6, a7, a8, a9, a10, a11, a12, a13, a14, a15, a16, a17, a18, a19, a20, a21, a22, a23, a24, a25, a26, a27, a28, a29, a30, a31].drop 16) := by
    simp only [contentKey, hfile, if_true, a32_to_bytes, List.getD_cons_zero, List.getD_cons_succ,
      List.flatMap_cons, List.flatMap_nil, wordBytes_xor, wordBytes_of_bytes a0 a1 a2 a3 h0 h1 h2 h3, wordBytes_of_bytes a4 a5 a6 a7 h4 h5 h6 h7, wordBytes_of_bytes a8 a9 a10 a11 h8 h9 h10 h11, wordBytes_of_bytes a12 a13 a14 a15 h12 h13 h14 h15, wordBytes_of_bytes a16 a17 a18 a19 h16 h17 h18 h19, wordBytes_of_bytes a20 a21 a22 a23 h20 h21 h22 h23, wordBytes_of_bytes a24 a25 a26 a27 h24 h25 h26 h27, wordBytes_of_bytes a28 a29 a30 a31 h28 h29 h30 h31]
    simp [xorBytes]
  have hiv : (a32_to_bytes [a16 * 2 ^ 24 + a17 * 2 ^ 16 + a18 * 2 ^ 8 + a19,
      a20 * 2 ^ 24 + a21 * 2 ^ 16 + a22 * 2 ^ 8 + a23, 0, 0]).1
      = ([a0, a1, a2, a3, a4, a5, a6, a7, a8, a9, a10, a11, a12, a13, a14, a15, a16, a17, a18, a19, a20, a21, a22, a23, a24, a25, a26, a27, a28, a29, a30, a31].drop 16).take 8 ++ List.replicate 8 0 := by
    simp only [a32_to_bytes, List.flatMap_cons, List.flatMap_nil, wordBytes_of_bytes a16 a17 a18 a19 h16 h17 h18 h19, wordBytes_of_bytes a20 a21 a22 a23 h20 h21 h22 h23]
    simp [wordBytes]
  have hw : bytes_to_a32 [a0, a1, a2, a3, a4, a5, a6, a7, a8, a9, a10, a11, a12, a13, a14, a15, a16, a17, a18, a19, a20, a21, a22, a23, a24, a25, a26, a27, a28, a29, a30, a31]
      = ([a0 * 2 ^ 24 + a1 * 2 ^ 16 + a2 * 2 ^ 8 + a3, a4 * 2 ^ 24 + a5 * 2 ^ 16 + a6 * 2 ^ 8 + a7, a8 * 2 ^ 24 + a9 * 2 ^ 16 + a10 * 2 ^ 8 + a11, a12 * 2 ^ 24 + a13 * 2 ^ 16 + a14 * 2 ^ 8 + a15, a16 * 2 ^ 24 + a17 * 2 ^ 16 + a18 * 2 ^ 8 + a19, a20 * 2 ^ 24 + a21 * 2 ^ 16 + a22 * 2 ^ 8 + a23, a24 * 2 ^ 24 + a25 * 2 ^ 16 + a26 * 2 ^ 8 + a27, a28 * 2 ^ 24 + a29 * 2 ^ 16 + a30 * 2 ^ 8 + a31], none) := by
    simp [bytes_to_a32, readWords]
  refine ⟨[a0 * 2 ^ 24 + a1 * 2 ^ 16 + a2 * 2 ^ 8 + a3, a4 * 2 ^ 24 + a5 * 2 ^ 16 + a6 * 2 ^ 8 + a7, a8 * 2 ^ 24 + a9 * 2 ^ 16 + a10 * 2 ^ 8 + a11, a12 * 2 ^ 24 + a13 * 2 ^ 16 + a14 * 2 ^ 8 + a15, a16 * 2 ^ 24 + a17 * 2 ^ 16 + a18 * 2 ^ 8 + a19, a20 * 2 ^ 24 + a21 * 2 ^ 16 + a22 * 2 ^ 8 + a23, a24 * 2 ^ 24 + a25 * 2 ^ 16 + a26 * 2 ^ 8 + a27, a28 * 2 ^ 24 + a29 * 2 ^ 16 + a30 * 2 ^ 8 + a31],
    hw, by simp, hkey, ?_, ?_⟩
  · simpa using hiv
  · intro t hlen hcls hdec
    obtain ⟨d, _, hd, hun⟩ := unpackKey_eval t hlen hcls
    have hdp : d = [a0, a1, a2, a3, a4, a5, a6, a7, a8, a9, a10, a11, a12, a13, a14, a15, a16, a17, a18, a19, a20, a21, a22, a23, a24, a25, a26, a27, a28, a29, a30, a31] := (Prod.mk.inj (hd.symm.trans hdec)).1
    subst hdp
    refine ⟨List.replicate 8 0, ?_⟩
    rw [hun, hkey]
    have hiv2 : (a32_to_bytes [List.getD
        [a0 * 2 ^ 24 + a1 * 2 ^ 16 + a2 * 2 ^ 8 + a3, a4 * 2 ^ 24 + a5 * 2 ^ 16 + a6 * 2 ^ 8 + a7,
          a8 * 2 ^ 24 + a9 * 2 ^ 16 + a10 * 2 ^ 8 + a11,
          a12 * 2 ^ 24 + a13 * 2 ^ 16 + a14 * 2 ^ 8 + a15,
          a16 * 2 ^ 24 + a17 * 2 ^ 16 + a18 * 2 ^ 8 + a19,
          a20 * 2 ^ 24 + a21 * 2 ^ 16 + a22 * 2 ^ 8 + a23,
          a24 * 2 ^ 24 + a25 * 2 ^ 16 + a26 * 2 ^ 8 + a27,
          a28 * 2 ^ 24 + a29 * 2 ^ 16 + a30 * 2 ^ 8 + a31] 4 0, List.getD
        [a0 * 2 ^ 24 + a1 * 2 ^ 16 + a2 * 2 ^ 8 + a3, a4 * 2 ^ 24 + a5 * 2 ^ 16 + a6 * 2 ^ 8 + a7,
          a8 * 2 ^ 24 + a9 * 2 ^ 16 + a10 * 2 ^ 8 + a11,
          a12 * 2 ^ 24 + a13 * 2 ^ 16 + a14 * 2 ^ 8 + a15,
          a16 * 2 ^ 24 + a17 * 2 ^ 16 + a18 * 2 ^ 8 + a19,
          a20 * 2 ^ 24 + a21 * 2 ^ 16 + a22 * 2 ^ 8 + a23,
          a24 * 2 ^ 24 + a25 * 2 ^ 16 + a26 * 2 ^ 8 + a27,
          a28 * 2 ^ 24 + a29 * 2 ^ 16 + a30 * 2 ^ 8 + a31] 5 0, 0, 0]).1
        = ([a0, a1, a2, a3, a4, a5, a6, a7, a8, a9, a10, a11, a12, a13, a14, a15, a16, a17, a18, a19, a20, a21, a22, a23, a24, a25, a26, a27, a28, a29, a30, a31].drop 16).take 8 ++ List.replicate 8 0 := by
      simpa using hiv
    rw [hiv2]

/-- C20, on the block of the bytes 1 to 32 and its token
`AQIDBAUGBwgJCgsMDQ4PEBESExQVFhcYGRobHB0eHyA`. -/
theorem file_key_words_agree_with_unpackKey_witness :
    ∃ w, bytes_to_a32 [1, 2, 3, 4, 5, 6, 7, 8, 9, 10, 11, 12, 13, 14, 15, 16, 17, 18, 19, 20, 21,
        22, 23, 24, 25, 26, 27, 28, 29, 30, 31, 32] = (w, none) ∧ w.length = 8 ∧
      (a32_to_bytes (contentKey { T := 0 } w)).1
        = xorBytes ([1, 2, 3, 4, 5, 6, 7, 8, 9, 10, 11, 12, 13, 14, 15, 16, 17, 18, 19, 20, 21,
            22, 23, 24, 25, 26, 27, 28, 29, 30, 31, 32].take 16)
          ([1, 2, 3, 4, 5, 6, 7, 8, 9, 10, 11, 12, 13, 14, 15, 16, 17, 18, 19, 20, 21,
            22, 23, 24, 25, 26, 27, 28, 29, 30, 31, 32].drop 16) ∧
      (a32_to_bytes [w.getD 4 0, w.getD 5 0, 0, 0]).1
        = ([1, 2, 3, 4, 5, 6, 7, 8, 9, 10, 11, 12, 13, 14, 15, 16, 17, 18, 19, 20, 21,
            22, 23, 24, 25, 26, 27, 28, 29, 30, 31, 32].drop 16).take 8 ++ List.replicate 8 0 ∧
      ∀ t, t.length = 43 → (∀ c ∈ t, isURLClass c = true) →
        base64urldecode t = ([1, 2, 3, 4, 5, 6, 7, 8, 9, 10, 11, 12, 13, 14, 15, 16, 17, 18, 19,
          20, 21, 22, 23, 24, 25, 26, 27, 28, 29, 30, 31, 32], none) →
        ∃ mac, unpackKey t
          = .ok ((a32_to_bytes (contentKey { T := 0 } w)).1,
              (a32_to_bytes [w.getD 4 0, w.getD 5 0, 0, 0]).1, mac, none) :=
  file_key_words_agree_with_unpackKey
    [1, 2, 3, 4, 5, 6, 7, 8, 9, 10, 11, 12, 13, 14, 15, 16, 17, 18, 19, 20, 21, 22, 23, 24, 25,
      26, 27, 28, 29, 30, 31, 32] { T := 0 } (by decide) (by decide) (by decide)


/-! ## Claims on node types -/

/-- C12, as stated, fails: on nodes of type Root (2), Inbox (3), Trash (4) and of the unknown
type 5, `decodeNode` returns no node and the error `Invalid type`, whatever the folder key. -/
theorem decodeNode_other_types_counterexample :
    (∀ (env : Env) (k : List Nat),
      decodeNode env k { T := 2 } = .ok (none, some (.invalidType 2))) ∧
    (∀ (env : Env) (k : List Nat),
      decodeNode env k { T := 3 } = .ok (none, some (.invalidType 3))) ∧
    (∀ (env : Env) (k : List Nat),
      decodeNode env k { T := 4 } = .ok (none, some (.invalidType 4))) ∧
    (∀ (env : Env) (k : List Nat),
      decodeNode env k { T := 5 } = .ok (none, some (.invalidType 5))) := by
  refine ⟨?_, ?_, ?_, ?_⟩ <;> intro env k <;> rfl

/-- C12, amended: for every node whose type is neither File nor Folder (Root, Inbox, Trash or an
unknown code `N`), `decodeNode` returns no node and the error `Invalid type N`; it derives no
key and sets no name. -/
theorem decodeNode_rejects_other_types (env : Env) (k : List Nat) (node : FSNode)
    (hfile : node.T ≠ FileType) (hdir : node.T ≠ FolderType) :
    decodeNode env k node = .ok (none, some (.invalidType node.T)) := by
  simp [decodeNode, FSNode.IsDir, FSNode.IsFile, hfile, hdir]

/-- C12 amended, on a node of type Root. -/
theorem decodeNode_rejects_other_types_witness :
    decodeNode toyEnv (ascii "AAAAAAAAAAAAAAAAAAAAAA") { T := 2 }
      = .ok (none, some (.invalidType 2)) :=
  decodeNode_rejects_other_types toyEnv (ascii "AAAAAAAAAAAAAAAAAAAAAA") { T := 2 } (by decide)
    (by decide)

/-! ## Claims on the command API -/

/-- On a body of at least two bytes `apiReq` returns: `nil` when the interior parses, `errAPI`
when it does not and is a decimal integer, the parse error otherwise. -/
theorem apiReq_of_brackets (unmarshal : List Nat → Option GoError) (a z : Nat)
    (interior : List Nat) :
    apiReq unmarshal (a :: (interior ++ [z]))
      = match unmarshal interior with
        | some err => if parseIntOk interior then .ok (some .errAPI) else .ok (some err)
        | none => .ok none := by
  have h1 : ¬ (a :: (interior ++ [z])).length < 1 := by simp
  have h2 : ¬ (a :: (interior ++ [z])).length - 1 < 1 := by simp
  have h3 : ((a :: (interior ++ [z])).drop 1).take ((a :: (interior ++ [z])).length - 1 - 1)
      = interior := by simp
  simp only [apiReq, h1, h2, if_false, h3]

/-- C18: on the empty body and on every body of a single byte, `apiReq` panics on the slice
`bodyBytes[1 : len(bodyBytes)-1]`, whatever the JSON decoder does. -/
theorem apiReq_short_body_panics (unmarshal : List Nat → Option GoError) :
    apiReq unmarshal [] = .error (.sliceBoundsLowHigh 1 (-1)) ∧
    ∀ b, apiReq unmarshal [b] = .error (.sliceBoundsLowHigh 1 0) :=
  ⟨rfl, fun _ => rfl⟩

/-! ## Claims on download progress -/

theorem pairwise_le_snoc (l : List Int) (a b : Int) (h : (l ++ [a]).Pairwise (· ≤ ·))
    (hab : a ≤ b) : (l ++ [b]).Pairwise (· ≤ ·) := by
  rw [List.pairwise_append] at h ⊢
  refine ⟨h.1, List.pairwise_singleton _ _, ?_⟩
  intro x hx y hy
  have hy' : y = b := by simpa using hy
  subst hy'
  exact le_trans (h.2.2 x hx a (by simp)) hab

theorem pairwise_le_snoc_snoc (l : List Int) (a b : Int) (h : (l ++ [a]).Pairwise (· ≤ ·))
    (hab : a ≤ b) : (l ++ [b] ++ [b]).Pairwise (· ≤ ·) := by
  have h1 := pairwise_le_snoc l a b h hab
  rw [List.pairwise_append]
  refine ⟨h1, List.pairwise_singleton _ _, ?_⟩
  intro x hx y hy
  have hy' : y = b := by simpa using hy
  subst hy'
  rw [List.pairwise_append] at h1
  rcases List.mem_append.mp hx with hx | hx
  · exact h1.2.2 x hx y (by simp)
  · have : x = y := by simpa using hx
    exact le_of_eq this

/-- Within the range of the Go `int` nothing wraps. -/
theorem wrapInt_of_range (x : Int) (h1 : -2 ^ 63 ≤ x) (h2 : x < 2 ^ 63) : wrapInt x = x := by
  unfold wrapInt
  omega

/-- A wrapped value lies in the range of the Go `int`. -/
theorem wrapInt_range (x : Int) : -2 ^ 63 ≤ wrapInt x ∧ wrapInt x < 2 ^ 63 := by
  unfold wrapInt
  omega

/-- A `select` without a `default` case blocks exactly on a full channel. -/
theorem selectSend_blocks (buf : List Int) (v : Int) :
    selectSend false buf v = none ↔ progressCap ≤ buf.length := by
  unfold selectSend
  by_cases h : buf.length < progressCap
  · simp [h]
  · simp [h]
    omega

/-- With room in the channel `Read` queues the new total. -/
theorem Read_of_room (f : fileReadCloser) (n : Int) (h : f.Progress.length < progressCap) :
    f.Read n = some ⟨wrapInt (f.Total + n), f.Progress ++ [wrapInt (f.Total + n)]⟩ := by
  simp [fileReadCloser.Read, selectSend, h]

/-- On a full channel `Read` drops the new total. -/
theorem Read_of_full (f : fileReadCloser) (n : Int) (h : ¬ f.Progress.length < progressCap) :
    f.Read n = some ⟨wrapInt (f.Total + n), f.Progress⟩ := by
  simp [fileReadCloser.Read, selectSend, h]

theorem readCounts_nonneg (es : List Event) (hn : ∀ n, Event.read n ∈ es → 0 ≤ n) :
    0 ≤ readCounts es := by
  induction es with
  | nil => simp [readCounts]
  | cons e es ih =>
    have hn' : ∀ n, Event.read n ∈ es → 0 ≤ n := fun n h => hn n (List.mem_cons_of_mem _ h)
    cases e with
    | read n =>
      have h0 : 0 ≤ n := hn n (List.mem_cons_self _ _)
      have := ih hn'
      simp only [readCounts]
      omega
    | recv => simpa [readCounts] using ih hn'

/-- Every run goes through: no call of `Read` blocks; the values received and waiting are, in
order, a subsequence of the running totals, and the channel holds at most 10 values. -/
theorem runEvents_sublist (es : List Event) :
    ∀ (f : fileReadCloser) (got pre : List Int),
      (got ++ f.Progress).Sublist pre →
      f.Progress.length ≤ progressCap →
      ∃ f1 got1, runEvents es f got = some (f1, got1) ∧
        (got1 ++ f1.Progress).Sublist (pre ++ runningTotals es f.Total) ∧
        f1.Progress.length ≤ progressCap := by
  induction es with
  | nil =>
    intro f got pre hs hc
    exact ⟨f, got, rfl, by simpa [runningTotals] using hs, hc⟩
  | cons e es ih =>
    intro f got pre hs hc
    cases e with
    | read n =>
      have hpre : pre ++ runningTotals (Event.read n :: es) f.Total
          = (pre ++ [wrapInt (f.Total + n)]) ++ runningTotals es (wrapInt (f.Total + n)) := by
        simp [runningTotals]
      rw [hpre]
      by_cases hroom : f.Progress.length < progressCap
      · have hR := Read_of_room f n hroom
        obtain ⟨f1, got1, h1, h2, h3⟩ := ih
          ⟨wrapInt (f.Total + n), f.Progress ++ [wrapInt (f.Total + n)]⟩ got
          (pre ++ [wrapInt (f.Total + n)])
          (by rw [← List.append_assoc]; exact hs.append (List.Sublist.refl _))
          (by simp only [List.length_append, List.length_singleton]; omega)
        exact ⟨f1, got1, by simp only [runEvents, hR]; exact h1, h2, h3⟩
      · have hR := Read_of_full f n hroom
        obtain ⟨f1, got1, h1, h2, h3⟩ := ih ⟨wrapInt (f.Total + n), f.Progress⟩ got
          (pre ++ [wrapInt (f.Total + n)])
          (hs.trans (List.sublist_append_left _ _)) hc
        exact ⟨f1, got1, by simp only [runEvents, hR]; exact h1, h2, h3⟩
    | recv =>
      rcases hP : f.Progress with _ | ⟨v, rest⟩
      · obtain ⟨f1, got1, h1, h2, h3⟩ := ih f got pre hs hc
        exact ⟨f1, got1, by simp only [runEvents, hP]; exact h1,
          by simpa [runningTotals] using h2, h3⟩
      · rw [hP] at hs hc
        obtain ⟨f1, got1, h1, h2, h3⟩ := ih { f with Progress := rest } (got ++ [v]) pre
          (by simpa [List.append_assoc] using hs)
          (by simp only [List.length_cons] at hc ⊢; omega)
        exact ⟨f1, got1, by simp only [runEvents, hP]; exact h1,
          by simpa [runningTotals] using h2, h3⟩

/-- While the sum of the counts stays in the range of the Go `int`, the values received and
waiting never decrease and stay below the current total, which is the exact sum. -/
theorem runEvents_monotone (es : List Event) :
    ∀ (f : fileReadCloser) (got : List Int) (f1 : fileReadCloser) (got1 : List Int),
      (∀ n, Event.read n ∈ es → 0 ≤ n) →
      -2 ^ 63 ≤ f.Total → f.Total + readCounts es < 2 ^ 63 →
      (got ++ f.Progress ++ [f.Total]).Pairwise (· ≤ ·) →
      runEvents es f got = some (f1, got1) →
      (got1 ++ f1.Progress ++ [f1.Total]).Pairwise (· ≤ ·) ∧
        f1.Total = f.Total + readCounts es := by
  induction es with
  | nil =>
    intro f got f1 got1 _ _ _ hp hr
    simp only [runEvents, Option.some.injEq, Prod.mk.injEq] at hr
    obtain ⟨rfl, rfl⟩ := hr
    exact ⟨hp, by simp [readCounts]⟩
  | cons e es ih =>
    intro f got f1 got1 hn hlo hhi hp hr
    have hn' : ∀ n, Event.read n ∈ es → 0 ≤ n := fun n h => hn n (List.mem_cons_of_mem _ h)
    have hrest := readCounts_nonneg es hn'
    cases e with
    | read n =>
      have h0 : 0 ≤ n := hn n (List.mem_cons_self _ _)
      simp only [readCounts] at hhi
      have hw : wrapInt (f.Total + n) = f.Total + n :=
        wrapInt_of_range _ (by omega) (by omega)
      have hle : f.Total ≤ f.Total + n := by omega
      by_cases hroom : f.Progress.length < progressCap
      · have hR := Read_of_room f n hroom
        rw [hw] at hR
        simp only [runEvents, hR] at hr
        have := ih ⟨f.Total + n, f.Progress ++ [f.Total + n]⟩ got f1 got1 hn'
          (by show -2 ^ 63 ≤ f.Total + n; omega)
          (by show f.Total + n + readCounts es < 2 ^ 63; omega)
          (by
            simpa [List.append_assoc] using
              pairwise_le_snoc_snoc (got ++ f.Progress) f.Total (f.Total + n) hp hle)
          hr
        refine ⟨this.1, ?_⟩
        rw [this.2]
        simp only [readCounts]
        omega
      · have hR := Read_of_full f n hroom
        rw [hw] at hR
        simp only [runEvents, hR] at hr
        have := ih ⟨f.Total + n, f.Progress⟩ got f1 got1 hn'
          (by show -2 ^ 63 ≤ f.Total + n; omega)
          (by show f.Total + n + readCounts es < 2 ^ 63; omega)
          (pairwise_le_snoc (got ++ f.Progress) f.Total (f.Total + n) hp hle)
          hr
        refine ⟨this.1, ?_⟩
        rw [this.2]
        simp only [readCounts]
        omega
    | recv =>
      simp only [readCounts] at hhi ⊢
      rcases hP : f.Progress with _ | ⟨v, rest⟩
      · simp only [runEvents, hP] at hr
        exact ih f got f1 got1 hn' hlo hhi hp hr
      · simp only [runEvents, hP] at hr
        rw [hP] at hp
        exact ih { f with Progress := rest } (got ++ [v]) f1 got1 hn' hlo hhi
          (by simpa [List.append_assoc] using hp) hr

/-- C17, as stated, fails beyond the range of the Go `int`: from the total `2^63 - 2` the calls
of `Read` with the counts 0 and 5 send `9223372036854775806` and then `-9223372036854775805`,
and from the total 0 two calls with the count `2^62` send `4611686018427387904` and then
`-9223372036854775808`; the consumer receives both values in this order, a regression. -/
theorem Read_progress_regresses_on_overflow :
    (∀ n, Event.read n ∈ [Event.read 0, .read 5, .recv, .recv] → 0 ≤ n) ∧
    runEvents [.read 0, .read 5, .recv, .recv] { Total := 9223372036854775806, Progress := [] } []
      = some ({ Total := -9223372036854775805, Progress := [] },
          [9223372036854775806, -9223372036854775805]) ∧
    ¬ ([9223372036854775806, -9223372036854775805] : List Int).Pairwise (· ≤ ·) ∧
    (∀ n, Event.read n ∈ [Event.read 4611686018427387904, .recv,
        .read 4611686018427387904, .recv] → 0 ≤ n) ∧
    runEvents [.read 4611686018427387904, .recv, .read 4611686018427387904, .recv]
        { Total := 0, Progress := [] } []
      = some ({ Total := -9223372036854775808, Progress := [] },
          [4611686018427387904, -9223372036854775808]) ∧
    ¬ ([4611686018427387904, -9223372036854775808] : List Int).Pairwise (· ≤ ·) := by
  refine ⟨?_, by decide, by decide, ?_, by decide, by decide⟩
  · intro n h
    simp only [List.mem_cons, Event.read.injEq, List.mem_singleton, List.not_mem_nil,
      or_false, reduceCtorEq, false_or] at h
    omega
  · intro n h
    simp only [List.mem_cons, Event.read.injEq, List.mem_singleton, List.not_mem_nil,
      or_false, reduceCtorEq, false_or] at h
    omega

/-- C17, amended: every call of `Read` returns without blocking; it adds the count of the
underlying reader to `Total` in the arithmetic of the Go `int` (exactly, when the sum is in
range) and puts the new total in the channel when fewer than 10 values wait there, dropping it
otherwise.  For every schedule of calls with non-negative counts and receives, from an empty
channel, the run goes through, the values received are in order a subsequence of the running
totals and the channel never holds more than 10 values; when the start total and the sum of
the counts stay in the range of the Go `int`, the values received never decrease and the final
total is the exact sum. -/
theorem Read_progress_monotone_in_range (es : List Event) (t : Int)
    (hn : ∀ n, Event.read n ∈ es → 0 ≤ n) :
    (∀ (f : fileReadCloser) (n : Int), ∃ f1, f.Read n = some f1 ∧
      f1.Total = wrapInt (f.Total + n) ∧
      (-2 ^ 63 ≤ f.Total + n → f.Total + n < 2 ^ 63 → f1.Total = f.Total + n) ∧
      (f.Progress.length < 10 → f1.Progress = f.Progress ++ [f1.Total]) ∧
      (10 ≤ f.Progress.length → f1.Progress = f.Progress)) ∧
    ∃ f1 got, runEvents es { Total := t, Progress := [] } [] = some (f1, got) ∧
      got.Sublist (runningTotals es t) ∧
      f1.Progress.length ≤ 10 ∧
      (-2 ^ 63 ≤ t → t + readCounts es < 2 ^ 63 →
        got.Pairwise (· ≤ ·) ∧ f1.Total = t + readCounts es) := by
  refine ⟨?_, ?_⟩
  · intro f n
    by_cases hroom : f.Progress.length < progressCap
    · have h10 : f.Progress.length < 10 := hroom
      exact ⟨_, Read_of_room f n hroom, rfl, fun h1 h2 => wrapInt_of_range _ h1 h2,
        fun _ => rfl, fun h => by omega⟩
    · have h10 : ¬ f.Progress.length < 10 := hroom
      exact ⟨_, Read_of_full f n hroom, rfl, fun h1 h2 => wrapInt_of_range _ h1 h2,
        fun h => absurd h h10, fun _ => rfl⟩
  · obtain ⟨f1, got, hr, hs, hc⟩ := runEvents_sublist es { Total := t, Progress := [] } [] []
      (by simp) (by simp)
    refine ⟨f1, got, hr, ?_, hc, ?_⟩
    · simp only [List.nil_append] at hs
      exact (List.sublist_append_left _ _).trans hs
    · intro hlo hhi
      have h := runEvents_monotone es { Total := t, Progress := [] } [] f1 got hn hlo hhi
        (by simp) hr
      refine ⟨?_, h.2⟩
      have hp := h.1
      rw [List.append_assoc, List.pairwise_append] at hp
      exact hp.1

/-- C17 amended, on the schedule: reads of 5 and 3 bytes, a receive, a read of 0 bytes, three
receives, from the total 0: the consumer receives 5, 8 and 8. -/
theorem Read_progress_monotone_in_range_witness :
    (∀ n, Event.read n ∈ [Event.read 5, .read 3, .recv, .read 0, .recv, .recv, .recv] → 0 ≤ n) ∧
    runEvents [.read 5, .read 3, .recv, .read 0, .recv, .recv, .recv]
      { Total := 0, Progress := [] } [] = some ({ Total := 8, Progress := [] }, [5, 8, 8]) ∧
    ((∀ (f : fileReadCloser) (n : Int), ∃ f1, f.Read n = some f1 ∧
      f1.Total = wrapInt (f.Total + n) ∧
      (-2 ^ 63 ≤ f.Total + n → f.Total + n < 2 ^ 63 → f1.Total = f.Total + n) ∧
      (f.Progress.length < 10 → f1.Progress = f.Progress ++ [f1.Total]) ∧
      (10 ≤ f.Progress.length → f1.Progress = f.Progress)) ∧
    ∃ f1 got, runEvents [.read 5, .read 3, .recv, .read 0, .recv, .recv, .recv]
        { Total := 0, Progress := [] } [] = some (f1, got) ∧
      got.Sublist (runningTotals [.read 5, .read 3, .recv, .read 0, .recv, .recv, .recv] 0) ∧
      f1.Progress.length ≤ 10 ∧
      (-2 ^ 63 ≤ (0 : Int) →
        0 + readCounts [.read 5, .read 3, .recv, .read 0, .recv, .recv, .recv] < 2 ^ 63 →
        got.Pairwise (· ≤ ·) ∧
          f1.Total = 0 + readCounts [.read 5, .read 3, .recv, .read 0, .recv, .recv, .recv])) ∧
    -2 ^ 63 ≤ (0 : Int) ∧
    0 + readCounts [.read 5, .read 3, .recv, .read 0, .recv, .recv, .recv] < 2 ^ 63 :=
  have hn : ∀ n, Event.read n ∈ [Event.read 5, .read 3, .recv, .read 0, .recv, .recv, .recv] →
      0 ≤ n := by
    intro n h
    simp only [List.mem_cons, Event.read.injEq, List.mem_singleton, List.not_mem_nil,
      or_false, reduceCtorEq, false_or] at h
    omega
  ⟨hn, by decide,
    Read_progress_monotone_in_range [.read 5, .read 3, .recv, .read 0, .recv, .recv, .recv] 0 hn,
    by decide, by decide⟩


/-! ## The map `searchTree` -/

theorem keyIndex_append_of_mem (h : List Nat) (ks l : List (List Nat)) (hm : h ∈ ks) :
    keyIndex h (ks ++ l) = keyIndex h ks := by
  induction ks with
  | nil => simp at hm
  | cons k ks ih =>
    by_cases hk : k = h
    · simp [keyIndex, hk]
    · have hm' : h ∈ ks := by
        rcases List.mem_cons.mp hm with e | e
        · exact absurd e.symm hk
        · exact e
      simp [keyIndex, hk, ih hm']

theorem keyIndex_of_not_mem (h : List Nat) (ks : List (List Nat)) (hm : h ∉ ks) :
    keyIndex h (ks ++ [h]) = ks.length := by
  induction ks with
  | nil => simp [keyIndex]
  | cons k ks ih =>
    have hk : k ≠ h := fun e => hm (e ▸ List.mem_cons_self _ _)
    have hm' : h ∉ ks := fun e => hm (List.mem_cons_of_mem _ e)
    simp [keyIndex, hk, ih hm']

theorem getElem_keyIndex (h : List Nat) (ks : List (List Nat)) (hm : h ∈ ks) :
    ks[keyIndex h ks]? = some h := by
  induction ks with
  | nil => simp at hm
  | cons k ks ih =>
    by_cases hk : k = h
    · simp [keyIndex, hk]
    · have hm' : h ∈ ks := by
        rcases List.mem_cons.mp hm with e | e
        · exact absurd e.symm hk
        · exact e
      simp [keyIndex, hk, ih hm']

theorem keyIndex_inj (h1 h2 : List Nat) (ks : List (List Nat)) (hm1 : h1 ∈ ks) (hm2 : h2 ∈ ks)
    (he : keyIndex h1 ks = keyIndex h2 ks) : h1 = h2 := by
  have e1 := getElem_keyIndex h1 ks hm1
  have e2 := getElem_keyIndex h2 ks hm2
  rw [he, e2] at e1
  exact (Option.some.inj e1).symm

theorem lookup_none (m : SearchTree) (h : List Nat) (hm : h ∉ m.map Prod.fst) :
    m.lookup h = none := by
  simp only [SearchTree.lookup, hm, if_false]

theorem lookup_some (m : SearchTree) (h : List Nat) (hm : h ∈ m.map Prod.fst) :
    m.lookup h = some (keyIndex h (m.map Prod.fst)) := by
  simp only [SearchTree.lookup, hm, if_true]

/-- A write through the pointer of the key `h` changes the tree node of the entry of `h`. -/
theorem modifyAt_keyIndex (f : TreeNode → TreeNode) (h : List Nat) (m : SearchTree)
    (hm : h ∈ m.map Prod.fst) (hnd : (m.map Prod.fst).Nodup) :
    modifyAt f (keyIndex h (m.map Prod.fst)) m
      = m.map (fun e => if e.1 = h then (e.1, f e.2) else e) := by
  induction m with
  | nil => simp at hm
  | cons e m ih =>
    obtain ⟨k, t⟩ := e
    simp only [List.map_cons, List.nodup_cons] at hnd
    by_cases hk : k = h
    · subst hk
      have hrest : m.map (fun e => if e.1 = k then (e.1, f e.2) else e) = m := by
        have : ∀ e ∈ m, (fun e : List Nat × TreeNode => if e.1 = k then (e.1, f e.2) else e) e
            = e := by
          intro e he
          have : e.1 ≠ k := fun hek => hnd.1 (hek ▸ List.mem_map_of_mem Prod.fst he)
          simp [this]
        rw [List.map_congr_left this, List.map_id']
      simp [modifyAt, keyIndex, hrest]
    · have hm' : h ∈ m.map Prod.fst := by
        simp only [List.map_cons, List.mem_cons] at hm
        rcases hm with hm | hm
        · exact absurd hm.symm hk
        · exact hm
      simp [modifyAt, keyIndex, hk, ih hm' hnd.2]

theorem keys_map_modify (f : TreeNode → TreeNode) (h : List Nat) (m : SearchTree) :
    (m.map (fun e => if e.1 = h then (e.1, f e.2) else e)).map Prod.fst = m.map Prod.fst := by
  rw [List.map_map]
  apply List.map_congr_left
  intro e _
  by_cases he : e.1 = h <;> simp [he]

/-- The entry at the pointer of a key has this key. -/
theorem getElem_keyIndex_entry (m : SearchTree) (h : List Nat) (hm : h ∈ m.map Prod.fst) :
    ∃ e, m[keyIndex h (m.map Prod.fst)]? = some e ∧ e ∈ m ∧ e.1 = h := by
  have h1 := getElem_keyIndex h (m.map Prod.fst) hm
  rw [List.getElem?_map] at h1
  rcases hg : m[keyIndex h (m.map Prod.fst)]? with _ | e
  · rw [hg] at h1; simp at h1
  · rw [hg] at h1
    refine ⟨e, rfl, List.getElem?_mem hg, ?_⟩
    simpa using h1

/-- Two entries with the same key are the same entry. -/
theorem entry_eq_of_key (m : SearchTree) (hnd : (m.map Prod.fst).Nodup)
    (e1 e2 : List Nat × TreeNode) (h1 : e1 ∈ m) (h2 : e2 ∈ m) (hk : e1.1 = e2.1) : e1 = e2 := by
  induction m with
  | nil => simp at h1
  | cons e m ih =>
    simp only [List.map_cons, List.nodup_cons] at hnd
    rcases List.mem_cons.mp h1 with rfl | h1' <;> rcases List.mem_cons.mp h2 with rfl | h2'
    · rfl
    · exact absurd (hk ▸ List.mem_map_of_mem Prod.fst h2') hnd.1
    · exact absurd (hk.symm ▸ List.mem_map_of_mem Prod.fst h1') hnd.1
    · exact ih hnd.2 h1' h2'


/-! ## `decodeNode` in the loop of `List` -/

theorem decodeNodeStore_preserves (node : FSNode) (key w : List Nat) (attr : FileAttr)
    (n : FSNode) (e : Option GoError) (h : decodeNodeStore node key w attr = (some n, e)) :
    n.Hash = node.Hash ∧ n.Parent = node.Parent := by
  unfold decodeNodeStore at h
  simp only [a32_to_bytes, ne_eq, not_true_eq_false, if_false] at h
  split_ifs at h <;> simp only [Prod.mk.injEq, Option.some.injEq] at h <;>
    (obtain ⟨rfl, _⟩ := h; exact ⟨rfl, rfl⟩)

/-- The node that `decodeNode` returns has the hash and the parent hash of its argument. -/
theorem decodeNode_preserves (env : Env) (k : List Nat) (node n : FSNode) (e : Option GoError)
    (h : decodeNode env k node = .ok (some n, e)) :
    n.Hash = node.Hash ∧ n.Parent = node.Parent := by
  by_cases hty : (!node.IsDir && !node.IsFile) = true
  · simp only [decodeNode, hty, if_true, if_false] at h
    simp at h
  by_cases hargs : (split node.Key 58).length < 2
  · simp only [decodeNode, hty, hargs, if_true, if_false] at h
    simp at h
  rcases hk : base64urldecode k with ⟨b, _ | e1⟩
  swap
  · simp only [decodeNode, hty, hargs, hk, if_true, if_false] at h
    simp at h
  rcases hb : newCipher b with _ | e1
  swap
  · simp only [decodeNode, hty, hargs, hk, hb, if_true, if_false] at h
    simp at h
  rcases hitem : base64urldecode ((split node.Key 58).getD 1 []) with ⟨buf0, _ | e1⟩
  swap
  · simp only [decodeNode, hty, hargs, hk, hb, hitem, if_true, if_false] at h
    simp at h
  rcases hbd : blockDecrypt env b buf0 buf0 with ⟨buf, _ | e1⟩
  swap
  · simp only [decodeNode, hty, hargs, hk, hb, hitem, hbd, if_true, if_false] at h
    simp at h
  rcases hw : bytes_to_a32 buf with ⟨w, _ | e1⟩
  swap
  · simp only [decodeNode, hty, hargs, hk, hb, hitem, hbd, hw, if_true, if_false] at h
    simp at h
  by_cases hf : node.IsFile = true ∧ w.length < 8
  · simp only [decodeNode, hty, hargs, hk, hb, hitem, hbd, hw, hf, if_true, if_false] at h
    simp at h
  simp only [decodeNode, hty, hargs, hk, hb, hitem, hbd, hw, hf, if_false] at h
  rcases ha : decodeNodeAttr env (contentKey node w) node.Attr with p | attr
  · rw [ha] at h
    simp [bind, Except.bind] at h
  · rw [ha] at h
    simp only [bind, Except.bind, Bool.false_eq_true, if_false, Except.ok.injEq] at h
    exact decodeNodeStore_preserves _ _ _ _ _ _ h

/-- A file whose compound key has fewer than 8 words: `decodeNode` returns neither a node nor
an error. -/
theorem decodeNode_short_compkey (env : Env) (k : List Nat) (node : FSNode) (b buf w : List Nat)
    (hT : node.IsFile = true)
    (hargs : 2 ≤ (split node.Key 58).length)
    (hk : base64urldecode k = (b, none)) (hb : newCipher b = none)
    (hitem : base64urldecode ((split node.Key 58).getD 1 []) = (buf, none))
    (hblk : buf.length % 16 = 0)
    (hw : bytes_to_a32 (ecbLoop (env.aesDecrypt b) (buf.length / 16) buf) = (w, none))
    (hshort : w.length < 8) :
    decodeNode env k node = .ok (none, none) := by
  have hty : (!node.IsDir && !node.IsFile) = false := by simp [hT]
  have hnargs : ¬ (split node.Key 58).length < 2 := by omega
  have hecb := ecbLoop_length (env.aesDecrypt b) (env.aesDecrypt_length b) (buf.length / 16) buf
  have hbd : blockDecrypt env b buf buf
      = (ecbLoop (env.aesDecrypt b) (buf.length / 16) buf, none) := by
    unfold blockDecrypt
    rw [if_neg (by simp [hblk])]
    have : List.drop (0 + (ecbLoop (env.aesDecrypt b) (buf.length / 16) buf).length) buf = [] :=
      List.drop_of_length_le (by omega)
    simp only [writeAt, List.take_zero, List.nil_append, this, List.append_nil]
  have hf : node.IsFile = true ∧ w.length < 8 := ⟨hT, hshort⟩
  unfold decodeNode
  simp only [hty, Bool.false_eq_true, if_false, hnargs, hk, hb, hitem, hbd, hw, hf, and_self,
    if_true]
  simp

/-- After a successful key derivation, on an attribute of at least 4 characters that decodes,
if it decodes, to whole blocks, `decodeNode` returns a node without error. -/
theorem decodeNode_returns_node (env : Env) (k : List Nat) (node : FSNode) (b buf w : List Nat)
    (hT : node.IsFile = true ∨ node.IsDir = true)
    (hargs : 2 ≤ (split node.Key 58).length)
    (hk : base64urldecode k = (b, none)) (hb : newCipher b = none)
    (hitem : base64urldecode ((split node.Key 58).getD 1 []) = (buf, none))
    (hblk : buf.length % 16 = 0)
    (hw : bytes_to_a32 (ecbLoop (env.aesDecrypt b) (buf.length / 16) buf) = (w, none))
    (hfile : node.IsFile = true → 8 ≤ w.length)
    (hlen : 4 ≤ node.Attr.length)
    (hattr : ∀ ddata, base64urldecode node.Attr = (ddata, none) → ddata.length % 16 = 0) :
    ∃ n, decodeNode env k node = .ok (some n, none) := by
  have h1 := decodeNode_of_derivation env k node b buf w hT hargs hk hb hitem hblk hw hfile
  obtain ⟨attr, ha⟩ := decodeNodeAttr_returns env (contentKey node w) node.Attr hlen hattr
  obtain ⟨n, hn, _⟩ := decodeNodeStore_attr node (contentKey node w) w attr hT
  refine ⟨n, ?_⟩
  rw [h1, ha]
  simp [Except.bind, hn]

/-- The loop on a list in two parts. -/
theorem listLoop_append (env : Env) (handle key : List Nat) (pre rest : List FSNode) :
    ∀ m, listLoop env handle key (pre ++ rest) m
      = match listLoop env handle key pre m with
        | .error p => .error p
        | .ok (.error e) => .ok (.error e)
        | .ok (.ok m1) => listLoop env handle key rest m1 := by
  induction pre with
  | nil => intro m; simp [listLoop]
  | cons n ns ih =>
    intro m
    simp only [List.cons_append, listLoop]
    rcases listStep env handle key m n with p | (e | m1)
    · rfl
    · rfl
    · exact ih m1


/-! ## The invariant of the loop of `List` -/

theorem listInv_nil : ListInv [] [] :=
  ⟨by simp, by simp, by simp, by simp⟩

theorem filter_parent_nil (P : List FSNode) (h : List Nat)
    (hno : ¬ ∃ x ∈ P, x.Parent = h) : P.filter (fun x => x.Parent = h) = [] := by
  rw [List.filter_eq_nil_iff]
  intro x hx
  simp only [decide_eq_true_eq]
  exact fun e => hno ⟨x, hx, e⟩

/-- Lines 164-179 of `List` on a state that satisfies the invariant: the node gets a tree node,
whose pointer is the position of its hash among the keys. -/
theorem attachNode_inv (env : Env) (handle key : List Nat) (P : List FSNode) (m : SearchTree)
    (n : FSNode) (hinv : ListInv P m)
    (hdec : ∃ item, decodeNode env key n = .ok (some item, none)) :
    ∃ m1, attachNode env handle key m n = .ok (.ok (m1, keyIndex n.Hash (m1.map Prod.fst))) ∧
      (m1.map Prod.fst).Nodup ∧
      (∀ h, h ∈ m1.map Prod.fst ↔ (∃ x ∈ P ++ [n], x.Hash = h) ∨ (∃ x ∈ P, x.Parent = h)) ∧
      (∀ e ∈ m1, e.2.Children
        = (P.filter (fun x => x.Parent = e.1)).map
            (fun x => keyIndex x.Hash (m1.map Prod.fst))) ∧
      (∀ e ∈ m1, e.2.Node.map (fun x => x.Hash)
        = if (∃ x ∈ P ++ [n], x.Hash = e.1) then some e.1 else none) := by
  by_cases hmem : n.Hash ∈ m.map Prod.fst
  · -- the hash has an entry: the node is stored as it is
    refine ⟨m.map (fun e => if e.1 = n.Hash then (e.1, TreeNode.setNode n e.2) else e),
      ?_, ?_, ?_, ?_, ?_⟩
    · simp only [attachNode, lookup_some m n.Hash hmem, keys_map_modify]
      rw [modifyAt_keyIndex _ n.Hash m hmem hinv.nodup]
    · rw [keys_map_modify]; exact hinv.nodup
    · intro h
      rw [keys_map_modify, hinv.keys h]
      constructor
      · rintro (⟨x, hx, rfl⟩ | hp)
        · exact Or.inl ⟨x, List.mem_append_left _ hx, rfl⟩
        · exact Or.inr hp
      · rintro (⟨x, hx, rfl⟩ | hp)
        · rcases List.mem_append.mp hx with hx | hx
          · exact Or.inl ⟨x, hx, rfl⟩
          · have : x = n := by simpa using hx
            subst this
            exact (hinv.keys _).mp hmem
        · exact Or.inr hp
    · intro e he
      rw [keys_map_modify]
      obtain ⟨e0, he0, rfl⟩ := List.mem_map.mp he
      by_cases hk : e0.1 = n.Hash
      · simp only [hk, if_true, TreeNode.setNode]
        rw [← hk]
        exact hinv.children e0 he0
      · simp only [hk, if_false]
        exact hinv.children e0 he0
    · intro e he
      obtain ⟨e0, he0, rfl⟩ := List.mem_map.mp he
      by_cases hk : e0.1 = n.Hash
      · have hex : ∃ x ∈ P ++ [n], x.Hash = n.Hash := ⟨n, by simp, rfl⟩
        simp only [hk, if_true, TreeNode.setNode, Option.map_some']
        rw [if_pos hex]
      · simp only [hk, if_false]
        rw [hinv.node e0 he0]
        have hiff : (∃ x ∈ P ++ [n], x.Hash = e0.1) ↔ (∃ x ∈ P, x.Hash = e0.1) := by
          constructor
          · rintro ⟨x, hx, hxe⟩
            rcases List.mem_append.mp hx with hx | hx
            · exact ⟨x, hx, hxe⟩
            · have : x = n := by simpa using hx
              subst this
              exact absurd hxe.symm hk
          · rintro ⟨x, hx, hxe⟩
            exact ⟨x, List.mem_append_left _ hx, hxe⟩
        simp only [hiff]
  · -- no entry: the node is decoded and gets a new tree node
    obtain ⟨item, hitem⟩ := hdec
    have hhash : (item.withContext handle).Hash = n.Hash :=
      (decodeNode_preserves env key n item none hitem).1
    have hnoparent : ¬ ∃ x ∈ P, x.Parent = n.Hash :=
      fun hp => hmem ((hinv.keys _).mpr (Or.inr hp))
    generalize hnew : ({ Node := some (item.withContext handle), Children := [] } : TreeNode)
      = t
    have hkeys : (m ++ [(n.Hash, t)]).map Prod.fst = m.map Prod.fst ++ [n.Hash] := by simp
    have hstable : ∀ x ∈ P, keyIndex x.Hash (m.map Prod.fst ++ [n.Hash])
        = keyIndex x.Hash (m.map Prod.fst) := fun x hx =>
      keyIndex_append_of_mem _ _ _ ((hinv.keys _).mpr (Or.inl ⟨x, hx, rfl⟩))
    refine ⟨m ++ [(n.Hash, t)], ?_, ?_, ?_, ?_, ?_⟩
    · simp only [attachNode, lookup_none m n.Hash hmem, hitem, hkeys,
        keyIndex_of_not_mem n.Hash _ hmem, List.length_map, hnew]
    · rw [hkeys]
      exact List.Nodup.append hinv.nodup (List.nodup_singleton _)
        (by simpa [List.disjoint_singleton] using hmem)
    · intro h
      rw [hkeys, List.mem_append, hinv.keys h]
      constructor
      · rintro ((⟨x, hx, rfl⟩ | hp) | hn)
        · exact Or.inl ⟨x, List.mem_append_left _ hx, rfl⟩
        · exact Or.inr hp
        · have : h = n.Hash := by simpa using hn
          exact Or.inl ⟨n, by simp, this.symm⟩
      · rintro (⟨x, hx, rfl⟩ | hp)
        · rcases List.mem_append.mp hx with hx | hx
          · exact Or.inl (Or.inl ⟨x, hx, rfl⟩)
          · have : x = n := by simpa using hx
            subst this
            exact Or.inr (by simp)
        · exact Or.inl (Or.inr hp)
    · intro e he
      rw [hkeys]
      rcases List.mem_append.mp he with he | he
      · rw [hinv.children e he]
        apply List.map_congr_left
        intro x hx
        exact (hstable x (List.mem_of_mem_filter hx)).symm
      · have : e = (n.Hash, t) := by simpa using he
        subst this
        subst hnew
        simp [filter_parent_nil P n.Hash hnoparent]
    · intro e he
      rcases List.mem_append.mp he with he | he
      · rw [hinv.node e he]
        have hne : e.1 ≠ n.Hash := fun hk => hmem (hk ▸ List.mem_map_of_mem Prod.fst he)
        have hiff : (∃ x ∈ P ++ [n], x.Hash = e.1) ↔ (∃ x ∈ P, x.Hash = e.1) := by
          constructor
          · rintro ⟨x, hx, hxe⟩
            rcases List.mem_append.mp hx with hx | hx
            · exact ⟨x, hx, hxe⟩
            · have : x = n := by simpa using hx
              subst this
              exact absurd hxe.symm hne
          · rintro ⟨x, hx, hxe⟩
            exact ⟨x, List.mem_append_left _ hx, hxe⟩
        simp only [hiff]
      · have : e = (n.Hash, t) := by simpa using he
        subst this
        subst hnew
        have hex : ∃ x ∈ P ++ [n], x.Hash = n.Hash := ⟨n, by simp, rfl⟩
        simp only [Option.map_some', hhash]
        rw [if_pos hex]


/-- Lines 181-189 of `List` after lines 164-179: the invariant holds with the node added. -/
theorem attachToParent_inv (P : List FSNode) (m1 : SearchTree) (n : FSNode)
    (hnd : (m1.map Prod.fst).Nodup)
    (hkeys : ∀ h, h ∈ m1.map Prod.fst ↔
      (∃ x ∈ P ++ [n], x.Hash = h) ∨ (∃ x ∈ P, x.Parent = h))
    (hch : ∀ e ∈ m1, e.2.Children
      = (P.filter (fun x => x.Parent = e.1)).map (fun x => keyIndex x.Hash (m1.map Prod.fst)))
    (hnode : ∀ e ∈ m1, e.2.Node.map (fun x => x.Hash)
      = if (∃ x ∈ P ++ [n], x.Hash = e.1) then some e.1 else none) :
    ListInv (P ++ [n]) (attachToParent m1 n.Parent (keyIndex n.Hash (m1.map Prod.fst))) := by
  have hnmem : n.Hash ∈ m1.map Prod.fst := (hkeys _).mpr (Or.inl ⟨n, by simp, rfl⟩)
  have hfilter : ∀ h, (P ++ [n]).filter (fun x => x.Parent = h)
      = P.filter (fun x => x.Parent = h) ++ (if n.Parent = h then [n] else []) := by
    intro h
    by_cases hp : n.Parent = h <;> simp [List.filter_append, List.filter_cons, hp]
  have hparents : ∀ h, (∃ x ∈ P ++ [n], x.Parent = h) ↔ (∃ x ∈ P, x.Parent = h) ∨ n.Parent = h := by
    intro h
    constructor
    · rintro ⟨x, hx, hxe⟩
      rcases List.mem_append.mp hx with hx | hx
      · exact Or.inl ⟨x, hx, hxe⟩
      · have : x = n := by simpa using hx
        subst this
        exact Or.inr hxe
    · rintro (⟨x, hx, hxe⟩ | hxe)
      · exact ⟨x, List.mem_append_left _ hx, hxe⟩
      · exact ⟨n, by simp, hxe⟩
  by_cases hmem : n.Parent ∈ m1.map Prod.fst
  · -- the parent hash has an entry
    have hm2 : attachToParent m1 n.Parent (keyIndex n.Hash (m1.map Prod.fst))
        = m1.map (fun e => if e.1 = n.Parent
            then (e.1, TreeNode.addChild (keyIndex n.Hash (m1.map Prod.fst)) e.2) else e) := by
      simp only [attachToParent, lookup_some m1 n.Parent hmem]
      rw [modifyAt_keyIndex _ n.Parent m1 hmem hnd]
    rw [hm2]
    refine ⟨?_, ?_, ?_, ?_⟩
    · rw [keys_map_modify]; exact hnd
    · intro h
      rw [keys_map_modify, hkeys h, hparents h]
      constructor
      · rintro (hh | hp)
        · exact Or.inl hh
        · exact Or.inr (Or.inl hp)
      · rintro (hh | hp | hp)
        · exact Or.inl hh
        · exact Or.inr hp
        · exact (hkeys h).mp (hp ▸ hmem)
    · intro e he
      rw [keys_map_modify]
      obtain ⟨e0, he0, rfl⟩ := List.mem_map.mp he
      by_cases hk : e0.1 = n.Parent
      · simp only [hk, if_true, TreeNode.addChild, hfilter, List.map_append, List.map_cons,
          List.map_nil]
        rw [hch e0 he0, hk]
      · have hk' : ¬ n.Parent = e0.1 := fun e => hk e.symm
        simp only [hk, if_false, hfilter, hk', List.append_nil]
        exact hch e0 he0
    · intro e he
      obtain ⟨e0, he0, rfl⟩ := List.mem_map.mp he
      by_cases hk : e0.1 = n.Parent
      · simp only [hk, if_true, TreeNode.addChild]
        rw [← hk]
        exact hnode e0 he0
      · simp only [hk, if_false]
        exact hnode e0 he0
  · -- no entry: a tree node without a node is made for the parent hash
    have hm2 : attachToParent m1 n.Parent (keyIndex n.Hash (m1.map Prod.fst))
        = m1 ++ [(n.Parent, { Node := none, Children := [keyIndex n.Hash (m1.map Prod.fst)] })] := by
      simp only [attachToParent, lookup_none m1 n.Parent hmem]
    have hk2 : (m1 ++ [(n.Parent,
        (⟨none, [keyIndex n.Hash (m1.map Prod.fst)]⟩ : TreeNode))]).map Prod.fst
        = m1.map Prod.fst ++ [n.Parent] := by simp
    have hnoparent : ¬ ∃ x ∈ P, x.Parent = n.Parent :=
      fun hp => hmem ((hkeys _).mpr (Or.inr hp))
    have hnohash : ¬ ∃ x ∈ P ++ [n], x.Hash = n.Parent :=
      fun hp => hmem ((hkeys _).mpr (Or.inl hp))
    have hstable : ∀ x ∈ P, keyIndex x.Hash (m1.map Prod.fst ++ [n.Parent])
        = keyIndex x.Hash (m1.map Prod.fst) := fun x hx =>
      keyIndex_append_of_mem _ _ _
        ((hkeys _).mpr (Or.inl ⟨x, List.mem_append_left _ hx, rfl⟩))
    rw [hm2]
    refine ⟨?_, ?_, ?_, ?_⟩
    · rw [hk2]
      exact List.Nodup.append hnd (List.nodup_singleton _)
        (by simpa [List.disjoint_singleton] using hmem)
    · intro h
      rw [hk2, List.mem_append, hkeys h, hparents h]
      constructor
      · rintro ((hh | hp) | hn)
        · exact Or.inl hh
        · exact Or.inr (Or.inl hp)
        · have : h = n.Parent := by simpa using hn
          exact Or.inr (Or.inr this.symm)
      · rintro (hh | hp | hp)
        · exact Or.inl (Or.inl hh)
        · exact Or.inl (Or.inr hp)
        · exact Or.inr (by simp [hp])
    · intro e he
      rw [hk2]
      rcases List.mem_append.mp he with he | he
      · have hk' : ¬ n.Parent = e.1 :=
          fun hk => hmem (hk ▸ List.mem_map_of_mem Prod.fst he)
        simp only [hfilter, hk', if_false, List.append_nil]
        rw [hch e he]
        apply List.map_congr_left
        intro x hx
        exact (hstable x (List.mem_of_mem_filter hx)).symm
      · have : e = (n.Parent,
            (⟨none, [keyIndex n.Hash (m1.map Prod.fst)]⟩ : TreeNode)) := by simpa using he
        subst this
        simp only [hfilter, filter_parent_nil P n.Parent hnoparent, if_true, List.nil_append,
          List.map_cons, List.map_nil]
        rw [keyIndex_append_of_mem _ _ _ hnmem]
    · intro e he
      rcases List.mem_append.mp he with he | he
      · exact hnode e he
      · have : e = (n.Parent,
            (⟨none, [keyIndex n.Hash (m1.map Prod.fst)]⟩ : TreeNode)) := by simpa using he
        subst this
        simp only [Option.map_none']
        rw [if_neg hnohash]

/-- One turn of the loop of `List` keeps the invariant. -/
theorem listStep_inv (env : Env) (handle key : List Nat) (P : List FSNode) (m : SearchTree)
    (n : FSNode) (hinv : ListInv P m)
    (hdec : ∃ item, decodeNode env key n = .ok (some item, none)) :
    ∃ m2, listStep env handle key m n = .ok (.ok m2) ∧ ListInv (P ++ [n]) m2 := by
  obtain ⟨m1, h1, hnd, hkeys, hch, hnode⟩ := attachNode_inv env handle key P m n hinv hdec
  refine ⟨_, ?_, attachToParent_inv P m1 n hnd hkeys hch hnode⟩
  simp only [listStep, h1]

/-- The loop of `List` on nodes that all decode ends in a state that satisfies the invariant. -/
theorem listLoop_inv (env : Env) (handle key : List Nat) (F : List FSNode) :
    ∀ (P : List FSNode) (m : SearchTree), ListInv P m →
      (∀ n ∈ F, ∃ item, decodeNode env key n = .ok (some item, none)) →
      ∃ m2, listLoop env handle key F m = .ok (.ok m2) ∧ ListInv (P ++ F) m2 := by
  induction F with
  | nil =>
    intro P m hinv _
    exact ⟨m, rfl, by simpa using hinv⟩
  | cons n ns ih =>
    intro P m hinv hdec
    obtain ⟨m1, h1, hinv1⟩ := listStep_inv env handle key P m n hinv
      (hdec n (List.mem_cons_self _ _))
    obtain ⟨m2, h2, hinv2⟩ := ih (P ++ [n]) m1 hinv1
      (fun x hx => hdec x (List.mem_cons_of_mem _ hx))
    refine ⟨m2, ?_, by simpa using hinv2⟩
    simp only [listLoop, h1, h2]


/-! ## What the invariant says of the forest -/

/-- An entry without a node is an entry whose key is the hash of no listed node. -/
theorem node_isNone_iff (F : List FSNode) (m : SearchTree) (hinv : ListInv F m)
    (e : List Nat × TreeNode) (he : e ∈ m) :
    e.2.Node.isNone = true ↔ ¬ ∃ x ∈ F, x.Hash = e.1 := by
  have h := hinv.node e he
  by_cases hex : ∃ x ∈ F, x.Hash = e.1
  · rw [if_pos hex] at h
    rcases hn : e.2.Node with _ | nd
    · rw [hn] at h; simp at h
    · simp [hex]
  · rw [if_neg hex] at h
    rcases hn : e.2.Node with _ | nd
    · simp [hex]
    · rw [hn] at h; simp at h

/-- The roots are the tree nodes of the listed nodes whose parent hash is no listed hash. -/
theorem mem_collectRoots (F : List FSNode) (m : SearchTree) (hinv : ListInv F m) (p : Nat) :
    p ∈ collectRoots m ↔
      ∃ n ∈ F, (¬ ∃ x ∈ F, x.Hash = n.Parent) ∧ p = keyIndex n.Hash (m.map Prod.fst) := by
  simp only [collectRoots, List.mem_flatMap]
  constructor
  · rintro ⟨e, he, hp⟩
    by_cases hnone : e.2.Node.isNone = true
    · rw [if_pos hnone, hinv.children e he, List.mem_map] at hp
      obtain ⟨n, hn, rfl⟩ := hp
      have hnF := List.mem_of_mem_filter hn
      have hpar : n.Parent = e.1 := by simpa using (List.mem_filter.mp hn).2
      refine ⟨n, hnF, ?_, rfl⟩
      rw [hpar]
      exact (node_isNone_iff F m hinv e he).mp hnone
    · rw [if_neg hnone] at hp
      simp at hp
  · rintro ⟨n, hn, hno, rfl⟩
    have hk : n.Parent ∈ m.map Prod.fst := (hinv.keys _).mpr (Or.inr ⟨n, hn, rfl⟩)
    obtain ⟨e, he, hek⟩ := List.mem_map.mp hk
    refine ⟨e, he, ?_⟩
    have hnone : e.2.Node.isNone = true :=
      (node_isNone_iff F m hinv e he).mpr (by rw [hek]; exact hno)
    rw [if_pos hnone, hinv.children e he, List.mem_map]
    exact ⟨n, List.mem_filter.mpr ⟨hn, by simpa using hek.symm⟩, rfl⟩

/-- The tree node at the pointer of a key is the tree node of the entry of this key. -/
theorem heap_keyIndex (m : SearchTree) (e : List Nat × TreeNode) (he : e ∈ m)
    (hnd : (m.map Prod.fst).Nodup) :
    (m.map Prod.snd)[keyIndex e.1 (m.map Prod.fst)]? = some e.2 := by
  obtain ⟨e', hg, he', hk⟩ := getElem_keyIndex_entry m e.1 (List.mem_map_of_mem Prod.fst he)
  have : e' = e := entry_eq_of_key m hnd e' e he' he hk
  subst this
  rw [List.getElem?_map, hg]
  rfl

/-- The tree node at the pointer of a listed hash holds a node of this hash. -/
theorem hashAt_keyIndex (F : List FSNode) (m : SearchTree) (hinv : ListInv F m) (h : List Nat)
    (hh : ∃ x ∈ F, x.Hash = h) :
    hashAt (m.map Prod.snd) (keyIndex h (m.map Prod.fst)) = some h := by
  have hk : h ∈ m.map Prod.fst := (hinv.keys _).mpr (Or.inl hh)
  obtain ⟨e, he, hek⟩ := List.mem_map.mp hk
  have hg := heap_keyIndex m e he hinv.nodup
  rw [hek] at hg
  have hn := hinv.node e he
  rw [hek, if_pos hh] at hn
  simp only [hashAt, hg]
  exact hn

/-- A tree node that holds a node of hash `h` is the tree node of the entry of `h`, and `h` is
a listed hash. -/
theorem entry_of_node_hash (F : List FSNode) (m : SearchTree) (hinv : ListInv F m)
    (e : List Nat × TreeNode) (he : e ∈ m) (h : List Nat)
    (hn : e.2.Node.map (fun x => x.Hash) = some h) :
    e.1 = h ∧ ∃ x ∈ F, x.Hash = h := by
  have hnode := hinv.node e he
  rw [hn] at hnode
  by_cases hex : ∃ x ∈ F, x.Hash = e.1
  · rw [if_pos hex] at hnode
    have : h = e.1 := Option.some.inj hnode
    exact ⟨this.symm, this ▸ hex⟩
  · rw [if_neg hex] at hnode
    cases hnode

/-- The hashes of the roots. -/
theorem mem_rootHashes (F : List FSNode) (m : SearchTree) (hinv : ListInv F m) (x : List Nat) :
    x ∈ rootHashes { Roots := collectRoots m } (m.map Prod.snd) ↔
      ∃ n ∈ F, n.Hash = x ∧ ¬ ∃ y ∈ F, y.Hash = n.Parent := by
  simp only [rootHashes, List.mem_filterMap]
  constructor
  · rintro ⟨p, hp, hx⟩
    obtain ⟨n, hn, hno, rfl⟩ := (mem_collectRoots F m hinv p).mp hp
    rw [hashAt_keyIndex F m hinv n.Hash ⟨n, hn, rfl⟩] at hx
    exact ⟨n, hn, Option.some.inj hx, hno⟩
  · rintro ⟨n, hn, rfl, hno⟩
    exact ⟨keyIndex n.Hash (m.map Prod.fst),
      (mem_collectRoots F m hinv _).mpr ⟨n, hn, hno, rfl⟩,
      hashAt_keyIndex F m hinv n.Hash ⟨n, hn, rfl⟩⟩

/-- The hashes of the children of the tree node of a hash. -/
theorem mem_childHashes (F : List FSNode) (m : SearchTree) (hinv : ListInv F m)
    (h x : List Nat) :
    x ∈ childHashes (m.map Prod.snd) h ↔
      (∃ y ∈ F, y.Hash = h) ∧ ∃ n ∈ F, n.Parent = h ∧ n.Hash = x := by
  simp only [childHashes, List.mem_flatMap, List.mem_filter, List.mem_filterMap, List.mem_map,
    beq_iff_eq]
  constructor
  · rintro ⟨t, ⟨⟨e, he, rfl⟩, hn⟩, p, hp, hx⟩
    obtain ⟨hek, hex⟩ := entry_of_node_hash F m hinv e he h hn
    rw [hinv.children e he, List.mem_map] at hp
    obtain ⟨n, hnf, rfl⟩ := hp
    have hnF := List.mem_of_mem_filter hnf
    have hpar : n.Parent = e.1 := by simpa using (List.mem_filter.mp hnf).2
    rw [hashAt_keyIndex F m hinv n.Hash ⟨n, hnF, rfl⟩] at hx
    exact ⟨hex, n, hnF, hpar.trans hek, Option.some.inj hx⟩
  · rintro ⟨hex, n, hn, hpar, rfl⟩
    have hk : h ∈ m.map Prod.fst := (hinv.keys _).mpr (Or.inl hex)
    obtain ⟨e, he, hek⟩ := List.mem_map.mp hk
    have hnode := hinv.node e he
    rw [hek, if_pos hex] at hnode
    refine ⟨e.2, ⟨⟨e, he, rfl⟩, hnode⟩, keyIndex n.Hash (m.map Prod.fst), ?_,
      hashAt_keyIndex F m hinv n.Hash ⟨n, hn, rfl⟩⟩
    rw [hinv.children e he, List.mem_map]
    exact ⟨n, List.mem_filter.mpr ⟨hn, by simpa using hpar.trans hek.symm⟩, rfl⟩

/-- `List` on nodes that all decode returns the forest of a state that satisfies the
invariant. -/
theorem ListFolder_ok (env : Env) (url handle key : List Nat) (F : List FSNode)
    (hurl : parseFolderURL url = (handle, key, none))
    (hdec : ∀ n ∈ F, ∃ item, decodeNode env key n = .ok (some item, none)) :
    ∃ m, ListFolder env url (.ok (F, none))
        = .ok (some ({ Roots := collectRoots m }, m.map Prod.snd), none) ∧
      ListInv F m := by
  obtain ⟨m, hm, hinv⟩ := listLoop_inv env handle key F [] [] listInv_nil hdec
  refine ⟨m, ?_, by simpa using hinv⟩
  simp only [ListFolder, hurl, hm]


/-! ## Claims on the folder listing -/

/-- The loop of `List` on a parent followed by its child. -/
theorem listLoop_parent_child (env : Env) (handle key : List Nat) (A B a b : FSNode)
    (hA : decodeNode env key A = .ok (some a, none))
    (hB : decodeNode env key B = .ok (some b, none))
    (h1 : A.Parent ≠ A.Hash) (h2 : B.Hash ≠ A.Hash) (h3 : B.Hash ≠ A.Parent)
    (h4 : B.Parent = A.Hash) :
    listLoop env handle key [A, B] []
      = .ok (.ok [(A.Hash, ⟨some (a.withContext handle), [2]⟩), (A.Parent, ⟨none, [0]⟩),
          (B.Hash, ⟨some (b.withContext handle), []⟩)]) := by
  have h1' : ¬ A.Hash = A.Parent := fun e => h1 e.symm
  have h2' : ¬ A.Hash = B.Hash := fun e => h2 e.symm
  have h3' : ¬ A.Parent = B.Hash := fun e => h3 e.symm
  simp [listLoop, listStep, attachNode, attachToParent, SearchTree.lookup, keyIndex, modifyAt,
    TreeNode.addChild, hA, hB, h1, h2, h3, h4, h1', h2', h3']

/-- The loop of `List` on a child followed by its parent. -/
theorem listLoop_child_parent (env : Env) (handle key : List Nat) (B A b : FSNode)
    (hB : decodeNode env key B = .ok (some b, none))
    (h1 : A.Parent ≠ A.Hash) (h2 : B.Hash ≠ A.Hash) (h3 : B.Hash ≠ A.Parent)
    (h4 : B.Parent = A.Hash) :
    listLoop env handle key [B, A] []
      = .ok (.ok [(B.Hash, ⟨some (b.withContext handle), []⟩), (A.Hash, ⟨some A, [0]⟩),
          (A.Parent, ⟨none, [1]⟩)]) := by
  have h1' : ¬ A.Hash = A.Parent := fun e => h1 e.symm
  have h2' : ¬ A.Hash = B.Hash := fun e => h2 e.symm
  have h3' : ¬ A.Parent = B.Hash := fun e => h3 e.symm
  simp [listLoop, listStep, attachNode, attachToParent, SearchTree.lookup, keyIndex, modifyAt,
    TreeNode.setNode, hB, h1, h2, h3, h4, h1', h2', h3']

/-- C11: in a listing whose nodes before `n` decode, a File node `n` whose compound key
deciphers to fewer than 8 words, and whose hash is neither the hash nor the parent hash of an
earlier node, makes `decodeNode` return neither a node nor an error, and `List` panics on the
assignment `item.meta.context = handle` through the nil pointer. -/
theorem ListFolder_panics_on_short_file_key (env : Env) (url handle key : List Nat)
    (pre post : List FSNode) (n : FSNode) (b buf w : List Nat)
    (hurl : parseFolderURL url = (handle, key, none))
    (hdec : ∀ x ∈ pre, ∃ item, decodeNode env key x = .ok (some item, none))
    (hfresh : ∀ x ∈ pre, x.Hash ≠ n.Hash ∧ x.Parent ≠ n.Hash)
    (hT : n.IsFile = true)
    (hargs : 2 ≤ (split n.Key 58).length)
    (hk : base64urldecode key = (b, none)) (hb : newCipher b = none)
    (hitem : base64urldecode ((split n.Key 58).getD 1 []) = (buf, none))
    (hblk : buf.length % 16 = 0)
    (hw : bytes_to_a32 (ecbLoop (env.aesDecrypt b) (buf.length / 16) buf) = (w, none))
    (hshort : w.length < 8) :
    decodeNode env key n = .ok (none, none) ∧
      ListFolder env url (.ok (pre ++ n :: post, none)) = .error .nilDereference := by
  have hnil := decodeNode_short_compkey env key n b buf w hT hargs hk hb hitem hblk hw hshort
  obtain ⟨m, hm, hinv⟩ := listLoop_inv env handle key pre [] [] listInv_nil hdec
  have hnew : n.Hash ∉ m.map Prod.fst := by
    intro hmem
    rcases (hinv.keys _).mp hmem with ⟨x, hx, hxe⟩ | ⟨x, hx, hxe⟩
    · exact (hfresh x (by simpa using hx)).1 hxe
    · exact (hfresh x (by simpa using hx)).2 hxe
  refine ⟨hnil, ?_⟩
  simp only [ListFolder, hurl, listLoop_append, hm, listLoop, listStep, attachNode,
    lookup_none m n.Hash hnew, hnil]

/-- C11, on the listing of the folder `A` followed by the file `F` whose key segment is a single
block. -/
theorem ListFolder_panics_on_short_file_key_witness :
    decodeNode toyEnv sampleKey sampleShortFile = .ok (none, none) ∧
      ListFolder toyEnv sampleURL (.ok ([sampleFolderA] ++ sampleShortFile :: [], none))
        = .error .nilDereference :=
  ListFolder_panics_on_short_file_key toyEnv sampleURL (ascii "abcdefgh") sampleKey
    [sampleFolderA] [] sampleShortFile
    (List.replicate 16 0) (List.replicate 16 0) (List.replicate 4 4294967295)
    (by rfl)
    (by
      intro x hx
      have : x = sampleFolderA := by simpa using hx
      subst this
      exact ⟨_, by rfl⟩)
    (by
      intro x hx
      have : x = sampleFolderA := by simpa using hx
      subst this
      decide)
    (by decide) (by decide) (by rfl) (by decide) (by rfl) (by decide) (by rfl) (by decide)


/-- C16: in a listing of a child `B` followed by its parent `A`, `List` finds the entry that the
child made for the hash of `A` and stores `A` in its tree node as the server sent it: the tree
node of the single root holds `A` itself, which `decodeNode` never saw; with the zero `meta` of
a node fresh from the JSON decoder it is not decoded, has the empty name and no share-handle
context, and keeps its encrypted attribute. -/
theorem ListFolder_attaches_undecoded_node (env : Env) (url handle key : List Nat)
    (B A : FSNode)
    (hurl : parseFolderURL url = (handle, key, none))
    (hB : ∃ b, decodeNode env key B = .ok (some b, none))
    (h1 : A.Parent ≠ A.Hash) (h2 : B.Hash ≠ A.Hash) (h3 : B.Hash ≠ A.Parent)
    (h4 : B.Parent = A.Hash) (hraw : A.meta = {}) :
    ∃ heap, ListFolder env url (.ok ([B, A], none))
        = .ok (some ({ Roots := [1] }, heap), none) ∧
      heap[1]? = some ⟨some A, [0]⟩ ∧
      A.IsDecoded = false ∧ A.Name = [] ∧ A.meta.context = [] := by
  obtain ⟨b, hb⟩ := hB
  have hl := listLoop_child_parent env handle key B A b hb h1 h2 h3 h4
  refine ⟨[⟨some (b.withContext handle), []⟩, ⟨some A, [0]⟩, ⟨none, [1]⟩], ?_, ?_, ?_, ?_, ?_⟩
  · simp only [ListFolder, hurl, hl]
    simp [collectRoots]
  · simp
  · simp [FSNode.IsDecoded, hraw]
  · simp [FSNode.Name, FSNode.IsDecoded, hraw]
  · simp [hraw]

/-- C16, on the listing of the file `B` followed by its folder `A`. -/
theorem ListFolder_attaches_undecoded_node_witness :
    ∃ heap, ListFolder toyEnv sampleURL (.ok ([sampleFileB, sampleFolderA], none))
        = .ok (some ({ Roots := [1] }, heap), none) ∧
      heap[1]? = some ⟨some sampleFolderA, [0]⟩ ∧
      sampleFolderA.IsDecoded = false ∧ sampleFolderA.Name = [] ∧
      sampleFolderA.meta.context = [] :=
  ListFolder_attaches_undecoded_node toyEnv sampleURL (ascii "abcdefgh") sampleKey
    sampleFileB sampleFolderA (by rfl) ⟨_, by rfl⟩ (by decide) (by decide) (by decide)
    (by decide) (by rfl)

/-- C15: for a listing whose nodes all decode, the roots that `List` returns are the tree
nodes of the listed nodes whose parent hash is the hash of no listed node; no tree node holds a
node whose hash is not listed (a hash that is only a parent hash has no node); a tree node that
holds a node has no children exactly when no listed node has the hash of its node as parent
hash; and the listing of a node `A` under `root` and a node `B` under `A` gives the single root
`A` with the single child `B`. -/
theorem ListFolder_roots_and_children (env : Env) (url handle key : List Nat) (F : List FSNode)
    (hurl : parseFolderURL url = (handle, key, none))
    (hdec : ∀ n ∈ F, ∃ item, decodeNode env key n = .ok (some item, none)) :
    ∃ fs heap, ListFolder env url (.ok (F, none)) = .ok (some (fs, heap), none) ∧
      (∀ p ∈ fs.Roots, ∃ n ∈ F, hashAt heap p = some n.Hash ∧ ¬ ∃ y ∈ F, y.Hash = n.Parent) ∧
      (∀ n ∈ F, (¬ ∃ y ∈ F, y.Hash = n.Parent) → ∃ p ∈ fs.Roots, hashAt heap p = some n.Hash) ∧
      (∀ h, (¬ ∃ y ∈ F, y.Hash = h) → ∀ t ∈ heap, t.Node.map (fun x => x.Hash) ≠ some h) ∧
      (∀ t ∈ heap, ∀ nd, t.Node = some nd →
        (t.Children = [] ↔ ¬ ∃ n ∈ F, n.Parent = nd.Hash)) ∧
      (∀ A B, F = [A, B] → A.Hash = ascii "A" → A.Parent = ascii "root" →
        B.Hash = ascii "B" → B.Parent = ascii "A" →
        rootHashes fs heap = [ascii "A"] ∧ childHashes heap (ascii "A") = [ascii "B"] ∧
          childHashes heap (ascii "B") = []) := by
  obtain ⟨m, hm, hinv⟩ := ListFolder_ok env url handle key F hurl hdec
  refine ⟨_, _, hm, ?_, ?_, ?_, ?_, ?_⟩
  · intro p hp
    obtain ⟨n, hn, hno, rfl⟩ := (mem_collectRoots F m hinv p).mp hp
    exact ⟨n, hn, hashAt_keyIndex F m hinv n.Hash ⟨n, hn, rfl⟩, hno⟩
  · intro n hn hno
    exact ⟨_, (mem_collectRoots F m hinv _).mpr ⟨n, hn, hno, rfl⟩,
      hashAt_keyIndex F m hinv n.Hash ⟨n, hn, rfl⟩⟩
  · intro h hno t ht hth
    obtain ⟨e, he, rfl⟩ := List.mem_map.mp ht
    exact hno (entry_of_node_hash F m hinv e he h hth).2
  · intro t ht nd hnd
    obtain ⟨e, he, rfl⟩ := List.mem_map.mp ht
    have hk : e.1 = nd.Hash :=
      (entry_of_node_hash F m hinv e he nd.Hash (by rw [hnd]; rfl)).1
    rw [hinv.children e he, hk]
    constructor
    · intro hnil hex
      obtain ⟨n, hn, hpar⟩ := hex
      have hmem : n ∈ F.filter (fun x => x.Parent = nd.Hash) :=
        List.mem_filter.mpr ⟨hn, by simpa using hpar⟩
      have hlen := congrArg List.length hnil
      simp only [List.length_map, List.length_nil] at hlen
      rw [List.length_eq_zero.mp hlen] at hmem
      simp at hmem
    · intro hno
      rw [filter_parent_nil F nd.Hash hno]
      rfl
  · intro A B hF hAh hAp hBh hBp
    subst hF
    obtain ⟨a, ha⟩ := hdec A (by simp)
    obtain ⟨b, hb⟩ := hdec B (by simp)
    have hah := (decodeNode_preserves env key A a none ha).1
    have hbh := (decodeNode_preserves env key B b none hb).1
    have hl := listLoop_parent_child env handle key A B a b ha hb
      (by rw [hAh, hAp]; decide) (by rw [hAh, hBh]; decide) (by rw [hBh, hAp]; decide)
      (by rw [hAh, hBp])
    have hres : ListFolder env url (.ok ([A, B], none))
        = .ok (some ({ Roots := [0] },
            [⟨some (a.withContext handle), [2]⟩, ⟨none, [0]⟩,
              ⟨some (b.withContext handle), []⟩]), none) := by
      simp only [ListFolder, hurl, hl]
      simp [collectRoots]
    rw [hres] at hm
    simp only [Except.ok.injEq, Prod.mk.injEq, Option.some.injEq, and_true] at hm
    rw [← hm.1, ← hm.2]
    have e1 : (a.withContext handle).Hash = ascii "A" := by
      rw [← hAh, ← hah]; rfl
    have e2 : (b.withContext handle).Hash = ascii "B" := by
      rw [← hBh, ← hbh]; rfl
    have hne : ¬ ascii "B" = ascii "A" := by decide
    have hne' : ¬ ascii "A" = ascii "B" := by decide
    refine ⟨?_, ?_, ?_⟩
    · simp [rootHashes, hashAt, e1]
    · simp [childHashes, hashAt, e1, e2, hne]
    · simp [childHashes, hashAt, e1, e2, hne']

/-- C15, on the listing of the folder `A` and the file `B`. -/
theorem ListFolder_roots_and_children_witness :
    ∃ fs heap, ListFolder toyEnv sampleURL (.ok ([sampleFolderA, sampleFileB], none))
        = .ok (some (fs, heap), none) ∧
      (∀ p ∈ fs.Roots, ∃ n ∈ [sampleFolderA, sampleFileB],
        hashAt heap p = some n.Hash ∧ ¬ ∃ y ∈ [sampleFolderA, sampleFileB], y.Hash = n.Parent) ∧
      (∀ n ∈ [sampleFolderA, sampleFileB],
        (¬ ∃ y ∈ [sampleFolderA, sampleFileB], y.Hash = n.Parent) →
          ∃ p ∈ fs.Roots, hashAt heap p = some n.Hash) ∧
      (∀ h, (¬ ∃ y ∈ [sampleFolderA, sampleFileB], y.Hash = h) →
        ∀ t ∈ heap, t.Node.map (fun x => x.Hash) ≠ some h) ∧
      (∀ t ∈ heap, ∀ nd, t.Node = some nd →
        (t.Children = [] ↔ ¬ ∃ n ∈ [sampleFolderA, sampleFileB], n.Parent = nd.Hash)) ∧
      (∀ A B, [sampleFolderA, sampleFileB] = [A, B] → A.Hash = ascii "A" →
        A.Parent = ascii "root" → B.Hash = ascii "B" → B.Parent = ascii "A" →
        rootHashes fs heap = [ascii "A"] ∧ childHashes heap (ascii "A") = [ascii "B"] ∧
          childHashes heap (ascii "B") = []) :=
  ListFolder_roots_and_children toyEnv sampleURL (ascii "abcdefgh") sampleKey
    [sampleFolderA, sampleFileB] (by rfl) (by
      intro n hn
      rcases List.mem_cons.mp hn with rfl | hn
      · exact ⟨_, by rfl⟩
      · have : n = sampleFileB := by simpa using hn
        subst this
        exact ⟨_, by rfl⟩)


/-- C14: for a listing whose nodes all decode and for every permutation of it, `List` returns
forests with the same root hashes and, for every hash, the same hashes of children. -/
theorem ListFolder_permutation_invariant (env : Env) (url handle key : List Nat)
    (F F' : List FSNode)
    (hurl : parseFolderURL url = (handle, key, none))
    (hperm : F'.Perm F)
    (hdec : ∀ n ∈ F, ∃ item, decodeNode env key n = .ok (some item, none)) :
    ∃ fs heap fs' heap', ListFolder env url (.ok (F, none)) = .ok (some (fs, heap), none) ∧
      ListFolder env url (.ok (F', none)) = .ok (some (fs', heap'), none) ∧
      (∀ x, x ∈ rootHashes fs heap ↔ x ∈ rootHashes fs' heap') ∧
      (∀ h x, x ∈ childHashes heap h ↔ x ∈ childHashes heap' h) := by
  obtain ⟨m, hm, hinv⟩ := ListFolder_ok env url handle key F hurl hdec
  obtain ⟨m', hm', hinv'⟩ := ListFolder_ok env url handle key F' hurl
    (fun n hn => hdec n (hperm.mem_iff.mp hn))
  have hex : ∀ (q : FSNode → Prop), (∃ n ∈ F', q n) ↔ (∃ n ∈ F, q n) := by
    intro q
    constructor
    · rintro ⟨n, hn, hq⟩; exact ⟨n, hperm.mem_iff.mp hn, hq⟩
    · rintro ⟨n, hn, hq⟩; exact ⟨n, hperm.mem_iff.mpr hn, hq⟩
  refine ⟨_, _, _, _, hm, hm', ?_, ?_⟩
  · intro x
    rw [mem_rootHashes F m hinv x, mem_rootHashes F' m' hinv' x]
    constructor
    · rintro ⟨n, hn, hx, hno⟩
      exact ⟨n, hperm.mem_iff.mpr hn, hx, fun h => hno ((hex _).mp h)⟩
    · rintro ⟨n, hn, hx, hno⟩
      exact ⟨n, hperm.mem_iff.mp hn, hx, fun h => hno ((hex _).mpr h)⟩
  · intro h x
    rw [mem_childHashes F m hinv h x, mem_childHashes F' m' hinv' h x, hex, hex]

/-- C14, on the listing of the folder `A` and the file `B` and on the listing in the other
order. -/
theorem ListFolder_permutation_invariant_witness :
    ∃ fs heap fs' heap',
      ListFolder toyEnv sampleURL (.ok ([sampleFolderA, sampleFileB], none))
        = .ok (some (fs, heap), none) ∧
      ListFolder toyEnv sampleURL (.ok ([sampleFileB, sampleFolderA], none))
        = .ok (some (fs', heap'), none) ∧
      (∀ x, x ∈ rootHashes fs heap ↔ x ∈ rootHashes fs' heap') ∧
      (∀ h x, x ∈ childHashes heap h ↔ x ∈ childHashes heap' h) :=
  ListFolder_permutation_invariant toyEnv sampleURL (ascii "abcdefgh") sampleKey
    [sampleFolderA, sampleFileB] [sampleFileB, sampleFolderA] (by rfl) (List.Perm.swap _ _ _)
    (by
      intro n hn
      rcases List.mem_cons.mp hn with rfl | hn
      · exact ⟨_, by rfl⟩
      · have : n = sampleFileB := by simpa using hn
        subst this
        exact ⟨_, by rfl⟩)

/-! ## Every node once -/

/-- A node goes to the block of the entry of its parent hash. -/
theorem flatMap_insert_perm (a : FSNode) (m : SearchTree) (f : List Nat × TreeNode → List FSNode)
    (hnd : (m.map Prod.fst).Nodup) (ha : a.Parent ∈ m.map Prod.fst) :
    (m.flatMap (fun e => if a.Parent = e.1 then a :: f e else f e)).Perm (a :: m.flatMap f) := by
  induction m with
  | nil => simp at ha
  | cons e m ih =>
    simp only [List.map_cons, List.nodup_cons] at hnd
    by_cases hk : a.Parent = e.1
    · have hrest : m.flatMap (fun e => if a.Parent = e.1 then a :: f e else f e)
          = m.flatMap f := by
        apply List.flatMap_congr
        intro e' he'
        have : ¬ a.Parent = e'.1 := fun h =>
          hnd.1 (hk ▸ h ▸ List.mem_map_of_mem Prod.fst he')
        simp [this]
      simp only [List.flatMap_cons, hk, if_true]
      rw [← hk, hrest]
      simp
    · have ha' : a.Parent ∈ m.map Prod.fst := by
        simp only [List.map_cons, List.mem_cons] at ha
        rcases ha with ha | ha
        · exact absurd ha hk
        · exact ha
      simp only [List.flatMap_cons, hk, if_false]
      exact ((ih hnd.2 ha').append_left (f e)).trans List.perm_middle

/-- The nodes with their parent hash among the keys, grouped by entry, are the nodes. -/
theorem flatMap_filter_parent_perm (m : SearchTree) (hnd : (m.map Prod.fst).Nodup)
    (L : List FSNode) (hL : ∀ n ∈ L, n.Parent ∈ m.map Prod.fst) :
    (m.flatMap (fun e => L.filter (fun n => n.Parent = e.1))).Perm L := by
  induction L with
  | nil =>
    have : m.flatMap (fun e => ([] : List FSNode).filter (fun n => n.Parent = e.1)) = [] := by
      induction m with
      | nil => rfl
      | cons e m ih => simp
    rw [this]
  | cons a L ih =>
    have h1 : m.flatMap (fun e => (a :: L).filter (fun n => n.Parent = e.1))
        = m.flatMap (fun e => if a.Parent = e.1
            then a :: L.filter (fun n => n.Parent = e.1)
            else L.filter (fun n => n.Parent = e.1)) := by
      apply List.flatMap_congr
      intro e _
      by_cases hk : a.Parent = e.1 <;> simp [List.filter_cons, hk]
    rw [h1]
    exact (flatMap_insert_perm a m _ hnd (hL a (List.mem_cons_self _ _))).trans
      ((ih (fun n hn => hL n (List.mem_cons_of_mem _ hn))).cons a)

/-- The children lists of the tree nodes that hold a node. -/
theorem flatMap_node_cells (m : SearchTree) :
    ((m.map Prod.snd).filter (fun t => t.Node.isSome)).flatMap (fun t => t.Children)
      = m.flatMap (fun e => if e.2.Node.isNone then [] else e.2.Children) := by
  induction m with
  | nil => rfl
  | cons e m ih =>
    rcases hn : e.2.Node with _ | nd
    · simp [List.filter_cons, hn, ih]
    · simp [List.filter_cons, hn, ih]

/-- The pointers that occur as roots or as children of tree nodes holding a node are the
pointers of the listed nodes, each once an occurrence of the node in the listing. -/
theorem forest_pointers_perm (F : List FSNode) (m : SearchTree) (hinv : ListInv F m) :
    (collectRoots m
        ++ ((m.map Prod.snd).filter (fun t => t.Node.isSome)).flatMap (fun t => t.Children)).Perm
      (F.map (fun n => keyIndex n.Hash (m.map Prod.fst))) := by
  rw [flatMap_node_cells]
  have h1 := List.flatMap_append_perm m
    (fun e => if e.2.Node.isNone then e.2.Children else [])
    (fun e => if e.2.Node.isNone then [] else e.2.Children)
  have h2 : (m.flatMap fun e => (if e.2.Node.isNone then e.2.Children else [])
        ++ (if e.2.Node.isNone then [] else e.2.Children))
      = m.flatMap (fun e => (F.filter (fun n => n.Parent = e.1)).map
          (fun n => keyIndex n.Hash (m.map Prod.fst))) := by
    apply List.flatMap_congr
    intro e he
    rw [← hinv.children e he]
    by_cases hn : e.2.Node.isNone = true <;> simp [hn]
  rw [h2] at h1
  have h3 : m.flatMap (fun e => (F.filter (fun n => n.Parent = e.1)).map
        (fun n => keyIndex n.Hash (m.map Prod.fst)))
      = (m.flatMap (fun e => F.filter (fun n => n.Parent = e.1))).map
          (fun n => keyIndex n.Hash (m.map Prod.fst)) := by
    rw [List.map_flatMap]
  rw [h3] at h1
  exact h1.trans ((flatMap_filter_parent_perm m hinv.nodup F
    (fun n hn => (hinv.keys _).mpr (Or.inr ⟨n, hn, rfl⟩))).map _)

/-- The hashes held at the pointers of listed nodes are the hashes of the nodes. -/
theorem filterMap_hashAt_pointers (F : List FSNode) (m : SearchTree) (hinv : ListInv F m)
    (L : List FSNode) (hL : ∀ n ∈ L, n ∈ F) :
    (L.map (fun n => keyIndex n.Hash (m.map Prod.fst))).filterMap (hashAt (m.map Prod.snd))
      = L.map (fun n => n.Hash) := by
  induction L with
  | nil => rfl
  | cons a L ih =>
    have ha := hashAt_keyIndex F m hinv a.Hash ⟨a, hL a (List.mem_cons_self _ _), rfl⟩
    simp only [List.map_cons, List.filterMap_cons, ha]
    rw [ih (fun n hn => hL n (List.mem_cons_of_mem _ hn))]

/-- A tree node holding a node of hash `h` sits at the pointer of `h`. -/
theorem pointer_of_hashAt (F : List FSNode) (m : SearchTree) (hinv : ListInv F m)
    (p : Nat) (h : List Nat) (hp : hashAt (m.map Prod.snd) p = some h) :
    p = keyIndex h (m.map Prod.fst) ∧ ∃ x ∈ F, x.Hash = h := by
  simp only [hashAt, List.getElem?_map] at hp
  rcases hg : m[p]? with _ | e
  · rw [hg] at hp; simp at hp
  · rw [hg] at hp
    have he : e ∈ m := List.getElem?_mem hg
    obtain ⟨hk, hex⟩ := entry_of_node_hash F m hinv e he h (by simpa using hp)
    refine ⟨?_, hex⟩
    have hlt : p < (m.map Prod.fst).length := by
      rw [List.length_map]
      exact (List.getElem?_eq_some_iff.mp hg).1
    have h1 : (m.map Prod.fst)[p]? = some h := by
      rw [List.getElem?_map, hg]
      simp [hk]
    have h2 := getElem_keyIndex h (m.map Prod.fst) ((hinv.keys _).mpr (Or.inl hex))
    exact List.getElem?_inj hlt hinv.nodup (h1.trans h2.symm)


/-- The loop of `List` on a single node that names itself as its parent. -/
theorem listLoop_self_parent (env : Env) (handle key : List Nat) (S item : FSNode)
    (hS : decodeNode env key S = .ok (some item, none)) (hself : S.Parent = S.Hash) :
    listLoop env handle key [S] []
      = .ok (.ok [(S.Hash, ⟨some (item.withContext handle), [0]⟩)]) := by
  simp [listLoop, listStep, attachNode, attachToParent, SearchTree.lookup, keyIndex, modifyAt,
    TreeNode.addChild, hS, hself]

/-- Nothing is reachable from an empty list of roots. -/
theorem not_reachable_of_no_roots (heap : List TreeNode) (p : Nat) :
    ¬ Reachable { Roots := [] } heap p := by
  intro h
  induction h with
  | root p hp => simp at hp
  | child q p t _ _ _ ih => exact ih

/-- C13, as stated, fails: the listing of the single folder `S` whose parent hash is its own
hash has distinct hashes and its node decodes, whatever the block function, yet `List` returns
no root, so that no tree node is reachable: the node is dropped. -/
theorem ListFolder_self_parent_counterexample :
    ([sampleSelfParent].map (fun n => n.Hash)).Nodup ∧
    sampleSelfParent.Parent = sampleSelfParent.Hash ∧
    ∀ env : Env,
      (∃ item, decodeNode env sampleKey sampleSelfParent = .ok (some item, none)) ∧
      ∃ heap, ListFolder env sampleURL (.ok ([sampleSelfParent], none))
          = .ok (some ({ Roots := [] }, heap), none) ∧
        ∀ p, ¬ Reachable { Roots := [] } heap p := by
  refine ⟨by decide, by decide, ?_⟩
  intro env
  have hl := ecbLoop_length (env.aesDecrypt (List.replicate 16 0))
    (env.aesDecrypt_length (List.replicate 16 0)) 1 (List.replicate 16 0)
  obtain ⟨w, hw, _⟩ := bytes_to_a32_blocks
    (ecbLoop (env.aesDecrypt (List.replicate 16 0)) 1 (List.replicate 16 0)) (by omega)
  obtain ⟨item, hitem⟩ := decodeNode_returns_node env sampleKey sampleSelfParent
    (List.replicate 16 0) (List.replicate 16 0) w (Or.inr (by decide)) (by decide) (by rfl)
    (by decide) (by rfl) (by decide) hw (fun h => absurd h (by decide)) (by decide)
    (by
      intro ddata h
      have e : base64urldecode sampleSelfParent.Attr = (List.replicate 16 0, none) := by rfl
      have : ddata = List.replicate 16 0 := (Prod.mk.inj (e.symm.trans h)).1.symm
      subst this
      decide)
  refine ⟨⟨item, hitem⟩, [⟨some (item.withContext (ascii "abcdefgh")), [0]⟩], ?_,
    fun p => not_reachable_of_no_roots _ p⟩
  have hurl : parseFolderURL sampleURL = (ascii "abcdefgh", sampleKey, none) := by rfl
  have hloop := listLoop_self_parent env (ascii "abcdefgh") sampleKey sampleSelfParent item
    hitem (by decide)
  simp only [ListFolder, hurl, hloop]
  simp [collectRoots]

/-- C13, amended: for a listing whose nodes all decode and whose parent hashes make no cycle
(`rank` decreases from a node to its listed parent), every node is held by a tree node that is
reachable from the roots through the children; no two tree nodes hold nodes of the same hash;
and the nodes that occur as roots or as children of tree nodes holding a node are, with their
multiplicity, the nodes of the listing, so that with distinct hashes every node occurs once. -/
theorem ListFolder_every_node_once (env : Env) (url handle key : List Nat) (F : List FSNode)
    (rank : List Nat → Nat)
    (hurl : parseFolderURL url = (handle, key, none))
    (hnodup : (F.map (fun n => n.Hash)).Nodup)
    (hdec : ∀ n ∈ F, ∃ item, decodeNode env key n = .ok (some item, none))
    (hrank : ∀ n ∈ F, (∃ y ∈ F, y.Hash = n.Parent) → rank n.Parent < rank n.Hash) :
    ∃ fs heap, ListFolder env url (.ok (F, none)) = .ok (some (fs, heap), none) ∧
      (∀ n ∈ F, ∃ p, Reachable fs heap p ∧ hashAt heap p = some n.Hash) ∧
      (∀ p q h, hashAt heap p = some h → hashAt heap q = some h → p = q) ∧
      ((fs.Roots ++ (heap.filter (fun t => t.Node.isSome)).flatMap (fun t => t.Children)).filterMap
          (hashAt heap)).Perm (F.map (fun n => n.Hash)) ∧
      ((fs.Roots ++ (heap.filter (fun t => t.Node.isSome)).flatMap (fun t => t.Children)).filterMap
          (hashAt heap)).Nodup := by
  obtain ⟨m, hm, hinv⟩ := ListFolder_ok env url handle key F hurl hdec
  have hperm : ((collectRoots m
      ++ ((m.map Prod.snd).filter (fun t => t.Node.isSome)).flatMap
        (fun t => t.Children)).filterMap (hashAt (m.map Prod.snd))).Perm
      (F.map (fun n => n.Hash)) := by
    have h1 := (forest_pointers_perm F m hinv).filterMap (hashAt (m.map Prod.snd))
    rw [filterMap_hashAt_pointers F m hinv F (fun _ h => h)] at h1
    exact h1
  refine ⟨_, _, hm, ?_, ?_, hperm, hperm.nodup_iff.mpr hnodup⟩
  · -- every node is reachable, by induction on the rank of its hash
    have hreach : ∀ k, ∀ n ∈ F, rank n.Hash = k →
        Reachable { Roots := collectRoots m } (m.map Prod.snd)
          (keyIndex n.Hash (m.map Prod.fst)) := by
      intro k
      induction k using Nat.strong_induction_on with
      | _ k ih =>
        intro n hn hk
        by_cases hpar : ∃ y ∈ F, y.Hash = n.Parent
        · obtain ⟨y, hy, hyh⟩ := hpar
          have hlt : rank y.Hash < k := by
            rw [hyh, ← hk]
            exact hrank n hn ⟨y, hy, hyh⟩
          have hry := ih (rank y.Hash) hlt y hy rfl
          have hkmem : y.Hash ∈ m.map Prod.fst := (hinv.keys _).mpr (Or.inl ⟨y, hy, rfl⟩)
          obtain ⟨e, he, hek⟩ := List.mem_map.mp hkmem
          have hg := heap_keyIndex m e he hinv.nodup
          rw [hek] at hg
          refine Reachable.child _ _ e.2 hry hg ?_
          rw [hinv.children e he, List.mem_map]
          exact ⟨n, List.mem_filter.mpr ⟨hn, by simpa using hyh.symm.trans hek.symm⟩, rfl⟩
        · exact Reachable.root _ ((mem_collectRoots F m hinv _).mpr ⟨n, hn, hpar, rfl⟩)
    intro n hn
    exact ⟨_, hreach (rank n.Hash) n hn rfl, hashAt_keyIndex F m hinv n.Hash ⟨n, hn, rfl⟩⟩
  · intro p q h hp hq
    rw [(pointer_of_hashAt F m hinv p h hp).1, (pointer_of_hashAt F m hinv q h hq).1]

/-- C13 amended, on the listing of the folder `A` and the file `B`, with the rank 0 for `A`
and 1 for every other hash. -/
theorem ListFolder_every_node_once_witness :
    ∃ fs heap, ListFolder toyEnv sampleURL (.ok ([sampleFolderA, sampleFileB], none))
        = .ok (some (fs, heap), none) ∧
      (∀ n ∈ [sampleFolderA, sampleFileB],
        ∃ p, Reachable fs heap p ∧ hashAt heap p = some n.Hash) ∧
      (∀ p q h, hashAt heap p = some h → hashAt heap q = some h → p = q) ∧
      ((fs.Roots ++ (heap.filter (fun t => t.Node.isSome)).flatMap (fun t => t.Children)).filterMap
          (hashAt heap)).Perm ([sampleFolderA, sampleFileB].map (fun n => n.Hash)) ∧
      ((fs.Roots ++ (heap.filter (fun t => t.Node.isSome)).flatMap (fun t => t.Children)).filterMap
          (hashAt heap)).Nodup :=
  ListFolder_every_node_once toyEnv sampleURL (ascii "abcdefgh") sampleKey
    [sampleFolderA, sampleFileB] (fun h => if h = ascii "A" then 0 else 1) (by rfl) (by decide)
    (by
      intro n hn
      rcases List.mem_cons.mp hn with rfl | hn
      · exact ⟨_, by rfl⟩
      · have : n = sampleFileB := by simpa using hn
        subst this
        exact ⟨_, by rfl⟩)
    (by
      intro n hn hex
      rcases List.mem_cons.mp hn with rfl | hn
      · obtain ⟨y, hy, hyh⟩ := hex
        rcases List.mem_cons.mp hy with rfl | hy
        · exact absurd hyh (by decide)
        · have : y = sampleFileB := by simpa using hy
          subst this
          exact absurd hyh (by decide)
      · have : n = sampleFileB := by simpa using hn
        subst this
        decide)

end Mega
